import Mathlib

/-!
# Ingestion worker (`worker/dataProcessor.js`)

A shallow embedding of the batch ingestion worker: the row loop of
`processAndInsertData`, the field parser `parseDate`, the six collections
the loop writes through `findOneAndUpdate` / reads through `findOne`, the
entry point `processData` as the sequence of its actions on the outside, and
the handlers the upload route (`routes/upload.js`) attaches to the worker.

Conventions of the embedding

* A cell of a row record is a `Val`: absent, text, a number or a boolean
  (the spreadsheet reader delivers numbers and booleans, the delimited-text
  reader delivers text only).  Numeric cells are integers here; a fractional
  number behaves like any other non-zero number (truthy, not text).
* An exception is the message of the thrown error; the only throwing
  operation of the row loop is `.trim()` applied to a cell that is not text.
  The store itself is reachable for the whole run (the worker connects before
  the loop starts), so store operations, `mongoose.disconnect()` and
  `parentPort.postMessage` are total.
* `new Date(value)` is implementation-defined on text and depends on the time
  zone on numbers: it is a parameter `newDate`, giving `none` for an invalid
  date.  `new Date(year, monthIndex, day)` is computed, in local civil time.
-/

namespace DataProcessor

/-! ## Cell values -/

/-- A cell of a row record. -/
inductive Val where
  | undefined
  | str (s : String)
  | num (n : Int)
  | bool (b : Bool)
deriving DecidableEq, Repr

/-- Truthiness of a cell, as tested by `if (cell)`, `cell && ...`, `cell || ...`. -/
def Val.truthy : Val → Bool
  | .undefined => false
  | .str s => decide (s ≠ "")
  | .num n => decide (n ≠ 0)
  | .bool b => b

/-- Value of `cell || dflt` for a text default. -/
def Val.orElse (v : Val) (dflt : String) : Val :=
  if v.truthy then v else .str dflt

/-- Result of `cell.toString()` on a cell that is not absent. -/
def Val.toString : Val → String
  | .undefined => "undefined"
  | .str s => s
  | .num n => ToString.toString n
  | .bool b => if b then "true" else "false"

/-- Characters removed by `String.prototype.trim`: white space and line terminators. -/
def isJsSpace (c : Char) : Bool :=
  c.toNat ∈ [0x09, 0x0A, 0x0B, 0x0C, 0x0D, 0x20, 0xA0, 0x1680, 0x2028, 0x2029,
    0x202F, 0x205F, 0x3000, 0xFEFF] || (0x2000 ≤ c.toNat && c.toNat ≤ 0x200A)

/-- The text with leading and trailing white space removed (`String.prototype.trim`). -/
def jsTrim (s : String) : String :=
  ⟨((s.data.dropWhile isJsSpace).reverse.dropWhile isJsSpace).reverse⟩

/-- The call `row[col].trim()`: defined on text, a `TypeError` on any other cell. -/
def Val.trim (col : String) : Val → Except String String
  | .str s => .ok (jsTrim s)
  | .undefined => .error ("Cannot read properties of undefined (reading " ++ "'trim')")
  | _ => .error ("row." ++ col ++ ".trim is not a function")

/-! ## Dates -/

/-- A valid `Date`, held as its local time value in milliseconds since the
local midnight of 1 January 1970. -/
structure JsDate where
  localTime : Int
deriving DecidableEq, Repr

/-- Milliseconds in a day. -/
def msPerDay : Int := 86400000

/-- Day number of the civil date `year`-`month`-`day` (`month` from 1 to 12)
counted from 1 January 1970, in the proleptic Gregorian calendar. -/
def daysFromCivil (year month day : Int) : Int :=
  let y := if month ≤ 2 then year - 1 else year
  let era := y / 400
  let yoe := y - era * 400
  let mp := if month > 2 then month - 3 else month + 9
  let doy := (153 * mp + 2) / 5 + day - 1
  let doe := yoe * 365 + yoe / 4 - yoe / 100 + doy
  era * 146097 + doe - 719468

/-- Civil date `(year, month, day)` of a day number (`month` from 1 to 12). -/
def civilFromDays (z0 : Int) : Int × Int × Int :=
  let z := z0 + 719468
  let era := z / 146097
  let doe := z - era * 146097
  let yoe := (doe - doe / 1460 + doe / 36524 - doe / 146096) / 365
  let doy := doe - (365 * yoe + yoe / 4 - yoe / 100)
  let mp := (5 * doy + 2) / 153
  let d := doy - (153 * mp + 2) / 5 + 1
  let m := if mp < 10 then mp + 3 else mp - 9
  let y := yoe + era * 400
  (if m ≤ 2 then y + 1 else y, m, d)

/-- The operation `MakeDay(year, month, date)` of the language standard: months beyond the
year carry into the year, days beyond the month carry into the following
months. -/
def makeDay (year month date : Int) : Int :=
  daysFromCivil (year + month / 12) (month % 12 + 1) 1 + date - 1

/-- The date `new Date(year, monthIndex, day)`: a year from 0 to 99 means
1900 + year; the time of day is local midnight (on a day whose midnight a
daylight-saving change skips, the date is one hour later; its year, month and
day, which is all that is read of it here, are the same).  The arguments the
patterns can deliver (at most four digits each) stay far inside the range of
valid time values, so the date is always valid. -/
def JsDate.ofYMD (year monthIndex day : Int) : JsDate :=
  let yr := if 0 ≤ year ∧ year ≤ 99 then 1900 + year else year
  ⟨makeDay yr monthIndex day * msPerDay⟩

/-- The getter `getFullYear()`. -/
def JsDate.getFullYear (d : JsDate) : Int := (civilFromDays (d.localTime / msPerDay)).1

/-- The getter `getMonth()`: the month index, from 0 to 11. -/
def JsDate.getMonth (d : JsDate) : Int := (civilFromDays (d.localTime / msPerDay)).2.1 - 1

/-- The getter `getDate()`: the day of the month. -/
def JsDate.getDate (d : JsDate) : Int := (civilFromDays (d.localTime / msPerDay)).2.2

/-! ## The three date patterns of `parseDate` -/

/-- Exactly `n` decimal digits at the head of the text: the digits and the rest. -/
def digitsExact : Nat → List Char → Option (List Char × List Char)
  | 0, cs => some ([], cs)
  | _ + 1, [] => none
  | n + 1, c :: cs =>
    if c.isDigit then (digitsExact n cs).map (fun p => (c :: p.1, p.2)) else none

/-- The group `(\d{1,2})` followed by the rest of the pattern: greedy, two
digits are tried before one. -/
def group12 {β : Type} (cs : List Char) (rest : List Char → List Char → Option β) : Option β :=
  match (digitsExact 2 cs).bind (fun p => rest p.1 p.2) with
  | some r => some r
  | none => (digitsExact 1 cs).bind (fun p => rest p.1 p.2)

/-- The group `(\d{4})` followed by the rest of the pattern. -/
def group4 {β : Type} (cs : List Char) (rest : List Char → List Char → Option β) : Option β :=
  (digitsExact 4 cs).bind (fun p => rest p.1 p.2)

/-- A literal character followed by the rest of the pattern. -/
def lit {β : Type} (c : Char) (cs : List Char) (rest : List Char → Option β) : Option β :=
  match cs with
  | [] => none
  | d :: ds => if d = c then rest ds else none

/-- The three capture groups of a match, in the order of the pattern. -/
abbrev Groups := List Char × List Char × List Char

/-- The pattern `/(\d{1,2})\/(\d{1,2})\/(\d{4})/` (commented `MM/DD/YYYY`) anchored at the head of the text. -/
def slashAt (cs : List Char) : Option Groups :=
  group12 cs fun g1 r1 => lit (Char.ofNat 47) r1 fun r2 =>
    group12 r2 fun g2 r3 => lit (Char.ofNat 47) r3 fun r4 =>
      group4 r4 fun g3 _ => some (g1, g2, g3)

/-- The pattern `/(\d{4})-(\d{1,2})-(\d{1,2})/` (commented `YYYY-MM-DD`) anchored at the head of the text. -/
def isoAt (cs : List Char) : Option Groups :=
  group4 cs fun g1 r1 => lit (Char.ofNat 45) r1 fun r2 =>
    group12 r2 fun g2 r3 => lit (Char.ofNat 45) r3 fun r4 =>
      group12 r4 fun g3 _ => some (g1, g2, g3)

/-- The pattern `/(\d{1,2})-(\d{1,2})-(\d{4})/` (commented `MM-DD-YYYY`) anchored at the head of the text. -/
def dashAt (cs : List Char) : Option Groups :=
  group12 cs fun g1 r1 => lit (Char.ofNat 45) r1 fun r2 =>
    group12 r2 fun g2 r3 => lit (Char.ofNat 45) r3 fun r4 =>
      group4 r4 fun g3 _ => some (g1, g2, g3)

/-- The call `text.match(pattern)` for a pattern without anchors: the match at the
leftmost position where the pattern matches. -/
def search (pat : List Char → Option Groups) : List Char → Option Groups
  | [] => pat []
  | c :: cs =>
    match pat (c :: cs) with
    | some g => some g
    | none => search pat cs

/-- The array `formats`, in its order. -/
def formats : List (List Char → Option Groups) := [slashAt, isoAt, dashAt]

/-- The loop `for (const format of formats)`: the groups of the first pattern
that matches. -/
def firstMatch : List (List Char → Option Groups) → List Char → Option Groups
  | [], _ => none
  | f :: fs, cs =>
    match search f cs with
    | some g => some g
    | none => firstMatch fs cs

/-- Numeric value of a string of decimal digits. -/
def digitsToNat (ds : List Char) : Nat :=
  ds.foldl (fun n c => 10 * n + (c.toNat - 48)) 0

/-- The function `parseDate(dateString)`.  The destructuring `[, month, day, year] = match`
names the first, second and third group, whichever pattern matched. -/
def parseDate (newDate : Val → Option JsDate) (dateString : Val) : Option JsDate :=
  if !dateString.truthy then none
  else
    match newDate dateString with
    | some date => some date
    | none =>
      match firstMatch formats dateString.toString.data with
      | some (month, day, year) =>
        some (JsDate.ofYMD (digitsToNat year) ((digitsToNat month : Int) - 1) (digitsToNat day))
      | none => none

/-! ## Row records -/

/-- A row record: the cells under the sixteen column headers the loop reads
(`row.Agent`, `row['First Name']`, ...).  A header missing from the file is an
absent cell. -/
structure Row where
  Agent : Val := .undefined
  FirstName : Val := .undefined
  Email : Val := .undefined
  DOB : Val := .undefined
  Address : Val := .undefined
  Phone : Val := .undefined
  State : Val := .undefined
  Zip : Val := .undefined
  Gender : Val := .undefined
  UserType : Val := .undefined
  AccountName : Val := .undefined
  Category : Val := .undefined
  Carrier : Val := .undefined
  PolicyNumber : Val := .undefined
  StartDate : Val := .undefined
  EndDate : Val := .undefined
deriving DecidableEq, Repr

/-! ## The store -/

/-- A stored document: its `_id` and the fields the loop writes. -/
structure Doc (α : Type) where
  _id : Nat
  fields : α
deriving DecidableEq, Repr

/-- Modelled from the spec: the model modules (`models/Agent` ... `models/Policy`)
and the store behind them are not part of the sources, so a collection follows
the upsert contract of §4.3 and the data model of §3: documents in insertion
order, each with a fresh `_id`, matched by natural key. -/
structure Collection (α : Type) where
  docs : List (Doc α)
  nextId : Nat
deriving DecidableEq, Repr

/-- The empty collection. -/
def Collection.empty {α : Type} : Collection α := ⟨[], 0⟩

/-- Modelled from the spec: `Model.findOne({keyField: k})`, the companion
lookup of §4.3: the first document whose natural key is `k`; it never creates
a record. -/
def Collection.findOne {α : Type} (key : α → String) (k : String) (c : Collection α) :
    Option (Doc α) :=
  c.docs.find? (fun d => key d.fields == k)

/-- Overwrite the fields of the first document whose natural key is `k`. -/
def updateFirst {α : Type} (key : α → String) (k : String) (v : α) :
    List (Doc α) → List (Doc α)
  | [] => []
  | d :: ds =>
    if key d.fields == k then { d with fields := v } :: ds
    else d :: updateFirst key k v ds

/-- Modelled from the spec: `Model.findOneAndUpdate({keyField: k}, v, {upsert: true, new: true})`,
the upsert of §4.3: the document with natural key `k` has its tracked fields
overwritten by `v` (last write wins, no merge of sub-fields), and a new
document with a fresh `_id` is inserted when there is none.  The loop does not
use the returned document, so only the collection is returned. -/
def Collection.findOneAndUpdate {α : Type} (key : α → String) (k : String) (v : α)
    (c : Collection α) : Collection α :=
  match c.findOne key k with
  | some _ => { c with docs := updateFirst key k v c.docs }
  | none => { docs := c.docs ++ [⟨c.nextId, v⟩], nextId := c.nextId + 1 }

/-- Agent: natural key `agentName`. -/
structure AgentFields where
  agentName : String
deriving DecidableEq, Repr

/-- User: natural key `email`.  The optional attributes are stored as handed
to the store (`row[col] || default`). -/
structure UserFields where
  firstName : String
  dob : Option JsDate
  address : Val
  phone : Val
  state : Val
  zip : Val
  email : String
  gender : Val
  userType : Val
deriving DecidableEq, Repr

/-- Account: natural key `accountName`. -/
structure AccountFields where
  accountName : String
deriving DecidableEq, Repr

/-- Line of business: natural key `categoryName`. -/
structure LOBFields where
  categoryName : String
deriving DecidableEq, Repr

/-- Carrier: natural key `companyName`. -/
structure CarrierFields where
  companyName : String
deriving DecidableEq, Repr

/-- Policy: natural key `policyNumber`; `userId` is required, the other three
references are optional (`category?._id` and the like). -/
structure PolicyFields where
  policyNumber : String
  startDate : Option JsDate
  endDate : Option JsDate
  categoryId : Option Nat
  carrierId : Option Nat
  userId : Nat
  accountId : Option Nat
deriving DecidableEq, Repr

/-- The six collections. -/
structure Db where
  agents : Collection AgentFields
  users : Collection UserFields
  accounts : Collection AccountFields
  lobs : Collection LOBFields
  carriers : Collection CarrierFields
  policies : Collection PolicyFields
deriving DecidableEq, Repr

/-- The store with no document. -/
def Db.empty : Db :=
  ⟨Collection.empty, Collection.empty, Collection.empty, Collection.empty,
    Collection.empty, Collection.empty⟩

/-- At most one document per natural key. -/
def Collection.UniqueKeys {α : Type} (key : α → String) (c : Collection α) : Prop :=
  (c.docs.map (fun d => key d.fields)).Nodup

/-- Natural keys are unique within each of the six kinds. -/
structure Db.UniqueKeys (db : Db) : Prop where
  agents : db.agents.UniqueKeys AgentFields.agentName
  users : db.users.UniqueKeys UserFields.email
  accounts : db.accounts.UniqueKeys AccountFields.accountName
  lobs : db.lobs.UniqueKeys LOBFields.categoryName
  carriers : db.carriers.UniqueKeys CarrierFields.companyName
  policies : db.policies.UniqueKeys PolicyFields.policyNumber

/-! ## The row loop of `processAndInsertData` -/

/-- The object `summary`. -/
structure Summary where
  agents : Nat
  users : Nat
  accounts : Nat
  lobs : Nat
  carriers : Nat
  policies : Nat
  errors : Nat
deriving DecidableEq, Repr

/-- The initial `summary`: every counter is 0. -/
def Summary.zero : Summary := ⟨0, 0, 0, 0, 0, 0, 0⟩

/-- What a row step reads and writes: the store and the counters. -/
structure World where
  db : Db
  summary : Summary
deriving DecidableEq, Repr

/-- Guard and key of the Agent step, `if (row.Agent && row.Agent.trim())`:
an exception, no upsert, or the key to upsert. -/
def agentKey (row : Row) : Except String (Option String) :=
  if row.Agent.truthy then
    match row.Agent.trim "Agent" with
    | .error e => .error e
    | .ok name => if name ≠ "" then .ok (some name) else .ok none
  else .ok none

/-- Guard and document of the User step, `if (row['First Name'] && row['Email'])`
followed by the object `userData`. -/
def userData (newDate : Val → Option JsDate) (row : Row) : Except String (Option UserFields) :=
  if row.FirstName.truthy && row.Email.truthy then
    match row.FirstName.trim "First Name" with
    | .error e => .error e
    | .ok firstName =>
      match row.Email.trim "Email" with
      | .error e => .error e
      | .ok email =>
        .ok (some
          { firstName := firstName
            dob := parseDate newDate row.DOB
            address := row.Address.orElse ""
            phone := row.Phone.orElse ""
            state := row.State.orElse ""
            zip := row.Zip.orElse ""
            email := email
            gender := row.Gender.orElse ""
            userType := row.UserType.orElse "Customer" })
  else .ok none

/-- Guard and key of the Account, LOB and Carrier steps, `if (row[col])` with
key `row[col].trim()`. -/
def leafKey (cell : Val) (col : String) : Except String (Option String) :=
  if cell.truthy then
    match cell.trim col with
    | .error e => .error e
    | .ok k => .ok (some k)
  else .ok none

/-- A lookup of the Policy step, `row[col] ? await Model.findOne({keyField: row[col].trim()}) : null`. -/
def lookupRef {α : Type} (cell : Val) (col : String) (key : α → String) (c : Collection α) :
    Except String (Option (Doc α)) :=
  if cell.truthy then
    match cell.trim col with
    | .error e => .error e
    | .ok k => .ok (c.findOne key k)
  else .ok none

/-- Guard, lookups and document of the Policy step: the object `policyData`,
built only when the user lookup finds a document. -/
def policyData (newDate : Val → Option JsDate) (row : Row) (db : Db) :
    Except String (Option PolicyFields) :=
  if row.PolicyNumber.truthy && row.FirstName.truthy && row.Email.truthy then
    match row.Email.trim "Email" with
    | .error e => .error e
    | .ok email =>
      match lookupRef row.AccountName "Account Name" AccountFields.accountName db.accounts with
      | .error e => .error e
      | .ok account =>
        match lookupRef row.Category "Category" LOBFields.categoryName db.lobs with
        | .error e => .error e
        | .ok category =>
          match lookupRef row.Carrier "Carrier" CarrierFields.companyName db.carriers with
          | .error e => .error e
          | .ok carrier =>
            match db.users.findOne UserFields.email email with
            | none => .ok none
            | some user =>
              match row.PolicyNumber.trim "Policy Number" with
              | .error e => .error e
              | .ok policyNumber =>
                .ok (some
                  { policyNumber := policyNumber
                    startDate := parseDate newDate row.StartDate
                    endDate := parseDate newDate row.EndDate
                    categoryId := category.map (fun d => d._id)
                    carrierId := carrier.map (fun d => d._id)
                    userId := user._id
                    accountId := account.map (fun d => d._id) })
  else .ok none

/-- The Agent step. -/
def stepAgent (row : Row) (w : World) : Except String World :=
  match agentKey row with
  | .error e => .error e
  | .ok none => .ok w
  | .ok (some name) =>
    .ok { db := { w.db with
                  agents := w.db.agents.findOneAndUpdate AgentFields.agentName name ⟨name⟩ }
          summary := { w.summary with agents := w.summary.agents + 1 } }

/-- The User step. -/
def stepUser (newDate : Val → Option JsDate) (row : Row) (w : World) : Except String World :=
  match userData newDate row with
  | .error e => .error e
  | .ok none => .ok w
  | .ok (some u) =>
    .ok { db := { w.db with users := w.db.users.findOneAndUpdate UserFields.email u.email u }
          summary := { w.summary with users := w.summary.users + 1 } }

/-- The Account step. -/
def stepAccount (row : Row) (w : World) : Except String World :=
  match leafKey row.AccountName "Account Name" with
  | .error e => .error e
  | .ok none => .ok w
  | .ok (some k) =>
    .ok { db := { w.db with
                  accounts := w.db.accounts.findOneAndUpdate AccountFields.accountName k ⟨k⟩ }
          summary := { w.summary with accounts := w.summary.accounts + 1 } }

/-- The LOB (line of business) step. -/
def stepLOB (row : Row) (w : World) : Except String World :=
  match leafKey row.Category "Category" with
  | .error e => .error e
  | .ok none => .ok w
  | .ok (some k) =>
    .ok { db := { w.db with lobs := w.db.lobs.findOneAndUpdate LOBFields.categoryName k ⟨k⟩ }
          summary := { w.summary with lobs := w.summary.lobs + 1 } }

/-- The Carrier step. -/
def stepCarrier (row : Row) (w : World) : Except String World :=
  match leafKey row.Carrier "Carrier" with
  | .error e => .error e
  | .ok none => .ok w
  | .ok (some k) =>
    .ok { db := { w.db with
                  carriers := w.db.carriers.findOneAndUpdate CarrierFields.companyName k ⟨k⟩ }
          summary := { w.summary with carriers := w.summary.carriers + 1 } }

/-- The Policy step. -/
def stepPolicy (newDate : Val → Option JsDate) (row : Row) (w : World) : Except String World :=
  match policyData newDate row w.db with
  | .error e => .error e
  | .ok none => .ok w
  | .ok (some p) =>
    .ok { db := { w.db with
                  policies := w.db.policies.findOneAndUpdate PolicyFields.policyNumber
                    p.policyNumber p }
          summary := { w.summary with policies := w.summary.policies + 1 } }

/-- The statements of a `try` block in order: the first exception ends the
block, and what the earlier statements wrote stays written. -/
def runSteps : List (World → Except String World) → World → World × Option String
  | [], w => (w, none)
  | step :: steps, w =>
    match step w with
    | .error e => (w, some e)
    | .ok w1 => runSteps steps w1

/-- The body of the `try` block for one row: the six steps in their order. -/
def processRow (newDate : Val → Option JsDate) (row : Row) (w : World) : World × Option String :=
  runSteps [stepAgent row, stepUser newDate row, stepAccount row, stepLOB row,
    stepCarrier row, stepPolicy newDate row] w

/-- The entry pushed by the `catch` block for the row of index `i`. -/
def rowErrorEntry (i : Nat) (message : String) : String :=
  "Row " ++ ToString.toString (i + 1) ++ ": " ++ message

/-- The loop `for (let i = 0; i < data.length; i++)`, from index `i` on, with
the array `errors` collected so far. -/
def loop (newDate : Val → Option JsDate) : List Row → Nat → World → List String →
    World × List String
  | [], _, w, errors => (w, errors)
  | row :: rest, i, w, errors =>
    match processRow newDate row w with
    | (w1, none) => loop newDate rest (i + 1) w1 errors
    | (w1, some message) =>
      loop newDate rest (i + 1)
        { w1 with summary := { w1.summary with errors := w1.summary.errors + 1 } }
        (errors ++ [rowErrorEntry i message])

/-- The object returned by `processAndInsertData`; `errors` is `undefined`
(here `none`) when no row failed. -/
structure JobResult where
  recordsProcessed : Nat
  summary : Summary
  errors : Option (List String)
deriving DecidableEq, Repr

/-- The function `processAndInsertData(data)`: the returned object and the store it leaves. -/
def processAndInsertData (newDate : Val → Option JsDate) (data : List Row) (db : Db) :
    JobResult × Db :=
  let out := loop newDate data 0 ⟨db, Summary.zero⟩ []
  ({ recordsProcessed := data.length
     summary := out.1.summary
     errors := if out.2.length > 0 then some out.2 else none },
   out.1.db)

/-! ## The worker entry point `processData` -/

/-- The object posted to the parent thread: the object `processAndInsertData`
returned, or the fatal shape `{ error, recordsProcessed: 0, summary: {} }`,
whose empty `summary` is `none` here. -/
structure Message where
  error : Option String
  recordsProcessed : Nat
  summary : Option Summary
  errors : Option (List String)
deriving DecidableEq, Repr

/-- The message that carries the object `processAndInsertData` returned. -/
def Message.ofResult (r : JobResult) : Message :=
  { error := none, recordsProcessed := r.recordsProcessed, summary := some r.summary,
    errors := r.errors }

/-- The message of the `catch` block of `processData`:
`{ error: error.message, recordsProcessed: 0, summary: {} }`. -/
def Message.fatal (message : String) : Message :=
  { error := some message, recordsProcessed := 0, summary := none, errors := none }

/-- What `processData` does to the outside, in the order it does it. -/
inductive Event where
  | connect
  | readCSV (filePath : String)
  | readExcel (filePath : String)
  | processRows (data : List Row)
  | disconnect
  | postMessage (m : Message)
  | uncaughtException (message : String)
deriving DecidableEq, Repr

/-- What the delimited-text file of a path gives when it is streamed through
the parser: the rows up to the end of the stream, an error of the parser, or an
error of the read stream itself (the file cannot be opened or read). -/
inductive CsvOutcome where
  | rows (data : List Row)
  | parserError (message : String)
  | streamError (message : String)

/-- How an awaited call ends: it returns, it raises an error the caller can
catch, or an `error` event without a listener ends the worker thread while the
promise never settles. -/
inductive Awaited (α : Type) where
  | returned (a : α)
  | raised (message : String)
  | uncaught (message : String)

/-- What a run of the worker is given: `workerData`, whether the store can be
reached, what the delimited-text file of a path gives, what the spreadsheet
library delivers for a path (the rows, or the message of its error), and the
date constructor. -/
structure WorkerEnv where
  filePath : String
  fileType : String
  connects : Bool
  csv : String → CsvOutcome
  xlsx : String → Except String (List Row)
  newDate : Val → Option JsDate

/-- The function `connectDB()`: `true` when `mongoose.connect` succeeds, `false`
when it raises. -/
def connectDB (env : WorkerEnv) : Bool := env.connects

/-- The function `readCSVFile(filePath)`.  The promise resolves with the rows
at the `end` event and rejects at the `error` event of the parser: the listeners
are attached to what `.pipe(parse(...))` returns, which is the parser.  The read
stream has no `error` listener, so an error of the read stream is an uncaught
exception. -/
def readCSVFile (env : WorkerEnv) (filePath : String) : Awaited (List Row) :=
  match env.csv filePath with
  | .rows data => .returned data
  | .parserError message => .raised message
  | .streamError message => .uncaught message

/-- The function `readExcelFile(filePath)`: the rows of the first sheet, or an
error whose message is prefixed. -/
def readExcelFile (env : WorkerEnv) (filePath : String) : Awaited (List Row) :=
  match env.xlsx filePath with
  | .ok data => .returned data
  | .error message => .raised ("Failed to read Excel file: " ++ message)

/-- How the `try` block of `processData` ends: it runs to its end, it raises an
error for the `catch` block, or the worker thread ends on an uncaught exception. -/
inductive TryEnd where
  | completed
  | thrown (message : String)
  | uncaught (message : String)

/-- The `try` block of `processData`: the events, the store it leaves, and how
it ends. -/
def processDataTry (env : WorkerEnv) (db : Db) : List Event × Db × TryEnd :=
  if !connectDB env then ([.connect], db, .thrown "Failed to connect to database")
  else
    let read : List Event × Awaited (List Row) :=
      if env.fileType = ".csv" then
        ([.readCSV env.filePath], readCSVFile env env.filePath)
      else if env.fileType = ".xlsx" ∨ env.fileType = ".xls" then
        ([.readExcel env.filePath], readExcelFile env env.filePath)
      else ([], .raised "Unsupported file type")
    match read.2 with
    | .uncaught message => (.connect :: read.1, db, .uncaught message)
    | .raised message => (.connect :: read.1, db, .thrown message)
    | .returned data =>
      if data.length = 0 then (.connect :: read.1, db, .thrown "No data found in file")
      else
        let out := processAndInsertData env.newDate data db
        (.connect :: read.1 ++
            [.processRows data, .disconnect, .postMessage (Message.ofResult out.1)],
          out.2, .completed)

/-- The function `processData()`: the `try` block, and the `catch` block that
posts the fatal shape.  An uncaught exception reaches neither: the worker
thread ends with nothing posted. -/
def processData (env : WorkerEnv) (db : Db) : List Event × Db :=
  match processDataTry env db with
  | (events, db1, .completed) => (events, db1)
  | (events, db1, .thrown message) =>
    (events ++ [.postMessage (Message.fatal message)], db1)
  | (events, db1, .uncaught message) => (events ++ [.uncaughtException message], db1)

/-- The messages a run posted, in order. -/
def posted : List Event → List Message
  | [] => []
  | .postMessage m :: rest => m :: posted rest
  | _ :: rest => posted rest

/-! ## The worker handlers of the upload route (`routes/upload.js`) -/

/-- The variables `result` and `error` of the request handler. -/
structure WorkerWatch where
  result : Option Message
  error : Option String
deriving DecidableEq, Repr

/-- The variables as declared: `let result = null; let error = null`. -/
def WorkerWatch.init : WorkerWatch := ⟨none, none⟩

/-- The body of a response. -/
inductive Body where
  | failure (error : String) (details : String)
  | success (message : String) (recordsProcessed : Nat) (summary : Option Summary)
deriving DecidableEq, Repr

/-- What the exit handler answers: a JSON response with its status, or an
exception of its own when it reads a field of `null`. -/
inductive Response where
  | json (status : Nat) (body : Body)
  | uncaught (message : String)
deriving DecidableEq, Repr

/-- The handler `worker.on('message', ...)`: `result = data`. -/
def onMessage (data : Message) (s : WorkerWatch) : WorkerWatch :=
  { s with result := some data }

/-- The handler `worker.on('error', ...)`: `error = err`. -/
def onError (err : String) (s : WorkerWatch) : WorkerWatch :=
  { s with error := some err }

/-- The handler `worker.on('exit', ...)`: a non-zero exit code is an error, an
error answers 500, and anything else answers the success body with the fields
of `result`. -/
def onExit (code : Int) (s : WorkerWatch) : Response :=
  let error : Option String :=
    if code ≠ 0 then some ("Worker stopped with exit code " ++ ToString.toString code)
    else s.error
  match error with
  | some message => .json 500 (.failure "File processing failed" message)
  | none =>
    match s.result with
    | some result =>
      .json 200 (.success "File uploaded and processed successfully"
        result.recordsProcessed result.summary)
    | none => .uncaught "Cannot read properties of null (reading 'recordsProcessed')"

/-! ## Auxiliary definitions for the proofs -/

/-- A sequence of upserts, each keyed by the natural key of the fields written. -/
def upsertAll {α : Type} (key : α → String) (ops : List α) (c : Collection α) : Collection α :=
  ops.foldl (fun c v => c.findOneAndUpdate key (key v) v) c

/-- The `_id` under which a natural key is stored, if it is stored. -/
def idOf {α : Type} (key : α → String) (c : Collection α) (k : String) : Option Nat :=
  (c.findOne key k).map (fun d => d._id)

/-- What an upsert of `v` does to one document when keys are unique. -/
def setFields {α : Type} (key : α → String) (v : α) (d : Doc α) : Doc α :=
  if key d.fields == key v then { d with fields := v } else d

/-- What a sequence of upserts does to one document when keys are unique. -/
def applyAll {α : Type} (key : α → String) (ops : List α) (d : Doc α) : Doc α :=
  ops.foldl (fun d v => setFields key v d) d

/-- Effect of the Agent step once its guard is decided. -/
def putAgent (a : Option String) (w : World) : World :=
  match a with
  | none => w
  | some name =>
    { db := { w.db with
              agents := w.db.agents.findOneAndUpdate AgentFields.agentName name ⟨name⟩ }
      summary := { w.summary with agents := w.summary.agents + 1 } }

/-- Effect of the User step once its guard is decided. -/
def putUser (u : Option UserFields) (w : World) : World :=
  match u with
  | none => w
  | some u =>
    { db := { w.db with users := w.db.users.findOneAndUpdate UserFields.email u.email u }
      summary := { w.summary with users := w.summary.users + 1 } }

/-- Effect of the Account step once its guard is decided. -/
def putAccount (a : Option String) (w : World) : World :=
  match a with
  | none => w
  | some k =>
    { db := { w.db with
              accounts := w.db.accounts.findOneAndUpdate AccountFields.accountName k ⟨k⟩ }
      summary := { w.summary with accounts := w.summary.accounts + 1 } }

/-- Effect of the LOB step once its guard is decided. -/
def putLOB (a : Option String) (w : World) : World :=
  match a with
  | none => w
  | some k =>
    { db := { w.db with lobs := w.db.lobs.findOneAndUpdate LOBFields.categoryName k ⟨k⟩ }
      summary := { w.summary with lobs := w.summary.lobs + 1 } }

/-- Effect of the Carrier step once its guard is decided. -/
def putCarrier (a : Option String) (w : World) : World :=
  match a with
  | none => w
  | some k =>
    { db := { w.db with
              carriers := w.db.carriers.findOneAndUpdate CarrierFields.companyName k ⟨k⟩ }
      summary := { w.summary with carriers := w.summary.carriers + 1 } }

/-- Effect of the Policy step once its guard and lookups are decided. -/
def putPolicy (p : Option PolicyFields) (w : World) : World :=
  match p with
  | none => w
  | some p =>
    { db := { w.db with
              policies := w.db.policies.findOneAndUpdate PolicyFields.policyNumber
                p.policyNumber p }
      summary := { w.summary with policies := w.summary.policies + 1 } }

/-- The row body spelled out: each step is its decision followed by its effect,
and the first decision that raises ends the row. -/
def rowResult (newDate : Val → Option JsDate) (row : Row) (w : World) : World × Option String :=
  match agentKey row with
  | .error e => (w, some e)
  | .ok a =>
    match userData newDate row with
    | .error e => (putAgent a w, some e)
    | .ok u =>
      match leafKey row.AccountName "Account Name" with
      | .error e => (putUser u (putAgent a w), some e)
      | .ok ac =>
        match leafKey row.Category "Category" with
        | .error e => (putAccount ac (putUser u (putAgent a w)), some e)
        | .ok l =>
          match leafKey row.Carrier "Carrier" with
          | .error e => (putLOB l (putAccount ac (putUser u (putAgent a w))), some e)
          | .ok c =>
            match policyData newDate row
                (putCarrier c (putLOB l (putAccount ac (putUser u (putAgent a w))))).db with
            | .error e =>
              (putCarrier c (putLOB l (putAccount ac (putUser u (putAgent a w)))), some e)
            | .ok p =>
              (putPolicy p (putCarrier c (putLOB l (putAccount ac (putUser u (putAgent a w))))),
                none)

/-- The upserts of the first five steps of a row, cut at the first step that
raises; `reachesPolicy` tells whether the Policy step is reached. -/
structure LeafOps where
  agents : List AgentFields
  users : List UserFields
  accounts : List AccountFields
  lobs : List LOBFields
  carriers : List CarrierFields
  reachesPolicy : Bool

/-- The upserts of the first five steps, read off the row alone. -/
def leafOps (newDate : Val → Option JsDate) (row : Row) : LeafOps :=
  match agentKey row with
  | .error _ => ⟨[], [], [], [], [], false⟩
  | .ok a =>
    match userData newDate row with
    | .error _ => ⟨(a.map AgentFields.mk).toList, [], [], [], [], false⟩
    | .ok u =>
      match leafKey row.AccountName "Account Name" with
      | .error _ => ⟨(a.map AgentFields.mk).toList, u.toList, [], [], [], false⟩
      | .ok ac =>
        match leafKey row.Category "Category" with
        | .error _ =>
          ⟨(a.map AgentFields.mk).toList, u.toList, (ac.map AccountFields.mk).toList, [], [], false⟩
        | .ok l =>
          match leafKey row.Carrier "Carrier" with
          | .error _ =>
            ⟨(a.map AgentFields.mk).toList, u.toList, (ac.map AccountFields.mk).toList,
              (l.map LOBFields.mk).toList, [], false⟩
          | .ok c =>
            ⟨(a.map AgentFields.mk).toList, u.toList, (ac.map AccountFields.mk).toList,
              (l.map LOBFields.mk).toList, (c.map CarrierFields.mk).toList, true⟩

/-- The store after the upserts of the first five steps. -/
def applyLeaf (ops : LeafOps) (db : Db) : Db :=
  { agents := upsertAll AgentFields.agentName ops.agents db.agents
    users := upsertAll UserFields.email ops.users db.users
    accounts := upsertAll AccountFields.accountName ops.accounts db.accounts
    lobs := upsertAll LOBFields.categoryName ops.lobs db.lobs
    carriers := upsertAll CarrierFields.companyName ops.carriers db.carriers
    policies := db.policies }

/-- The upsert of the Policy step, resolved against the store `db` the step reads. -/
def policyOps (newDate : Val → Option JsDate) (row : Row) (db : Db) : List PolicyFields :=
  if (leafOps newDate row).reachesPolicy then
    match policyData newDate row db with
    | .ok (some p) => [p]
    | _ => []
  else []

/-- The store after the upsert of the Policy step. -/
def applyPolicy (ops : List PolicyFields) (db : Db) : Db :=
  { db with policies := upsertAll PolicyFields.policyNumber ops db.policies }

/-- The store a row leaves, whatever the counters are. -/
def rowDb (newDate : Val → Option JsDate) (row : Row) (db : Db) : Db :=
  applyPolicy (policyOps newDate row (applyLeaf (leafOps newDate row) db))
    (applyLeaf (leafOps newDate row) db)

/-- The store the loop leaves after the rows of `data`, in order. -/
def runDb (newDate : Val → Option JsDate) : List Row → Db → Db
  | [], db => db
  | row :: rest, db => runDb newDate rest (rowDb newDate row db)

/-- The upserts of one kind over all rows, in file order. -/
def collect {α : Type} (f : Row → List α) : List Row → List α
  | [] => []
  | row :: rest => f row ++ collect f rest

/-- The Policy upserts of a run, each resolved against the store its row reads. -/
def policyTrace (newDate : Val → Option JsDate) : List Row → Db → List PolicyFields
  | [], _ => []
  | row :: rest, db =>
    policyOps newDate row (applyLeaf (leafOps newDate row) db) ++
      policyTrace newDate rest (rowDb newDate row db)

/-- The document of the Policy step from the `_id`s its lookups return. -/
def policyFromIds (newDate : Val → Option JsDate) (row : Row) (uid : Option Nat)
    (acc cat car : Option Nat) : Except String (Option PolicyFields) :=
  match uid with
  | none => .ok none
  | some i =>
    match row.PolicyNumber.trim "Policy Number" with
    | .error e => .error e
    | .ok policyNumber =>
      .ok (some
        { policyNumber := policyNumber
          startDate := parseDate newDate row.StartDate
          endDate := parseDate newDate row.EndDate
          categoryId := cat
          carrierId := car
          userId := i
          accountId := acc })

/-- Two stores give the keys a row upserts the same `_id`s. -/
def AgreeOn (ops : LeafOps) (a b : Db) : Prop :=
  (∀ v ∈ ops.users, idOf UserFields.email a.users v.email = idOf UserFields.email b.users v.email) ∧
  (∀ v ∈ ops.accounts, idOf AccountFields.accountName a.accounts v.accountName =
    idOf AccountFields.accountName b.accounts v.accountName) ∧
  (∀ v ∈ ops.lobs, idOf LOBFields.categoryName a.lobs v.categoryName =
    idOf LOBFields.categoryName b.lobs v.categoryName) ∧
  (∀ v ∈ ops.carriers, idOf CarrierFields.companyName a.carriers v.companyName =
    idOf CarrierFields.companyName b.carriers v.companyName)

/-- Two stores give every key the same `_id` in the four kinds a Policy refers to. -/
def SameIds (a b : Db) : Prop :=
  (∀ k, idOf UserFields.email a.users k = idOf UserFields.email b.users k) ∧
  (∀ k, idOf AccountFields.accountName a.accounts k = idOf AccountFields.accountName b.accounts k) ∧
  (∀ k, idOf LOBFields.categoryName a.lobs k = idOf LOBFields.categoryName b.lobs k) ∧
  (∀ k, idOf CarrierFields.companyName a.carriers k = idOf CarrierFields.companyName b.carriers k)

/-- The counters a row leaves: each kind counts the upserts the row made. -/
def rowSummary (newDate : Val → Option JsDate) (row : Row) (db : Db) (s : Summary) : Summary :=
  { agents := s.agents + (leafOps newDate row).agents.length
    users := s.users + (leafOps newDate row).users.length
    accounts := s.accounts + (leafOps newDate row).accounts.length
    lobs := s.lobs + (leafOps newDate row).lobs.length
    carriers := s.carriers + (leafOps newDate row).carriers.length
    policies := s.policies +
      (policyOps newDate row (applyLeaf (leafOps newDate row) db)).length
    errors := s.errors }

/-- The world after the loop body for one row: the `try` block, and the
`catch` block when the row raised. -/
def afterRow (newDate : Val → Option JsDate) (row : Row) (w : World) : World :=
  match processRow newDate row w with
  | (w1, none) => w1
  | (w1, some _) => { w1 with summary := { w1.summary with errors := w1.summary.errors + 1 } }

/-- The outcome of each row, in file order, when the loop runs from `w`: the
message of the exception the row raised, or `none`. -/
def rowOutcomes (newDate : Val → Option JsDate) : List Row → World → List (Option String)
  | [], _ => []
  | row :: rest, w => (processRow newDate row w).2 :: rowOutcomes newDate rest (afterRow newDate row w)

/-- The world after the loop over `data`. -/
def runWorld (newDate : Val → Option JsDate) : List Row → World → World
  | [], w => w
  | row :: rest, w => runWorld newDate rest (afterRow newDate row w)

/-- The entries pushed to `errors` for the outcomes of the rows from index `i` on. -/
def errorEntries : Nat → List (Option String) → List String
  | _, [] => []
  | i, none :: os => errorEntries (i + 1) os
  | i, some m :: os => rowErrorEntry i m :: errorEntries (i + 1) os

/-- The cell is text or falsy: no step applies `.trim()` to it as a non-text value. -/
def NotRaising (v : Val) : Prop := v.truthy = true → ∃ s, v = .str s

/-- An upsert of `v` into a collection that holds the key of `v` adds no
document and leaves that document with the fields `v` and its `_id`. -/
def Overwrites {α : Type} (key : α → String) (before after : Collection α) (v : α) : Prop :=
  ∀ d, before.findOne key (key v) = some d →
    after.docs.length = before.docs.length ∧ after.findOne key (key v) = some ⟨d._id, v⟩

/-- An optional reference of a Policy is absent, or is the `_id` of the
document stored under the trimmed text of the row's cell. -/
def RefResolved {α : Type} (cell : Val) (key : α → String) (c : Collection α)
    (ref : Option Nat) : Prop :=
  ref = none ∨ ∃ s d, cell = .str s ∧ c.findOne key (jsTrim s) = some d ∧ ref = some d._id

/-- The per-kind counter and the collection of one kind across a row: counted
and upserted together, or both left as they were. -/
def CountedUpsert {α : Type} (key : α → String) (before after : Collection α)
    (count count1 : Nat) : Prop :=
  (count1 = count + 1 ∧ ∃ v, after = before.findOneAndUpdate key (key v) v) ∨
  (count1 = count ∧ after = before)

/-- Every key stored in `before` is still stored in `after`, under the `_id`
it had: its record was updated in place, not added a second time. -/
def Collection.KeepsIds {α : Type} (key : α → String) (before after : Collection α) : Prop :=
  ∀ k d, before.findOne key k = some d → ∃ d1, after.findOne key k = some d1 ∧ d1._id = d._id

/-- Every key stored in a kind of `before` keeps its `_id` in `after`, in each
of the six kinds. -/
def Db.KeepsIds (before after : Db) : Prop :=
  Collection.KeepsIds AgentFields.agentName before.agents after.agents ∧
  Collection.KeepsIds UserFields.email before.users after.users ∧
  Collection.KeepsIds AccountFields.accountName before.accounts after.accounts ∧
  Collection.KeepsIds LOBFields.categoryName before.lobs after.lobs ∧
  Collection.KeepsIds CarrierFields.companyName before.carriers after.carriers ∧
  Collection.KeepsIds PolicyFields.policyNumber before.policies after.policies

/-- The record stored under the natural key of `v` has exactly the fields `v`. -/
def StoredAs {α : Type} (key : α → String) (c : Collection α) (v : α) : Prop :=
  ∃ d, c.findOne key (key v) = some d ∧ d.fields = v

/-- The row upserts the User `u`: its Agent step does not raise and its User
step builds `u`. -/
def WritesUser (newDate : Val → Option JsDate) (row : Row) (u : UserFields) : Prop :=
  (∃ a, agentKey row = .ok a) ∧ userData newDate row = .ok (some u)

/-! ## Lemmas on collections -/

section Collections

variable {α : Type} (key : α → String)

theorem find?_updateFirst_self (k : String) (v : α) (hv : key v = k) (l : List (Doc α)) :
    (updateFirst key k v l).find? (fun d => key d.fields == k) =
      (l.find? (fun d => key d.fields == k)).map (fun d => { d with fields := v }) := by
  induction l with
  | nil => simp [updateFirst]
  | cons d ds ih =>
    by_cases h : key d.fields = k
    · simp [updateFirst, h, hv, List.find?_cons]
    · simp [updateFirst, h, List.find?_cons, ih]

theorem find?_updateFirst_ne (k k2 : String) (v : α) (hv : key v = k) (hne : k2 ≠ k)
    (l : List (Doc α)) :
    (updateFirst key k v l).find? (fun d => key d.fields == k2) =
      l.find? (fun d => key d.fields == k2) := by
  induction l with
  | nil => simp [updateFirst]
  | cons d ds ih =>
    by_cases h : key d.fields = k
    · have h2 : ¬ key d.fields = k2 := fun h3 => hne (h3.symm.trans h)
      have h4 : ¬ k = k2 := fun h3 => hne h3.symm
      simp [updateFirst, h, hv, List.find?_cons, h2, h4]
    · by_cases h2 : key d.fields = k2
      · simp [updateFirst, h, List.find?_cons, h2]
        simp [← h2, h]
      · simp [updateFirst, h, List.find?_cons, h2, ih]

theorem map_key_updateFirst (k : String) (v : α) (hv : key v = k) (l : List (Doc α)) :
    (updateFirst key k v l).map (fun d => key d.fields) = l.map (fun d => key d.fields) := by
  induction l with
  | nil => simp [updateFirst]
  | cons d ds ih =>
    by_cases h : key d.fields = k
    · simp [updateFirst, h, hv]
    · simp [updateFirst, h, ih]

theorem map_id_updateFirst (k : String) (v : α) (l : List (Doc α)) :
    (updateFirst key k v l).map (fun d => d._id) = l.map (fun d => d._id) := by
  induction l with
  | nil => simp [updateFirst]
  | cons d ds ih =>
    by_cases h : key d.fields = k
    · simp [updateFirst, h]
    · simp [updateFirst, h, ih]

theorem length_updateFirst (k : String) (v : α) (l : List (Doc α)) :
    (updateFirst key k v l).length = l.length := by
  induction l with
  | nil => simp [updateFirst]
  | cons d ds ih =>
    by_cases h : key d.fields = k
    · simp [updateFirst, h]
    · simp [updateFirst, h, ih]

theorem findOne_eq_none_iff (k : String) (c : Collection α) :
    c.findOne key k = none ↔ k ∉ c.docs.map (fun d => key d.fields) := by
  simp [Collection.findOne, List.find?_eq_none]

theorem findOne_key (k : String) (c : Collection α) (d : Doc α) (h : c.findOne key k = some d) :
    key d.fields = k := by
  have := List.find?_some h
  simpa using this

theorem findOne_mem (k : String) (c : Collection α) (d : Doc α) (h : c.findOne key k = some d) :
    d ∈ c.docs := List.mem_of_find?_eq_some h

/-- After an upsert the key is found, with the fields just written and the
`_id` the document had before (a fresh one when it is new). -/
theorem findOne_findOneAndUpdate_self (k : String) (v : α) (hv : key v = k) (c : Collection α) :
    (c.findOneAndUpdate key k v).findOne key k =
      some ⟨(match c.findOne key k with | some d => d._id | none => c.nextId), v⟩ := by
  unfold Collection.findOneAndUpdate
  cases h : c.findOne key k with
  | some d =>
    simp only [Collection.findOne] at h ⊢
    rw [find?_updateFirst_self key k v hv, h]; rfl
  | none =>
    simp only [Collection.findOne] at h ⊢
    rw [List.find?_append, h]
    simp [hv]

/-- An upsert leaves the lookup of every other key as it was. -/
theorem findOne_findOneAndUpdate_ne (k k2 : String) (v : α) (hv : key v = k) (hne : k2 ≠ k)
    (c : Collection α) :
    (c.findOneAndUpdate key k v).findOne key k2 = c.findOne key k2 := by
  unfold Collection.findOneAndUpdate
  cases h : c.findOne key k with
  | some d =>
    simp only [Collection.findOne]
    exact find?_updateFirst_ne key k k2 v hv hne c.docs
  | none =>
    simp only [Collection.findOne]
    rw [List.find?_append]
    have : ¬ k = k2 := fun h3 => hne h3.symm
    simp [hv, this]

/-- An upsert keeps natural keys unique. -/
theorem uniqueKeys_findOneAndUpdate (k : String) (v : α) (hv : key v = k) (c : Collection α)
    (hc : c.UniqueKeys key) : (c.findOneAndUpdate key k v).UniqueKeys key := by
  unfold Collection.findOneAndUpdate
  cases h : c.findOne key k with
  | some d =>
    simp only [Collection.UniqueKeys]
    rw [map_key_updateFirst key k v hv]; exact hc
  | none =>
    have hk := (findOne_eq_none_iff key k c).1 h
    simp only [Collection.UniqueKeys, List.map_append, List.map_cons, List.map_nil, hv]
    exact List.Nodup.append hc (List.nodup_singleton k) (by
      simpa [List.disjoint_singleton] using hk)

/-- An upsert of a key that is present adds no document. -/
theorem length_findOneAndUpdate_present (k : String) (v : α) (c : Collection α) (d : Doc α)
    (h : c.findOne key k = some d) :
    (c.findOneAndUpdate key k v).docs.length = c.docs.length := by
  unfold Collection.findOneAndUpdate
  rw [h]; simp [length_updateFirst]

end Collections

section Folds

variable {α : Type} (key : α → String)

theorem upsertAll_nil (c : Collection α) : upsertAll key [] c = c := rfl

theorem upsertAll_cons (v : α) (ops : List α) (c : Collection α) :
    upsertAll key (v :: ops) c = upsertAll key ops (c.findOneAndUpdate key (key v) v) := rfl

theorem upsertAll_append (ops1 ops2 : List α) (c : Collection α) :
    upsertAll key (ops1 ++ ops2) c = upsertAll key ops2 (upsertAll key ops1 c) := by
  simp [upsertAll, List.foldl_append]

theorem uniqueKeys_upsertAll (ops : List α) (c : Collection α) (hc : c.UniqueKeys key) :
    (upsertAll key ops c).UniqueKeys key := by
  induction ops generalizing c with
  | nil => exact hc
  | cons v ops ih =>
    rw [upsertAll_cons]
    exact ih _ (uniqueKeys_findOneAndUpdate key (key v) v rfl c hc)

theorem idOf_findOneAndUpdate_of_isSome (v : α) (c : Collection α) (k : String)
    (h : (c.findOne key k).isSome) :
    idOf key (c.findOneAndUpdate key (key v) v) k = idOf key c k := by
  unfold idOf
  by_cases hk : k = key v
  · subst hk
    rw [findOne_findOneAndUpdate_self key (key v) v rfl]
    cases h2 : c.findOne key (key v) with
    | none => simp [h2] at h
    | some d => simp
  · rw [findOne_findOneAndUpdate_ne key (key v) k v rfl hk]

theorem idOf_findOneAndUpdate_of_present (v : α) (c : Collection α) (k : String)
    (h : (c.findOne key (key v)).isSome) :
    idOf key (c.findOneAndUpdate key (key v) v) k = idOf key c k := by
  by_cases hk : k = key v
  · subst hk; exact idOf_findOneAndUpdate_of_isSome key v c _ h
  · unfold idOf
    rw [findOne_findOneAndUpdate_ne key (key v) k v rfl hk]

theorem isSome_findOne_findOneAndUpdate (v : α) (c : Collection α) (k : String)
    (h : (c.findOne key k).isSome) : ((c.findOneAndUpdate key (key v) v).findOne key k).isSome := by
  have := idOf_findOneAndUpdate_of_isSome key v c k h
  unfold idOf at this
  cases h1 : (c.findOneAndUpdate key (key v) v).findOne key k with
  | some d => rfl
  | none =>
    rw [h1] at this
    cases h2 : c.findOne key k with
    | none => simp [h2] at h
    | some d => simp [h2] at this

theorem isSome_findOne_upsertAll (ops : List α) (c : Collection α) (k : String)
    (h : (c.findOne key k).isSome) : ((upsertAll key ops c).findOne key k).isSome := by
  induction ops generalizing c with
  | nil => exact h
  | cons v ops ih =>
    rw [upsertAll_cons]
    exact ih _ (isSome_findOne_findOneAndUpdate key v c k h)

/-- A key that is stored keeps its `_id` through any sequence of upserts. -/
theorem idOf_upsertAll_of_isSome (ops : List α) (c : Collection α) (k : String)
    (h : (c.findOne key k).isSome) : idOf key (upsertAll key ops c) k = idOf key c k := by
  induction ops generalizing c with
  | nil => rfl
  | cons v ops ih =>
    rw [upsertAll_cons, ih _ (isSome_findOne_findOneAndUpdate key v c k h)]
    exact idOf_findOneAndUpdate_of_isSome key v c k h

/-- Upserts of keys that are all stored change no `_id` and add no key. -/
theorem idOf_upsertAll_of_present (ops : List α) (c : Collection α)
    (h : ∀ v ∈ ops, (c.findOne key (key v)).isSome) (k : String) :
    idOf key (upsertAll key ops c) k = idOf key c k := by
  induction ops generalizing c with
  | nil => rfl
  | cons v ops ih =>
    rw [upsertAll_cons, ih]
    · exact idOf_findOneAndUpdate_of_present key v c k (h v (List.mem_cons_self _ _))
    · intro v2 hv2
      exact isSome_findOne_findOneAndUpdate key v c _ (h v2 (List.mem_cons_of_mem _ hv2))

/-- Every key written by a sequence of upserts is stored after it. -/
theorem isSome_findOne_upsertAll_of_mem (ops : List α) (c : Collection α) (v : α)
    (hv : v ∈ ops) : ((upsertAll key ops c).findOne key (key v)).isSome := by
  induction ops generalizing c with
  | nil => cases hv
  | cons v2 ops ih =>
    rw [upsertAll_cons]
    rcases List.mem_cons.1 hv with h | h
    · subst h
      apply isSome_findOne_upsertAll
      rw [findOne_findOneAndUpdate_self key (key v) v rfl]; rfl
    · exact ih _ h

theorem updateFirst_eq_map (v : α) (l : List (Doc α))
    (hl : (l.map (fun d => key d.fields)).Nodup) :
    updateFirst key (key v) v l = l.map (setFields key v) := by
  induction l with
  | nil => rfl
  | cons d ds ih =>
    simp only [List.map_cons, List.nodup_cons] at hl
    by_cases h : key d.fields = key v
    · have hrest : ds.map (setFields key v) = ds := by
        conv_rhs => rw [← List.map_id ds]
        apply List.map_congr_left
        intro d2 hd2
        have : key d2.fields ≠ key v := by
          intro h3
          apply hl.1
          rw [h, ← h3]
          exact List.mem_map_of_mem (fun d => key d.fields) hd2
        simp [setFields, this]
      simp [updateFirst, h, setFields, hrest]
    · simp [updateFirst, h, setFields, ih hl.2]

theorem key_setFields (v : α) (d : Doc α) : key (setFields key v d).fields = key d.fields := by
  unfold setFields
  by_cases h : key d.fields = key v
  · simp [h]
  · simp [h]

theorem id_setFields (v : α) (d : Doc α) : (setFields key v d)._id = d._id := by
  unfold setFields
  by_cases h : key d.fields = key v
  · simp [h]
  · simp [h]

theorem key_applyAll (ops : List α) (d : Doc α) :
    key (applyAll key ops d).fields = key d.fields := by
  induction ops generalizing d with
  | nil => rfl
  | cons v ops ih =>
    simp only [applyAll, List.foldl_cons] at ih ⊢
    rw [ih]; exact key_setFields key v d

theorem id_applyAll (ops : List α) (d : Doc α) : (applyAll key ops d)._id = d._id := by
  induction ops generalizing d with
  | nil => rfl
  | cons v ops ih =>
    simp only [applyAll, List.foldl_cons] at ih ⊢
    rw [ih]; exact id_setFields key v d

/-- When every key written is already stored, a sequence of upserts rewrites
the documents in place. -/
theorem upsertAll_eq_map (ops : List α) (c : Collection α) (hc : c.UniqueKeys key)
    (h : ∀ v ∈ ops, (c.findOne key (key v)).isSome) :
    upsertAll key ops c = { c with docs := c.docs.map (applyAll key ops) } := by
  induction ops generalizing c with
  | nil =>
    have h0 : applyAll key ([] : List α) = id := rfl
    simp [upsertAll, h0]
  | cons v ops ih =>
    have hv := h v (List.mem_cons_self _ _)
    have h1 : c.findOneAndUpdate key (key v) v = { c with docs := c.docs.map (setFields key v) } := by
      unfold Collection.findOneAndUpdate
      cases h2 : c.findOne key (key v) with
      | none => simp [h2] at hv
      | some d => simp only []; rw [updateFirst_eq_map key v c.docs hc]
    rw [upsertAll_cons, ih _ (uniqueKeys_findOneAndUpdate key (key v) v rfl c hc)]
    · rw [h1]
      simp [applyAll, List.map_map, Function.comp_def]
    · intro v2 hv2
      exact isSome_findOne_findOneAndUpdate key v c _ (h v2 (List.mem_cons_of_mem _ hv2))

theorem mem_findOneAndUpdate (v : α) (c : Collection α) (hc : c.UniqueKeys key) (d : Doc α)
    (hd : d ∈ (c.findOneAndUpdate key (key v) v).docs) :
    (key d.fields = key v ∧ d.fields = v) ∨ (key d.fields ≠ key v ∧ d ∈ c.docs) := by
  unfold Collection.findOneAndUpdate at hd
  cases h : c.findOne key (key v) with
  | some d0 =>
    rw [h] at hd
    simp only [] at hd
    rw [updateFirst_eq_map key v c.docs hc] at hd
    obtain ⟨d1, hd1, rfl⟩ := List.mem_map.1 hd
    by_cases hk : key d1.fields = key v
    · left; simp [setFields, hk]
    · right; simp [setFields, hk]; exact hd1
  | none =>
    rw [h] at hd
    simp only [List.mem_append, List.mem_singleton] at hd
    rcases hd with hd | hd
    · right
      refine ⟨?_, hd⟩
      intro hk
      have := (findOne_eq_none_iff key (key v) c).1 h
      apply this
      rw [← hk]
      exact List.mem_map_of_mem (fun d => key d.fields) hd
    · left; subst hd; simp

/-- After a sequence of upserts every stored document already holds what the
last upsert of its key wrote: replaying the sequence changes no document. -/
theorem applyAll_eq_self_of_mem (ops : List α) (c : Collection α) (hc : c.UniqueKeys key)
    (d : Doc α) (hd : d ∈ (upsertAll key ops c).docs) : applyAll key ops d = d := by
  induction ops using List.reverseRecOn generalizing d with
  | nil => rfl
  | append_singleton ops v ih =>
    rw [upsertAll_append, upsertAll_cons, upsertAll_nil] at hd
    have hu := uniqueKeys_upsertAll key ops c hc
    have happ : applyAll key (ops ++ [v]) d = setFields key v (applyAll key ops d) := by
      simp [applyAll, List.foldl_append]
    rw [happ]
    rcases mem_findOneAndUpdate key v _ hu d hd with ⟨hk, hf⟩ | ⟨hk, hmem⟩
    · have h1 : key (applyAll key ops d).fields = key v := by rw [key_applyAll key ops d, hk]
      have h2 := id_applyAll key ops d
      unfold setFields
      simp only [h1, beq_self_eq_true, if_true]
      cases d with
      | mk i f => simp only [] at hf h2 ⊢; rw [h2, hf]
    · rw [ih d hmem]
      simp [setFields, hk]

/-- Replaying a sequence of upserts on the collection it produced changes nothing. -/
theorem upsertAll_idempotent (ops : List α) (c : Collection α) (hc : c.UniqueKeys key) :
    upsertAll key ops (upsertAll key ops c) = upsertAll key ops c := by
  have hu := uniqueKeys_upsertAll key ops c hc
  rw [upsertAll_eq_map key ops _ hu (fun v hv => isSome_findOne_upsertAll_of_mem key ops c v hv)]
  have : (upsertAll key ops c).docs.map (applyAll key ops) = (upsertAll key ops c).docs := by
    conv_rhs => rw [← List.map_id (upsertAll key ops c).docs]
    apply List.map_congr_left
    intro d hd
    simpa using applyAll_eq_self_of_mem key ops c hc d hd
  rw [this]

end Folds

/-! ## The steps of a row, decision by decision -/

theorem processRow_eq (newDate : Val → Option JsDate) (row : Row) (w : World) :
    processRow newDate row w = rowResult newDate row w := by
  unfold processRow rowResult
  simp only [runSteps]
  cases h1 : agentKey row with
  | error e => simp [stepAgent, h1]
  | ok a =>
    have e1 : stepAgent row w = .ok (putAgent a w) := by
      cases a <;> simp [stepAgent, h1, putAgent]
    simp only [e1]
    cases h2 : userData newDate row with
    | error e => simp [stepUser, h2]
    | ok u =>
      have e2 : stepUser newDate row (putAgent a w) = .ok (putUser u (putAgent a w)) := by
        cases u <;> simp [stepUser, h2, putUser]
      simp only [e2]
      cases h3 : leafKey row.AccountName "Account Name" with
      | error e => simp [stepAccount, h3]
      | ok ac =>
        have e3 : stepAccount row (putUser u (putAgent a w)) =
            .ok (putAccount ac (putUser u (putAgent a w))) := by
          cases ac <;> simp [stepAccount, h3, putAccount]
        simp only [e3]
        cases h4 : leafKey row.Category "Category" with
        | error e => simp [stepLOB, h4]
        | ok l =>
          have e4 : stepLOB row (putAccount ac (putUser u (putAgent a w))) =
              .ok (putLOB l (putAccount ac (putUser u (putAgent a w)))) := by
            cases l <;> simp [stepLOB, h4, putLOB]
          simp only [e4]
          cases h5 : leafKey row.Carrier "Carrier" with
          | error e => simp [stepCarrier, h5]
          | ok c =>
            have e5 : stepCarrier row (putLOB l (putAccount ac (putUser u (putAgent a w)))) =
                .ok (putCarrier c (putLOB l (putAccount ac (putUser u (putAgent a w))))) := by
              cases c <;> simp [stepCarrier, h5, putCarrier]
            simp only [e5]
            cases h6 : policyData newDate row
                (putCarrier c (putLOB l (putAccount ac (putUser u (putAgent a w))))).db with
            | error e => simp [stepPolicy, h6]
            | ok p => cases p <;> simp [stepPolicy, h6, putPolicy]

/-! ## What a row writes, kind by kind -/

theorem putAgent_db (a : Option String) (w : World) :
    (putAgent a w).db = { w.db with
      agents := upsertAll AgentFields.agentName (a.map AgentFields.mk).toList w.db.agents } := by
  cases a <;> rfl

theorem putUser_db (u : Option UserFields) (w : World) :
    (putUser u w).db = { w.db with users := upsertAll UserFields.email u.toList w.db.users } := by
  cases u <;> rfl

theorem putAccount_db (a : Option String) (w : World) :
    (putAccount a w).db = { w.db with
      accounts := upsertAll AccountFields.accountName (a.map AccountFields.mk).toList
        w.db.accounts } := by
  cases a <;> rfl

theorem putLOB_db (a : Option String) (w : World) :
    (putLOB a w).db = { w.db with
      lobs := upsertAll LOBFields.categoryName (a.map LOBFields.mk).toList w.db.lobs } := by
  cases a <;> rfl

theorem putCarrier_db (a : Option String) (w : World) :
    (putCarrier a w).db = { w.db with
      carriers := upsertAll CarrierFields.companyName (a.map CarrierFields.mk).toList
        w.db.carriers } := by
  cases a <;> rfl

theorem putPolicy_db (p : Option PolicyFields) (w : World) :
    (putPolicy p w).db = { w.db with
      policies := upsertAll PolicyFields.policyNumber p.toList w.db.policies } := by
  cases p <;> rfl

/-- The store a row leaves does not depend on the counters. -/
theorem processRow_db (newDate : Val → Option JsDate) (row : Row) (w : World) :
    (processRow newDate row w).1.db = rowDb newDate row w.db := by
  rw [processRow_eq]
  unfold rowResult rowDb policyOps leafOps
  cases h1 : agentKey row with
  | error e => simp [applyLeaf, applyPolicy, upsertAll]
  | ok a =>
    cases h2 : userData newDate row with
    | error e => simp [applyLeaf, applyPolicy, upsertAll, putAgent_db]
    | ok u =>
      cases h3 : leafKey row.AccountName "Account Name" with
      | error e => simp [applyLeaf, applyPolicy, putAgent_db, putUser_db, upsertAll_nil]
      | ok ac =>
        cases h4 : leafKey row.Category "Category" with
        | error e =>
          simp [applyLeaf, applyPolicy, putAgent_db, putUser_db, putAccount_db, upsertAll_nil]
        | ok l =>
          cases h5 : leafKey row.Carrier "Carrier" with
          | error e =>
            simp [applyLeaf, applyPolicy, putAgent_db, putUser_db, putAccount_db, putLOB_db,
              upsertAll_nil]
          | ok c =>
            have hdb : (putCarrier c (putLOB l (putAccount ac (putUser u (putAgent a w))))).db =
                applyLeaf ⟨(a.map AgentFields.mk).toList, u.toList,
                  (ac.map AccountFields.mk).toList, (l.map LOBFields.mk).toList,
                  (c.map CarrierFields.mk).toList, true⟩ w.db := by
              simp [applyLeaf, putAgent_db, putUser_db, putAccount_db, putLOB_db, putCarrier_db]
            simp only []
            cases h6 : policyData newDate row
                (putCarrier c (putLOB l (putAccount ac (putUser u (putAgent a w))))).db with
            | error e =>
              rw [hdb] at h6
              simp [h6, applyPolicy, upsertAll_nil, hdb]
            | ok p =>
              rw [hdb] at h6
              cases p with
              | none => simp [h6, applyPolicy, upsertAll_nil, putPolicy, hdb]
              | some p =>
                simp [h6, applyPolicy, putPolicy_db, hdb]

/-! ## The store through a whole run -/

theorem loop_db (newDate : Val → Option JsDate) (data : List Row) (i : Nat) (w : World)
    (errors : List String) : (loop newDate data i w errors).1.db = runDb newDate data w.db := by
  induction data generalizing i w errors with
  | nil => rfl
  | cons row rest ih =>
    simp only [loop, runDb]
    have hdb := processRow_db newDate row w
    cases hp : processRow newDate row w with
    | mk w1 o =>
      rw [hp] at hdb
      cases o with
      | none => simp only []; rw [ih, hdb]
      | some m => simp only []; rw [ih, hdb]

theorem processAndInsertData_db (newDate : Val → Option JsDate) (data : List Row) (db : Db) :
    (processAndInsertData newDate data db).2 = runDb newDate data db := by
  simp [processAndInsertData, loop_db]

theorem runDb_agents (newDate : Val → Option JsDate) (data : List Row) (db : Db) :
    (runDb newDate data db).agents =
      upsertAll AgentFields.agentName (collect (fun r => (leafOps newDate r).agents) data)
        db.agents := by
  induction data generalizing db with
  | nil => rfl
  | cons row rest ih => simp only [runDb, collect, upsertAll_append]; rw [ih]; rfl

theorem runDb_users (newDate : Val → Option JsDate) (data : List Row) (db : Db) :
    (runDb newDate data db).users =
      upsertAll UserFields.email (collect (fun r => (leafOps newDate r).users) data)
        db.users := by
  induction data generalizing db with
  | nil => rfl
  | cons row rest ih => simp only [runDb, collect, upsertAll_append]; rw [ih]; rfl

theorem runDb_accounts (newDate : Val → Option JsDate) (data : List Row) (db : Db) :
    (runDb newDate data db).accounts =
      upsertAll AccountFields.accountName (collect (fun r => (leafOps newDate r).accounts) data)
        db.accounts := by
  induction data generalizing db with
  | nil => rfl
  | cons row rest ih => simp only [runDb, collect, upsertAll_append]; rw [ih]; rfl

theorem runDb_lobs (newDate : Val → Option JsDate) (data : List Row) (db : Db) :
    (runDb newDate data db).lobs =
      upsertAll LOBFields.categoryName (collect (fun r => (leafOps newDate r).lobs) data)
        db.lobs := by
  induction data generalizing db with
  | nil => rfl
  | cons row rest ih => simp only [runDb, collect, upsertAll_append]; rw [ih]; rfl

theorem runDb_carriers (newDate : Val → Option JsDate) (data : List Row) (db : Db) :
    (runDb newDate data db).carriers =
      upsertAll CarrierFields.companyName (collect (fun r => (leafOps newDate r).carriers) data)
        db.carriers := by
  induction data generalizing db with
  | nil => rfl
  | cons row rest ih => simp only [runDb, collect, upsertAll_append]; rw [ih]; rfl

theorem runDb_policies (newDate : Val → Option JsDate) (data : List Row) (db : Db) :
    (runDb newDate data db).policies =
      upsertAll PolicyFields.policyNumber (policyTrace newDate data db) db.policies := by
  induction data generalizing db with
  | nil => rfl
  | cons row rest ih => simp only [runDb, policyTrace, upsertAll_append]; rw [ih]; rfl

/-- A run keeps natural keys unique in each of the six kinds. -/
theorem uniqueKeys_runDb (newDate : Val → Option JsDate) (data : List Row) (db : Db)
    (h : db.UniqueKeys) : (runDb newDate data db).UniqueKeys := by
  constructor
  · rw [runDb_agents]; exact uniqueKeys_upsertAll _ _ _ h.agents
  · rw [runDb_users]; exact uniqueKeys_upsertAll _ _ _ h.users
  · rw [runDb_accounts]; exact uniqueKeys_upsertAll _ _ _ h.accounts
  · rw [runDb_lobs]; exact uniqueKeys_upsertAll _ _ _ h.lobs
  · rw [runDb_carriers]; exact uniqueKeys_upsertAll _ _ _ h.carriers
  · rw [runDb_policies]; exact uniqueKeys_upsertAll _ _ _ h.policies

/-! ## The Policy step reads `_id`s only -/

theorem lookupRef_eq {α : Type} (cell : Val) (col : String) (key : α → String)
    (c : Collection α) :
    lookupRef cell col key c =
      match leafKey cell col with
      | .error e => .error e
      | .ok none => .ok none
      | .ok (some k) => .ok (c.findOne key k) := by
  unfold lookupRef leafKey
  by_cases h : cell.truthy = true
  · simp only [h, if_true]
    cases cell.trim col <;> rfl
  · simp [h]

theorem userData_some_inv (newDate : Val → Option JsDate) (row : Row) (u : UserFields)
    (h : userData newDate row = .ok (some u)) :
    row.FirstName.truthy = true ∧ row.Email.truthy = true ∧
      row.FirstName.trim "First Name" = .ok u.firstName ∧
      row.Email.trim "Email" = .ok u.email := by
  unfold userData at h
  by_cases hg : (row.FirstName.truthy && row.Email.truthy) = true
  · rw [if_pos hg] at h
    simp only [Bool.and_eq_true] at hg
    cases h1 : row.FirstName.trim "First Name" with
    | error e => simp [h1] at h
    | ok f =>
      cases h2 : row.Email.trim "Email" with
      | error e => simp [h1, h2] at h
      | ok e =>
        simp only [h1, h2, Except.ok.injEq, Option.some.injEq] at h
        subst h
        exact ⟨hg.1, hg.2, rfl, rfl⟩
  · rw [if_neg hg] at h
    simp at h

theorem userData_none_inv (newDate : Val → Option JsDate) (row : Row)
    (h : userData newDate row = .ok none) :
    (row.FirstName.truthy && row.Email.truthy) = false := by
  unfold userData at h
  by_cases hg : (row.FirstName.truthy && row.Email.truthy) = true
  · rw [if_pos hg] at h
    cases h1 : row.FirstName.trim "First Name" with
    | error e => simp [h1] at h
    | ok f =>
      cases h2 : row.Email.trim "Email" with
      | error e => simp [h1, h2] at h
      | ok e => simp [h1, h2] at h
  · simpa using hg

/-- When the first five steps did not raise, the Policy step depends on the
store only through the `_id`s stored under the keys those steps decided. -/
theorem policyData_reach (newDate : Val → Option JsDate) (row : Row) (db : Db)
    (u : Option UserFields) (ac l c : Option String)
    (h2 : userData newDate row = .ok u)
    (h3 : leafKey row.AccountName "Account Name" = .ok ac)
    (h4 : leafKey row.Category "Category" = .ok l)
    (h5 : leafKey row.Carrier "Carrier" = .ok c) :
    policyData newDate row db =
      if row.PolicyNumber.truthy then
        match u with
        | none => .ok none
        | some uf =>
          policyFromIds newDate row (idOf UserFields.email db.users uf.email)
            (ac.bind (idOf AccountFields.accountName db.accounts))
            (l.bind (idOf LOBFields.categoryName db.lobs))
            (c.bind (idOf CarrierFields.companyName db.carriers))
      else .ok none := by
  unfold policyData
  simp only [lookupRef_eq, h3, h4, h5]
  cases u with
  | none =>
    have hg := userData_none_inv newDate row h2
    simp only [Bool.and_eq_false_iff] at hg
    by_cases hp : row.PolicyNumber.truthy = true
    · rcases hg with hg | hg <;> simp [hp, hg]
    · simp [hp]
  | some uf =>
    obtain ⟨hf, he, _, ht⟩ := userData_some_inv newDate row uf h2
    by_cases hp : row.PolicyNumber.truthy = true
    · simp only [hp, hf, he, Bool.and_self, if_true, ht]
      unfold policyFromIds idOf
      cases ac <;> cases l <;> cases c <;>
        cases db.users.findOne UserFields.email uf.email <;> simp
    · simp [hp]

/-! ## Replaying a run -/

/-- The first five steps of a row either stop before the Policy step or are
five decisions that did not raise. -/
theorem leafOps_cases (newDate : Val → Option JsDate) (row : Row) :
    (leafOps newDate row).reachesPolicy = false ∨
    ∃ a u ac l c, agentKey row = .ok a ∧ userData newDate row = .ok u ∧
      leafKey row.AccountName "Account Name" = .ok ac ∧
      leafKey row.Category "Category" = .ok l ∧
      leafKey row.Carrier "Carrier" = .ok c ∧
      leafOps newDate row = ⟨(a.map AgentFields.mk).toList, u.toList,
        (ac.map AccountFields.mk).toList, (l.map LOBFields.mk).toList,
        (c.map CarrierFields.mk).toList, true⟩ := by
  unfold leafOps
  cases h1 : agentKey row with
  | error e => left; rfl
  | ok a =>
    cases h2 : userData newDate row with
    | error e => left; rfl
    | ok u =>
      cases h3 : leafKey row.AccountName "Account Name" with
      | error e => left; rfl
      | ok ac =>
        cases h4 : leafKey row.Category "Category" with
        | error e => left; rfl
        | ok l =>
          cases h5 : leafKey row.Carrier "Carrier" with
          | error e => left; rfl
          | ok c => right; exact ⟨a, u, ac, l, c, rfl, rfl, rfl, rfl, rfl, rfl⟩

theorem policyOps_congr (newDate : Val → Option JsDate) (row : Row) (a b : Db)
    (h : AgreeOn (leafOps newDate row) a b) :
    policyOps newDate row a = policyOps newDate row b := by
  unfold policyOps
  rcases leafOps_cases newDate row with hr | ⟨ag, u, ac, l, c, _, h2, h3, h4, h5, hops⟩
  · simp [hr]
  · rw [hops] at h
    obtain ⟨hu, hac, hl, hc⟩ := h
    have e2 : ac.bind (idOf AccountFields.accountName a.accounts) =
        ac.bind (idOf AccountFields.accountName b.accounts) := by
      cases ac with
      | none => rfl
      | some k => exact hac ⟨k⟩ (by simp)
    have e3 : l.bind (idOf LOBFields.categoryName a.lobs) =
        l.bind (idOf LOBFields.categoryName b.lobs) := by
      cases l with
      | none => rfl
      | some k => exact hl ⟨k⟩ (by simp)
    have e4 : c.bind (idOf CarrierFields.companyName a.carriers) =
        c.bind (idOf CarrierFields.companyName b.carriers) := by
      cases c with
      | none => rfl
      | some k => exact hc ⟨k⟩ (by simp)
    cases u with
    | none =>
      rw [policyData_reach newDate row a none ac l c h2 h3 h4 h5,
        policyData_reach newDate row b none ac l c h2 h3 h4 h5]
    | some uf =>
      have e1 : idOf UserFields.email a.users uf.email = idOf UserFields.email b.users uf.email :=
        hu uf (by simp)
      rw [policyData_reach newDate row a (some uf) ac l c h2 h3 h4 h5,
        policyData_reach newDate row b (some uf) ac l c h2 h3 h4 h5]
      simp only [e1, e2, e3, e4]

theorem isSome_findOne_of_idOf {α : Type} (key : α → String) (a b : Collection α) (k : String)
    (h : idOf key a k = idOf key b k) (hb : (b.findOne key k).isSome) :
    (a.findOne key k).isSome := by
  unfold idOf at h
  cases ha : a.findOne key k with
  | some d => rfl
  | none =>
    cases hb2 : b.findOne key k with
    | none => simp [hb2] at hb
    | some d => simp [ha, hb2] at h

/-- One row of a replay, in one collection: when the replayed store already
gives every key the `_id` it has at the end of the first run, the row's upserts
find their keys, agree with the first run on their `_id`s and add no key. -/
theorem replay_step {α : Type} (key : α → String) (ops rest : List α) (s t : Collection α)
    (h : ∀ k, idOf key t k = idOf key (upsertAll key rest (upsertAll key ops s)) k) :
    (∀ v ∈ ops, idOf key (upsertAll key ops t) (key v) = idOf key (upsertAll key ops s) (key v)) ∧
    (∀ k, idOf key (upsertAll key ops t) k =
      idOf key (upsertAll key rest (upsertAll key ops s)) k) := by
  have f1 : ∀ v ∈ ops, ((upsertAll key ops s).findOne key (key v)).isSome :=
    fun v hv => isSome_findOne_upsertAll_of_mem key ops s v hv
  have f3 : ∀ v ∈ ops, (t.findOne key (key v)).isSome := fun v hv =>
    isSome_findOne_of_idOf key t _ (key v) (h (key v))
      (isSome_findOne_upsertAll key rest _ (key v) (f1 v hv))
  have f4 : ∀ k, idOf key (upsertAll key ops t) k = idOf key t k :=
    idOf_upsertAll_of_present key ops t f3
  constructor
  · intro v hv
    rw [f4, h, idOf_upsertAll_of_isSome key rest _ (key v) (f1 v hv)]
  · intro k; rw [f4, h]

/-- A replay of the rows on the store they produced resolves every Policy to
the same document as the first run did. -/
theorem policyTrace_replay (newDate : Val → Option JsDate) (data : List Row) (s t : Db)
    (h : SameIds t (runDb newDate data s)) :
    policyTrace newDate data t = policyTrace newDate data s := by
  induction data generalizing s t with
  | nil => rfl
  | cons row rest ih =>
    simp only [policyTrace]
    simp only [runDb] at h
    obtain ⟨hu, hac, hl, hc⟩ := h
    rw [runDb_users] at hu
    rw [runDb_accounts] at hac
    rw [runDb_lobs] at hl
    rw [runDb_carriers] at hc
    have ru := replay_step UserFields.email (leafOps newDate row).users _ s.users t.users hu
    have rac := replay_step AccountFields.accountName (leafOps newDate row).accounts _
      s.accounts t.accounts hac
    have rl := replay_step LOBFields.categoryName (leafOps newDate row).lobs _ s.lobs t.lobs hl
    have rc := replay_step CarrierFields.companyName (leafOps newDate row).carriers _
      s.carriers t.carriers hc
    have hagree : AgreeOn (leafOps newDate row) (applyLeaf (leafOps newDate row) t)
        (applyLeaf (leafOps newDate row) s) := ⟨ru.1, rac.1, rl.1, rc.1⟩
    rw [policyOps_congr newDate row _ _ hagree]
    congr 1
    apply ih
    refine ⟨?_, ?_, ?_, ?_⟩
    · intro k; rw [runDb_users]; exact ru.2 k
    · intro k; rw [runDb_accounts]; exact rac.2 k
    · intro k; rw [runDb_lobs]; exact rl.2 k
    · intro k; rw [runDb_carriers]; exact rc.2 k

theorem Db.ext_fields (a b : Db) (h1 : a.agents = b.agents) (h2 : a.users = b.users)
    (h3 : a.accounts = b.accounts) (h4 : a.lobs = b.lobs) (h5 : a.carriers = b.carriers)
    (h6 : a.policies = b.policies) : a = b := by
  cases a; cases b; simp only [Db.mk.injEq]; exact ⟨h1, h2, h3, h4, h5, h6⟩

/-- Replaying the rows on the store they produced leaves it as it is. -/
theorem runDb_idempotent (newDate : Val → Option JsDate) (data : List Row) (db : Db)
    (h : db.UniqueKeys) :
    runDb newDate data (runDb newDate data db) = runDb newDate data db := by
  apply Db.ext_fields
  · rw [runDb_agents, runDb_agents]; exact upsertAll_idempotent _ _ _ h.agents
  · rw [runDb_users, runDb_users]; exact upsertAll_idempotent _ _ _ h.users
  · rw [runDb_accounts, runDb_accounts]; exact upsertAll_idempotent _ _ _ h.accounts
  · rw [runDb_lobs, runDb_lobs]; exact upsertAll_idempotent _ _ _ h.lobs
  · rw [runDb_carriers, runDb_carriers]; exact upsertAll_idempotent _ _ _ h.carriers
  · rw [runDb_policies,
      policyTrace_replay newDate data db (runDb newDate data db) ⟨fun _ => rfl, fun _ => rfl,
        fun _ => rfl, fun _ => rfl⟩,
      runDb_policies]
    exact upsertAll_idempotent _ _ _ h.policies

/-! ## The counters and the outcome of a row -/

theorem putAgent_summary (a : Option String) (w : World) :
    (putAgent a w).summary = { w.summary with
      agents := w.summary.agents + (a.map AgentFields.mk).toList.length } := by
  cases a <;> rfl

theorem putUser_summary (u : Option UserFields) (w : World) :
    (putUser u w).summary = { w.summary with users := w.summary.users + u.toList.length } := by
  cases u <;> rfl

theorem putAccount_summary (a : Option String) (w : World) :
    (putAccount a w).summary = { w.summary with
      accounts := w.summary.accounts + (a.map AccountFields.mk).toList.length } := by
  cases a <;> rfl

theorem putLOB_summary (a : Option String) (w : World) :
    (putLOB a w).summary = { w.summary with
      lobs := w.summary.lobs + (a.map LOBFields.mk).toList.length } := by
  cases a <;> rfl

theorem putCarrier_summary (a : Option String) (w : World) :
    (putCarrier a w).summary = { w.summary with
      carriers := w.summary.carriers + (a.map CarrierFields.mk).toList.length } := by
  cases a <;> rfl

theorem putPolicy_summary (p : Option PolicyFields) (w : World) :
    (putPolicy p w).summary = { w.summary with
      policies := w.summary.policies + p.toList.length } := by
  cases p <;> rfl

theorem processRow_summary (newDate : Val → Option JsDate) (row : Row) (w : World) :
    (processRow newDate row w).1.summary = rowSummary newDate row w.db w.summary := by
  rw [processRow_eq]
  unfold rowResult rowSummary policyOps leafOps
  cases h1 : agentKey row with
  | error e => simp
  | ok a =>
    cases h2 : userData newDate row with
    | error e => simp [putAgent_summary]
    | ok u =>
      cases h3 : leafKey row.AccountName "Account Name" with
      | error e => simp [putAgent_summary, putUser_summary]
      | ok ac =>
        cases h4 : leafKey row.Category "Category" with
        | error e => simp [putAgent_summary, putUser_summary, putAccount_summary]
        | ok l =>
          cases h5 : leafKey row.Carrier "Carrier" with
          | error e =>
            simp [putAgent_summary, putUser_summary, putAccount_summary, putLOB_summary]
          | ok c =>
            have hdb : (putCarrier c (putLOB l (putAccount ac (putUser u (putAgent a w))))).db =
                applyLeaf ⟨(a.map AgentFields.mk).toList, u.toList,
                  (ac.map AccountFields.mk).toList, (l.map LOBFields.mk).toList,
                  (c.map CarrierFields.mk).toList, true⟩ w.db := by
              simp [applyLeaf, putAgent_db, putUser_db, putAccount_db, putLOB_db, putCarrier_db]
            simp only []
            cases h6 : policyData newDate row
                (putCarrier c (putLOB l (putAccount ac (putUser u (putAgent a w))))).db with
            | error e =>
              rw [hdb] at h6
              simp [h6, putAgent_summary, putUser_summary, putAccount_summary, putLOB_summary,
                putCarrier_summary]
            | ok p =>
              rw [hdb] at h6
              cases p with
              | none =>
                simp [h6, putPolicy, putAgent_summary, putUser_summary, putAccount_summary,
                  putLOB_summary, putCarrier_summary]
              | some p =>
                simp [h6, putPolicy_summary, putAgent_summary, putUser_summary,
                  putAccount_summary, putLOB_summary, putCarrier_summary]

theorem loop_eq (newDate : Val → Option JsDate) (data : List Row) (i : Nat) (w : World)
    (errors : List String) :
    loop newDate data i w errors =
      (runWorld newDate data w, errors ++ errorEntries i (rowOutcomes newDate data w)) := by
  induction data generalizing i w errors with
  | nil => simp [loop, runWorld, rowOutcomes, errorEntries]
  | cons row rest ih =>
    simp only [loop, runWorld, rowOutcomes, afterRow]
    cases hp : processRow newDate row w with
    | mk w1 o =>
      cases o with
      | none => simp only [errorEntries]; rw [ih]
      | some m => simp only [errorEntries]; rw [ih]; simp

theorem length_rowOutcomes (newDate : Val → Option JsDate) (data : List Row) (w : World) :
    (rowOutcomes newDate data w).length = data.length := by
  induction data generalizing w with
  | nil => rfl
  | cons row rest ih => simp [rowOutcomes, ih]

theorem afterRow_errors (newDate : Val → Option JsDate) (row : Row) (w : World) :
    (afterRow newDate row w).summary.errors =
      w.summary.errors + (if (processRow newDate row w).2.isSome then 1 else 0) := by
  have hs := processRow_summary newDate row w
  unfold afterRow
  cases hp : processRow newDate row w with
  | mk w1 o =>
    rw [hp] at hs
    simp only [] at hs
    cases o with
    | none => simp [hs, rowSummary]
    | some m => simp [hs, rowSummary]

theorem runWorld_errors (newDate : Val → Option JsDate) (data : List Row) (w : World) :
    (runWorld newDate data w).summary.errors =
      w.summary.errors + ((rowOutcomes newDate data w).filter Option.isSome).length := by
  induction data generalizing w with
  | nil => rfl
  | cons row rest ih =>
    simp only [runWorld, rowOutcomes]
    rw [ih, afterRow_errors]
    cases h : (processRow newDate row w).2 with
    | none => simp [List.filter]
    | some m => simp [List.filter]; omega

theorem length_errorEntries (i : Nat) (os : List (Option String)) :
    (errorEntries i os).length = (os.filter Option.isSome).length := by
  induction os generalizing i with
  | nil => rfl
  | cons o os ih =>
    cases o with
    | none => simp [errorEntries, ih, List.filter]
    | some m => simp [errorEntries, ih, List.filter]

theorem errorEntries_eq (i : Nat) (os : List (Option String)) :
    errorEntries i os =
      (os.enumFrom i).filterMap (fun p =>
        p.2.map (fun m => "Row " ++ ToString.toString (p.1 + 1) ++ ": " ++ m)) := by
  induction os generalizing i with
  | nil => rfl
  | cons o os ih =>
    cases o with
    | none => simp [errorEntries, ih, List.enumFrom]
    | some m => simp [errorEntries, ih, List.enumFrom, rowErrorEntry]

theorem loop_append (newDate : Val → Option JsDate) (pre post : List Row) (i : Nat) (w : World)
    (errors : List String) :
    loop newDate (pre ++ post) i w errors =
      loop newDate post (i + pre.length) (loop newDate pre i w errors).1
        (loop newDate pre i w errors).2 := by
  induction pre generalizing i w errors with
  | nil => rfl
  | cons row rest ih =>
    simp only [List.cons_append, loop, List.length_cons]
    cases hp : processRow newDate row w with
    | mk w1 o =>
      cases o with
      | none =>
        simp only []
        rw [show i + (rest.length + 1) = i + 1 + rest.length by omega]
        exact ih (i + 1) w1 errors
      | some m =>
        simp only []
        rw [show i + (rest.length + 1) = i + 1 + rest.length by omega]
        exact ih (i + 1) _ _

/-! ## Lemmas on the date patterns -/

theorem isDigit_false_of_isJsSpace (c : Char) (h : isJsSpace c = true) : c.isDigit = false := by
  have hd : c.isDigit = true → 48 ≤ c.toNat ∧ c.toNat ≤ 57 := by
    intro hd
    simp only [Char.isDigit, Bool.and_eq_true, decide_eq_true_eq] at hd
    exact ⟨hd.1, hd.2⟩
  cases hc : c.isDigit with
  | false => rfl
  | true =>
    have := hd hc
    simp only [isJsSpace, Bool.or_eq_true, decide_eq_true_eq, Bool.and_eq_true,
      List.mem_cons, List.mem_singleton] at h
    simp at h
    omega

theorem group12_head (β : Type) (c : Char) (cs : List Char)
    (rest : List Char → List Char → Option β) (h : c.isDigit = false) :
    group12 (c :: cs) rest = none := by
  simp [group12, digitsExact, h]

theorem group4_head (β : Type) (c : Char) (cs : List Char)
    (rest : List Char → List Char → Option β) (h : c.isDigit = false) :
    group4 (c :: cs) rest = none := by
  simp [group4, digitsExact, h]

theorem search_none_of_head (pat : List Char → Option Groups) (hnil : pat [] = none)
    (hhead : ∀ c cs, c.isDigit = false → pat (c :: cs) = none) (cs : List Char)
    (h : ∀ c ∈ cs, c.isDigit = false) : search pat cs = none := by
  induction cs with
  | nil => simpa [search] using hnil
  | cons c cs ih =>
    simp only [search]
    rw [hhead c cs (h c (List.mem_cons_self _ _))]
    exact ih (fun d hd => h d (List.mem_cons_of_mem _ hd))

/-- A text without a decimal digit matches none of the three patterns. -/
theorem firstMatch_none_of_no_digit (cs : List Char) (h : ∀ c ∈ cs, c.isDigit = false) :
    firstMatch formats cs = none := by
  have h1 : search slashAt cs = none :=
    search_none_of_head slashAt (by simp [slashAt, group12, digitsExact])
      (fun c cs hc => by unfold slashAt; exact group12_head _ c cs _ hc) cs h
  have h2 : search isoAt cs = none :=
    search_none_of_head isoAt (by simp [isoAt, group4, digitsExact])
      (fun c cs hc => by unfold isoAt; exact group4_head _ c cs _ hc) cs h
  have h3 : search dashAt cs = none :=
    search_none_of_head dashAt (by simp [dashAt, group12, digitsExact])
      (fun c cs hc => by unfold dashAt; exact group12_head _ c cs _ hc) cs h
  simp [formats, firstMatch, h1, h2, h3]

/-! ## Reading the decisions of a row backwards -/

theorem trim_ok_inv (col : String) (v : Val) (t : String) (h : v.trim col = .ok t) :
    ∃ s, v = .str s ∧ t = jsTrim s := by
  cases v with
  | str s => simp only [Val.trim, Except.ok.injEq] at h; exact ⟨s, rfl, h.symm⟩
  | undefined => simp [Val.trim] at h
  | num n => simp [Val.trim] at h
  | bool b => simp [Val.trim] at h

theorem agentKey_some_inv (row : Row) (k : String) (h : agentKey row = .ok (some k)) :
    ∃ s, row.Agent = .str s ∧ k = jsTrim s := by
  unfold agentKey at h
  by_cases hg : row.Agent.truthy = true
  · rw [if_pos hg] at h
    cases ht : row.Agent.trim "Agent" with
    | error e => simp [ht] at h
    | ok t =>
      obtain ⟨s, hs, hts⟩ := trim_ok_inv _ _ _ ht
      by_cases hne : t = ""
      · simp [ht, hne] at h
      · simp [ht, hne] at h
        exact ⟨s, hs, by rw [← h, hts]⟩
  · rw [if_neg hg] at h
    simp at h

theorem leafKey_some_inv (cell : Val) (col k : String) (h : leafKey cell col = .ok (some k)) :
    ∃ s, cell = .str s ∧ k = jsTrim s := by
  unfold leafKey at h
  by_cases hg : cell.truthy = true
  · rw [if_pos hg] at h
    cases ht : cell.trim col with
    | error e => simp [ht] at h
    | ok t =>
      obtain ⟨s, hs, hts⟩ := trim_ok_inv _ _ _ ht
      simp [ht] at h
      exact ⟨s, hs, by rw [← h, hts]⟩
  · rw [if_neg hg] at h
    simp at h

theorem agentKey_ok_of_notRaising (row : Row) (h : NotRaising row.Agent) :
    ∃ a, agentKey row = .ok a := by
  unfold agentKey
  by_cases hg : row.Agent.truthy = true
  · obtain ⟨s, hs⟩ := h hg
    rw [if_pos hg, hs]
    by_cases hne : jsTrim s = ""
    · exact ⟨none, by simp [Val.trim, hne]⟩
    · exact ⟨some (jsTrim s), by simp [Val.trim, hne]⟩
  · exact ⟨none, by rw [if_neg hg]⟩

theorem notRaising_of_agentKey_ok (row : Row) (a : Option String) (h : agentKey row = .ok a) :
    NotRaising row.Agent := by
  intro hg
  unfold agentKey at h
  rw [if_pos hg] at h
  cases hv : row.Agent with
  | str s => exact ⟨s, rfl⟩
  | undefined => rw [hv] at hg; simp [Val.truthy] at hg
  | num n => rw [hv] at h; simp [Val.trim] at h
  | bool b => rw [hv] at h; simp [Val.trim] at h

theorem leafKey_of_notRaising (cell : Val) (col : String) (h : NotRaising cell) :
    ∃ k, leafKey cell col = .ok k := by
  unfold leafKey
  by_cases hg : cell.truthy = true
  · obtain ⟨s, hs⟩ := h hg
    rw [if_pos hg, hs]
    exact ⟨some (jsTrim s), by simp [Val.trim]⟩
  · exact ⟨none, by rw [if_neg hg]⟩

/-- The User step upserts exactly when First Name and Email are non-empty text. -/
theorem userData_some_iff (newDate : Val → Option JsDate) (row : Row) (u : UserFields) :
    userData newDate row = .ok (some u) ↔
      ∃ f e, row.FirstName = .str f ∧ row.Email = .str e ∧ f ≠ "" ∧ e ≠ "" ∧
        u = { firstName := jsTrim f
              dob := parseDate newDate row.DOB
              address := row.Address.orElse ""
              phone := row.Phone.orElse ""
              state := row.State.orElse ""
              zip := row.Zip.orElse ""
              email := jsTrim e
              gender := row.Gender.orElse ""
              userType := row.UserType.orElse "Customer" } := by
  constructor
  · intro h
    obtain ⟨hf, he, htf, hte⟩ := userData_some_inv newDate row u h
    obtain ⟨f, hfs, hf2⟩ := trim_ok_inv _ _ _ htf
    obtain ⟨e, hes, he2⟩ := trim_ok_inv _ _ _ hte
    refine ⟨f, e, hfs, hes, ?_, ?_, ?_⟩
    · rw [hfs] at hf; simpa [Val.truthy] using hf
    · rw [hes] at he; simpa [Val.truthy] using he
    · unfold userData at h
      simp only [hf, he, Bool.and_self, if_true, htf, hte, Except.ok.injEq,
        Option.some.injEq] at h
      rw [← h, hf2, he2]
  · rintro ⟨f, e, hf, he, hfn, hen, hu⟩
    unfold userData
    simp [hf, he, Val.truthy, hfn, hen, Val.trim, hu]

/-- Without two non-empty text cells the User step upserts nothing: it skips,
or raises on a truthy cell that is not text. -/
theorem userData_not_some (newDate : Val → Option JsDate) (row : Row)
    (h : ¬ ∃ f e, row.FirstName = .str f ∧ row.Email = .str e ∧ f ≠ "" ∧ e ≠ "") :
    ∀ u, userData newDate row ≠ .ok (some u) := by
  intro u hu
  obtain ⟨f, e, hf, he, hfn, hen, _⟩ := (userData_some_iff newDate row u).1 hu
  exact h ⟨f, e, hf, he, hfn, hen⟩

theorem mem_updateFirst {α : Type} (key : α → String) (k : String) (v : α) (l : List (Doc α))
    (d : Doc α) (h : d ∈ updateFirst key k v l) : d ∈ l ∨ d.fields = v := by
  induction l with
  | nil => simp [updateFirst] at h
  | cons d0 ds ih =>
    by_cases hk : key d0.fields = k
    · simp only [updateFirst, hk, beq_self_eq_true, if_true, List.mem_cons] at h
      rcases h with h | h
      · right; rw [h]
      · left; exact List.mem_cons_of_mem _ h
    · simp only [updateFirst, beq_iff_eq, hk, if_false, List.mem_cons] at h
      rcases h with h | h
      · left; rw [h]; exact List.mem_cons_self _ _
      · rcases ih h with h2 | h2
        · left; exact List.mem_cons_of_mem _ h2
        · right; exact h2

/-- A document found after an upsert was there before or holds the fields written. -/
theorem mem_findOneAndUpdate_docs {α : Type} (key : α → String) (k : String) (v : α)
    (c : Collection α) (d : Doc α) (h : d ∈ (c.findOneAndUpdate key k v).docs) :
    d ∈ c.docs ∨ d.fields = v := by
  unfold Collection.findOneAndUpdate at h
  cases hf : c.findOne key k with
  | some d0 =>
    rw [hf] at h
    exact mem_updateFirst key k v c.docs d h
  | none =>
    rw [hf] at h
    simp only [List.mem_append, List.mem_singleton] at h
    rcases h with h | h
    · left; exact h
    · right; rw [h]

theorem mem_upsertAll_docs {α : Type} (key : α → String) (ops : List α) (c : Collection α)
    (d : Doc α) (h : d ∈ (upsertAll key ops c).docs) : d ∈ c.docs ∨ d.fields ∈ ops := by
  induction ops generalizing c with
  | nil => left; exact h
  | cons v ops ih =>
    rw [upsertAll_cons] at h
    rcases ih _ h with h2 | h2
    · rcases mem_findOneAndUpdate_docs key (key v) v c d h2 with h3 | h3
      · left; exact h3
      · right; rw [h3]; exact List.mem_cons_self _ _
    · right; exact List.mem_cons_of_mem _ h2

theorem leafOps_agents (newDate : Val → Option JsDate) (row : Row) :
    (leafOps newDate row).agents =
      match agentKey row with
      | .error _ => []
      | .ok a => (a.map AgentFields.mk).toList := by
  unfold leafOps
  cases agentKey row <;> cases userData newDate row <;>
    cases leafKey row.AccountName "Account Name" <;> cases leafKey row.Category "Category" <;>
    cases leafKey row.Carrier "Carrier" <;> rfl

theorem leafOps_users (newDate : Val → Option JsDate) (row : Row) :
    (leafOps newDate row).users =
      match agentKey row with
      | .error _ => []
      | .ok _ =>
        match userData newDate row with
        | .error _ => []
        | .ok u => u.toList := by
  unfold leafOps
  cases agentKey row <;> cases userData newDate row <;>
    cases leafKey row.AccountName "Account Name" <;> cases leafKey row.Category "Category" <;>
    cases leafKey row.Carrier "Carrier" <;> rfl

theorem leafOps_accounts (newDate : Val → Option JsDate) (row : Row) :
    (leafOps newDate row).accounts =
      match agentKey row with
      | .error _ => []
      | .ok _ =>
        match userData newDate row with
        | .error _ => []
        | .ok _ =>
          match leafKey row.AccountName "Account Name" with
          | .error _ => []
          | .ok ac => (ac.map AccountFields.mk).toList := by
  unfold leafOps
  cases agentKey row <;> cases userData newDate row <;>
    cases leafKey row.AccountName "Account Name" <;> cases leafKey row.Category "Category" <;>
    cases leafKey row.Carrier "Carrier" <;> rfl

theorem leafOps_lobs (newDate : Val → Option JsDate) (row : Row) :
    (leafOps newDate row).lobs =
      match agentKey row with
      | .error _ => []
      | .ok _ =>
        match userData newDate row with
        | .error _ => []
        | .ok _ =>
          match leafKey row.AccountName "Account Name" with
          | .error _ => []
          | .ok _ =>
            match leafKey row.Category "Category" with
            | .error _ => []
            | .ok l => (l.map LOBFields.mk).toList := by
  unfold leafOps
  cases agentKey row <;> cases userData newDate row <;>
    cases leafKey row.AccountName "Account Name" <;> cases leafKey row.Category "Category" <;>
    cases leafKey row.Carrier "Carrier" <;> rfl

theorem leafOps_carriers (newDate : Val → Option JsDate) (row : Row) :
    (leafOps newDate row).carriers =
      match agentKey row with
      | .error _ => []
      | .ok _ =>
        match userData newDate row with
        | .error _ => []
        | .ok _ =>
          match leafKey row.AccountName "Account Name" with
          | .error _ => []
          | .ok _ =>
            match leafKey row.Category "Category" with
            | .error _ => []
            | .ok _ =>
              match leafKey row.Carrier "Carrier" with
              | .error _ => []
              | .ok c => (c.map CarrierFields.mk).toList := by
  unfold leafOps
  cases agentKey row <;> cases userData newDate row <;>
    cases leafKey row.AccountName "Account Name" <;> cases leafKey row.Category "Category" <;>
    cases leafKey row.Carrier "Carrier" <;> rfl

theorem mem_leafOps_agents (newDate : Val → Option JsDate) (row : Row) (v : AgentFields)
    (h : v ∈ (leafOps newDate row).agents) : agentKey row = .ok (some v.agentName) := by
  rw [leafOps_agents] at h
  cases h1 : agentKey row with
  | error e => simp [h1] at h
  | ok a =>
    rw [h1] at h
    cases a with
    | none => simp at h
    | some k => simp at h; rw [h]

theorem mem_leafOps_users (newDate : Val → Option JsDate) (row : Row) (v : UserFields)
    (h : v ∈ (leafOps newDate row).users) :
    (∃ a, agentKey row = .ok a) ∧ userData newDate row = .ok (some v) := by
  rw [leafOps_users] at h
  cases h1 : agentKey row with
  | error e => simp [h1] at h
  | ok a =>
    rw [h1] at h
    cases h2 : userData newDate row with
    | error e => simp [h2] at h
    | ok u =>
      rw [h2] at h
      cases u with
      | none => simp at h
      | some u => simp at h; exact ⟨⟨a, rfl⟩, by rw [h]⟩

theorem mem_leafOps_accounts (newDate : Val → Option JsDate) (row : Row) (v : AccountFields)
    (h : v ∈ (leafOps newDate row).accounts) :
    leafKey row.AccountName "Account Name" = .ok (some v.accountName) := by
  rw [leafOps_accounts] at h
  cases h1 : agentKey row with
  | error e => simp [h1] at h
  | ok a =>
    rw [h1] at h
    cases h2 : userData newDate row with
    | error e => simp [h2] at h
    | ok u =>
      rw [h2] at h
      cases h3 : leafKey row.AccountName "Account Name" with
      | error e => simp [h3] at h
      | ok ac =>
        rw [h3] at h
        cases ac with
        | none => simp at h
        | some k => simp at h; rw [h]

theorem mem_leafOps_lobs (newDate : Val → Option JsDate) (row : Row) (v : LOBFields)
    (h : v ∈ (leafOps newDate row).lobs) :
    leafKey row.Category "Category" = .ok (some v.categoryName) := by
  rw [leafOps_lobs] at h
  cases h1 : agentKey row with
  | error e => simp [h1] at h
  | ok a =>
    rw [h1] at h
    cases h2 : userData newDate row with
    | error e => simp [h2] at h
    | ok u =>
      rw [h2] at h
      cases h3 : leafKey row.AccountName "Account Name" with
      | error e => simp [h3] at h
      | ok ac =>
        rw [h3] at h
        cases h4 : leafKey row.Category "Category" with
        | error e => simp [h4] at h
        | ok l =>
          rw [h4] at h
          cases l with
          | none => simp at h
          | some k => simp at h; rw [h]

theorem mem_leafOps_carriers (newDate : Val → Option JsDate) (row : Row) (v : CarrierFields)
    (h : v ∈ (leafOps newDate row).carriers) :
    leafKey row.Carrier "Carrier" = .ok (some v.companyName) := by
  rw [leafOps_carriers] at h
  cases h1 : agentKey row with
  | error e => simp [h1] at h
  | ok a =>
    rw [h1] at h
    cases h2 : userData newDate row with
    | error e => simp [h2] at h
    | ok u =>
      rw [h2] at h
      cases h3 : leafKey row.AccountName "Account Name" with
      | error e => simp [h3] at h
      | ok ac =>
        rw [h3] at h
        cases h4 : leafKey row.Category "Category" with
        | error e => simp [h4] at h
        | ok l =>
          rw [h4] at h
          cases h5 : leafKey row.Carrier "Carrier" with
          | error e => simp [h5] at h
          | ok c =>
            rw [h5] at h
            cases c with
            | none => simp at h
            | some k => simp at h; rw [h]

/-! ## The Policy upsert of a row, forwards and backwards -/

theorem leafOps_reaches (newDate : Val → Option JsDate) (row : Row)
    (a : Option String) (u : Option UserFields) (ac l c : Option String)
    (h1 : agentKey row = .ok a) (h2 : userData newDate row = .ok u)
    (h3 : leafKey row.AccountName "Account Name" = .ok ac)
    (h4 : leafKey row.Category "Category" = .ok l)
    (h5 : leafKey row.Carrier "Carrier" = .ok c) :
    leafOps newDate row = ⟨(a.map AgentFields.mk).toList, u.toList,
      (ac.map AccountFields.mk).toList, (l.map LOBFields.mk).toList,
      (c.map CarrierFields.mk).toList, true⟩ := by
  unfold leafOps
  simp only [h1, h2, h3, h4, h5]

/-- The Policy step writes when its row has a text Policy Number and the user
lookup finds a document. -/
theorem policyOps_of (newDate : Val → Option JsDate) (row : Row) (db : Db)
    (a : Option String) (uf : UserFields) (ac l c : Option String) (pn : String) (i : Nat)
    (h1 : agentKey row = .ok a) (h2 : userData newDate row = .ok (some uf))
    (h3 : leafKey row.AccountName "Account Name" = .ok ac)
    (h4 : leafKey row.Category "Category" = .ok l)
    (h5 : leafKey row.Carrier "Carrier" = .ok c)
    (hpn : row.PolicyNumber = .str pn) (hne : pn ≠ "")
    (hid : idOf UserFields.email db.users uf.email = some i) :
    policyData newDate row db = .ok (some
      { policyNumber := jsTrim pn
        startDate := parseDate newDate row.StartDate
        endDate := parseDate newDate row.EndDate
        categoryId := l.bind (idOf LOBFields.categoryName db.lobs)
        carrierId := c.bind (idOf CarrierFields.companyName db.carriers)
        userId := i
        accountId := ac.bind (idOf AccountFields.accountName db.accounts) }) ∧
    policyOps newDate row db =
      [{ policyNumber := jsTrim pn
         startDate := parseDate newDate row.StartDate
         endDate := parseDate newDate row.EndDate
         categoryId := l.bind (idOf LOBFields.categoryName db.lobs)
         carrierId := c.bind (idOf CarrierFields.companyName db.carriers)
         userId := i
         accountId := ac.bind (idOf AccountFields.accountName db.accounts) }] := by
  have hd : policyData newDate row db = .ok (some
      { policyNumber := jsTrim pn
        startDate := parseDate newDate row.StartDate
        endDate := parseDate newDate row.EndDate
        categoryId := l.bind (idOf LOBFields.categoryName db.lobs)
        carrierId := c.bind (idOf CarrierFields.companyName db.carriers)
        userId := i
        accountId := ac.bind (idOf AccountFields.accountName db.accounts) }) := by
    rw [policyData_reach newDate row db (some uf) ac l c h2 h3 h4 h5]
    simp [hpn, Val.truthy, hne, hid, policyFromIds, Val.trim]
  refine ⟨hd, ?_⟩
  unfold policyOps
  rw [leafOps_reaches newDate row a (some uf) ac l c h1 h2 h3 h4 h5, hd]
  rfl

/-- Whatever the Policy step writes was built from a text Policy Number, the
`_id` of the user found under the row's email, and the `_id`s found under the
keys of the Account, LOB and Carrier steps. -/
theorem mem_policyOps (newDate : Val → Option JsDate) (row : Row) (db : Db) (p : PolicyFields)
    (h : p ∈ policyOps newDate row db) :
    ∃ (uf : UserFields) (ac l c : Option String) (pn : String) (i : Nat),
      userData newDate row = .ok (some uf) ∧
      leafKey row.AccountName "Account Name" = .ok ac ∧
      leafKey row.Category "Category" = .ok l ∧
      leafKey row.Carrier "Carrier" = .ok c ∧
      row.PolicyNumber = .str pn ∧
      idOf UserFields.email db.users uf.email = some i ∧
      policyOps newDate row db = [p] ∧
      p = { policyNumber := jsTrim pn
            startDate := parseDate newDate row.StartDate
            endDate := parseDate newDate row.EndDate
            categoryId := l.bind (idOf LOBFields.categoryName db.lobs)
            carrierId := c.bind (idOf CarrierFields.companyName db.carriers)
            userId := i
            accountId := ac.bind (idOf AccountFields.accountName db.accounts) } := by
  rcases leafOps_cases newDate row with hr | ⟨a, u, ac, l, c, h1, h2, h3, h4, h5, hops⟩
  · simp [policyOps, hr] at h
  · have hr : (leafOps newDate row).reachesPolicy = true := by rw [hops]
    have hp := h
    unfold policyOps at hp
    rw [if_pos hr] at hp
    cases u with
    | none =>
      rw [policyData_reach newDate row db none ac l c h2 h3 h4 h5] at hp
      by_cases hpt : row.PolicyNumber.truthy = true
      · simp [hpt] at hp
      · simp [hpt] at hp
    | some uf =>
      rw [policyData_reach newDate row db (some uf) ac l c h2 h3 h4 h5] at hp
      by_cases hpt : row.PolicyNumber.truthy = true
      · simp only [hpt, if_true] at hp
        cases hid : idOf UserFields.email db.users uf.email with
        | none => simp [hid, policyFromIds] at hp
        | some i =>
          cases ht : row.PolicyNumber.trim "Policy Number" with
          | error e => simp [hid, policyFromIds, ht] at hp
          | ok t =>
            obtain ⟨pn, hpn, htn⟩ := trim_ok_inv _ _ _ ht
            have hne : pn ≠ "" := by
              rw [hpn] at hpt; simpa [Val.truthy] using hpt
            have hof := policyOps_of newDate row db a uf ac l c pn i h1 h2 h3 h4 h5 hpn hne hid
            rw [hof.2] at h
            simp only [List.mem_singleton] at h
            refine ⟨uf, ac, l, c, pn, i, h2, h3, h4, h5, hpn, hid, ?_, h⟩
            rw [hof.2, h]
      · simp [hpt] at hp

theorem policyOps_length_le (newDate : Val → Option JsDate) (row : Row) (db : Db) :
    (policyOps newDate row db).length ≤ 1 := by
  unfold policyOps
  split
  · split <;> simp
  · simp

theorem put_db_reach (a : Option String) (u : Option UserFields) (ac l c : Option String)
    (w : World) :
    (putCarrier c (putLOB l (putAccount ac (putUser u (putAgent a w))))).db =
      applyLeaf ⟨(a.map AgentFields.mk).toList, u.toList, (ac.map AccountFields.mk).toList,
        (l.map LOBFields.mk).toList, (c.map CarrierFields.mk).toList, true⟩ w.db := by
  simp [applyLeaf, putAgent_db, putUser_db, putAccount_db, putLOB_db, putCarrier_db]

/-- A row whose five first decisions and whose Policy step do not raise records no error. -/
theorem processRow_no_error (newDate : Val → Option JsDate) (row : Row) (w : World)
    (a : Option String) (u : Option UserFields) (ac l c : Option String)
    (p : Option PolicyFields)
    (h1 : agentKey row = .ok a) (h2 : userData newDate row = .ok u)
    (h3 : leafKey row.AccountName "Account Name" = .ok ac)
    (h4 : leafKey row.Category "Category" = .ok l)
    (h5 : leafKey row.Carrier "Carrier" = .ok c)
    (h6 : policyData newDate row (applyLeaf (leafOps newDate row) w.db) = .ok p) :
    (processRow newDate row w).2 = none := by
  rw [processRow_eq]
  unfold rowResult
  rw [leafOps_reaches newDate row a u ac l c h1 h2 h3 h4 h5, ← put_db_reach] at h6
  simp only [h1, h2, h3, h4, h5, h6]

/-! ## Claims on `parseDate` -/

/-- C3: the pattern fallback of `parseDate` names the first, second and third
capture group month, day and year for all three patterns; on a text the
general parse rejects and that matches `YYYY-MM-DD`, the date is built from
year = the day group, month = the year group, day = the month group:
`"2024-03-15 approx"` gives 3 August 2083 (month index 7), not 15 March 2024. -/
theorem parseDate_iso_groups_misnamed (newDate : Val → Option JsDate)
    (h : newDate (.str "2024-03-15 approx") = none) :
    parseDate newDate (.str "2024-03-15 approx") = some (JsDate.ofYMD 15 2023 3) ∧
    ((JsDate.ofYMD 15 2023 3).getFullYear, (JsDate.ofYMD 15 2023 3).getMonth,
      (JsDate.ofYMD 15 2023 3).getDate) = (2083, 7, 3) := by
  constructor
  · unfold parseDate
    rw [h]
    rfl
  · decide

/-- An instance with a general parse that rejects every text. -/
theorem parseDate_iso_groups_misnamed_witness :
    (fun _ : Val => (none : Option JsDate)) (.str "2024-03-15 approx") = none ∧
    parseDate (fun _ => none) (.str "2024-03-15 approx") = some (JsDate.ofYMD 15 2023 3) ∧
    ((JsDate.ofYMD 15 2023 3).getFullYear, (JsDate.ofYMD 15 2023 3).getMonth,
      (JsDate.ofYMD 15 2023 3).getDate) = (2083, 7, 3) :=
  ⟨rfl, parseDate_iso_groups_misnamed (fun _ => none) rfl⟩

/-- C4: `parseDate` is total and degrades to absent: it returns `none` for an
absent or empty input, for every input on which the general parse fails and no
pattern matches, and for whitespace-only text (which is truthy, reaches the
general parse, is rejected there and matches no pattern). -/
theorem parseDate_absent (newDate : Val → Option JsDate) (v : Val) :
    (v.truthy = false → parseDate newDate v = none) ∧
    (newDate v = none → firstMatch formats v.toString.data = none →
      parseDate newDate v = none) ∧
    (∀ s, v = .str s → (∀ c ∈ s.data, isJsSpace c = true) → newDate v = none →
      parseDate newDate v = none) := by
  have key : newDate v = none → firstMatch formats v.toString.data = none →
      parseDate newDate v = none := by
    intro h1 h2
    unfold parseDate
    rw [h1, h2]
    cases v.truthy <;> rfl
  refine ⟨?_, key, ?_⟩
  · intro h
    unfold parseDate
    rw [h]; rfl
  · intro s hs hsp hnd
    apply key hnd
    subst hs
    exact firstMatch_none_of_no_digit _ (fun c hc => isDigit_false_of_isJsSpace c (hsp c hc))

/-- An instance: `"not-a-date"` is rejected by the general parse, matches no pattern and parses to absent. -/
theorem parseDate_absent_witness :
    (fun _ : Val => (none : Option JsDate)) (.str "not-a-date") = none ∧
    firstMatch formats (Val.str "not-a-date").toString.data = none ∧
    parseDate (fun _ => none) (.str "not-a-date") = none :=
  ⟨rfl, by decide, (parseDate_absent (fun _ => none) (.str "not-a-date")).2.1 rfl (by decide)⟩

/-! ## Claims on the row loop -/

/-- C9: partial failure isolation.  `recordsProcessed` is the number of rows,
every row has an outcome, `summary.errors` is the number of rows that raised,
and the loop over `pre ++ post` is the loop over `post` continued from the
world, index and error list the loop over `pre` left, whatever failed in
`pre`.  With three rows of which the second raises in its User step:
`recordsProcessed = 3`, `errors = 1`, and the users of rows 1 and 3 counted. -/
theorem partial_failure_isolation (newDate : Val → Option JsDate) (data : List Row) (db : Db) :
    (processAndInsertData newDate data db).1.recordsProcessed = data.length ∧
    (rowOutcomes newDate data ⟨db, Summary.zero⟩).length = data.length ∧
    (processAndInsertData newDate data db).1.summary.errors =
      ((rowOutcomes newDate data ⟨db, Summary.zero⟩).filter Option.isSome).length ∧
    (∀ (pre post : List Row) (i : Nat) (w : World) (errors : List String),
      loop newDate (pre ++ post) i w errors =
        loop newDate post (i + pre.length) (loop newDate pre i w errors).1
          (loop newDate pre i w errors).2) ∧
    (processAndInsertData newDate
      [{ FirstName := .str "A", Email := .str "a@x.com" },
       { FirstName := .str "B", Email := .num 42 },
       { FirstName := .str "C", Email := .str "c@x.com" }] db).1 =
      { recordsProcessed := 3
        summary := { agents := 0, users := 2, accounts := 0, lobs := 0, carriers := 0,
                     policies := 0, errors := 1 }
        errors := some ["Row 2: row.Email.trim is not a function"] } := by
  refine ⟨rfl, length_rowOutcomes _ _ _, ?_, loop_append newDate, ?_⟩
  · simp only [processAndInsertData, loop_eq]
    rw [runWorld_errors]
    simp [Summary.zero]
  · rfl

/-- C10: the list of row errors.  The `errors` field of the result holds one
entry per row that raised, in file order, each `"Row <n>: <message>"` with `n`
the 1-based index of the row and the message of its exception; its length is
`summary.errors`, and the field is present exactly when `summary.errors > 0`. -/
theorem row_error_list (newDate : Val → Option JsDate) (data : List Row) (db : Db) :
    let failed := ((rowOutcomes newDate data ⟨db, Summary.zero⟩).enumFrom 0).filterMap
      (fun p => p.2.map (fun m => "Row " ++ ToString.toString (p.1 + 1) ++ ": " ++ m))
    (processAndInsertData newDate data db).1.errors =
      (if failed = [] then none else some failed) ∧
    failed.length = (processAndInsertData newDate data db).1.summary.errors ∧
    ((processAndInsertData newDate data db).1.errors.isSome ↔
      0 < (processAndInsertData newDate data db).1.summary.errors) := by
  intro failed
  have hf : failed = errorEntries 0 (rowOutcomes newDate data ⟨db, Summary.zero⟩) :=
    (errorEntries_eq 0 _).symm
  have hlen : failed.length = (processAndInsertData newDate data db).1.summary.errors := by
    rw [hf, length_errorEntries]
    simp only [processAndInsertData, loop_eq]
    rw [runWorld_errors]
    simp [Summary.zero]
  have herr : (processAndInsertData newDate data db).1.errors =
      (if failed = [] then none else some failed) := by
    simp only [processAndInsertData, loop_eq, List.nil_append, ← hf]
    cases failed with
    | nil => simp
    | cons a l => simp
  refine ⟨herr, hlen, ?_⟩
  rw [herr, ← hlen]
  cases failed with
  | nil => simp
  | cons a l => simp

/-! ## Claims on the store -/

theorem filter_key_length_one {α : Type} (key : α → String) (k : String) (l : List (Doc α))
    (hl : (l.map (fun d => key d.fields)).Nodup) (hk : ∃ d ∈ l, key d.fields = k) :
    (l.filter (fun d => key d.fields == k)).length = 1 := by
  induction l with
  | nil => obtain ⟨d, hd, _⟩ := hk; cases hd
  | cons d0 ds ih =>
    simp only [List.map_cons, List.nodup_cons] at hl
    by_cases h0 : key d0.fields = k
    · have hnone : ds.filter (fun d => key d.fields == k) = [] := by
        rw [List.filter_eq_nil_iff]
        intro d hd hdk
        apply hl.1
        have : key d.fields = k := by simpa using hdk
        rw [h0, ← this]
        exact List.mem_map_of_mem (fun d => key d.fields) hd
      simp [List.filter_cons, h0, hnone]
    · obtain ⟨d, hd, hdk⟩ := hk
      have hd2 : d ∈ ds := by
        rcases List.mem_cons.1 hd with h | h
        · subst h; exact absurd hdk h0
        · exact h
      simp [List.filter_cons, h0, ih hl.2 ⟨d, hd2, hdk⟩]

theorem Db.uniqueKeys_empty : Db.empty.UniqueKeys :=
  ⟨List.nodup_nil, List.nodup_nil, List.nodup_nil, List.nodup_nil, List.nodup_nil, List.nodup_nil⟩

/-- C1: idempotence of ingestion.  From a store with unique natural keys,
running `processAndInsertData` on the rows a second time, on the store the
first run left, leaves that store exactly as it is (same documents, fields and
`_id`s in every kind), and that store has one record per natural key; one row
with email `a@x.com` ingested twice leaves exactly one User record with that email. -/
theorem ingestion_idempotent (newDate : Val → Option JsDate) (data : List Row) (db : Db)
    (h : db.UniqueKeys) :
    (processAndInsertData newDate data (processAndInsertData newDate data db).2).2 =
      (processAndInsertData newDate data db).2 ∧
    (processAndInsertData newDate data db).2.UniqueKeys ∧
    ((processAndInsertData newDate [{ FirstName := .str "A", Email := .str "a@x.com" }]
        (processAndInsertData newDate [{ FirstName := .str "A", Email := .str "a@x.com" }]
          db).2).2.users.docs.filter (fun d => d.fields.email == "a@x.com")).length = 1 := by
  refine ⟨?_, ?_, ?_⟩
  · simp only [processAndInsertData_db]
    exact runDb_idempotent newDate data db h
  · rw [processAndInsertData_db]
    exact uniqueKeys_runDb newDate data db h
  · simp only [processAndInsertData_db]
    rw [runDb_idempotent newDate _ db h]
    have hu := (uniqueKeys_runDb newDate [{ FirstName := .str "A", Email := .str "a@x.com" }]
      db h).users
    apply filter_key_length_one UserFields.email "a@x.com" _ hu
    have hs : ((runDb newDate [{ FirstName := .str "A", Email := .str "a@x.com" }]
        db).users.findOne UserFields.email "a@x.com").isSome := by
      have : (runDb newDate [{ FirstName := .str "A", Email := .str "a@x.com" }] db).users =
          db.users.findOneAndUpdate UserFields.email "a@x.com"
            { firstName := "A", dob := parseDate newDate .undefined, address := .str "",
              phone := .str "", state := .str "", zip := .str "", email := "a@x.com",
              gender := .str "", userType := .str "Customer" } := rfl
      rw [this, findOne_findOneAndUpdate_self UserFields.email "a@x.com" _ rfl]
      rfl
    cases hf : (runDb newDate [{ FirstName := .str "A", Email := .str "a@x.com" }]
        db).users.findOne UserFields.email "a@x.com" with
    | none => rw [hf] at hs; cases hs
    | some d => exact ⟨d, findOne_mem _ _ _ _ hf, findOne_key _ _ _ _ hf⟩

/-- An instance from the empty store: two rows sharing an email, one with an agent, a carrier and a policy. -/
theorem ingestion_idempotent_witness :
    Db.empty.UniqueKeys ∧
    (processAndInsertData (fun _ => none)
        [{ Agent := .str " Al ", FirstName := .str "A", Email := .str "a@x.com",
           PolicyNumber := .str "P1", Carrier := .str "Acme" },
         { FirstName := .str "B", Email := .str "a@x.com", Address := .str "1 Main St" }]
        (processAndInsertData (fun _ => none)
          [{ Agent := .str " Al ", FirstName := .str "A", Email := .str "a@x.com",
             PolicyNumber := .str "P1", Carrier := .str "Acme" },
           { FirstName := .str "B", Email := .str "a@x.com", Address := .str "1 Main St" }]
          Db.empty).2).2 =
      (processAndInsertData (fun _ => none)
        [{ Agent := .str " Al ", FirstName := .str "A", Email := .str "a@x.com",
           PolicyNumber := .str "P1", Carrier := .str "Acme" },
         { FirstName := .str "B", Email := .str "a@x.com", Address := .str "1 Main St" }]
        Db.empty).2 :=
  ⟨Db.uniqueKeys_empty,
    (ingestion_idempotent (fun _ => none)
      [{ Agent := .str " Al ", FirstName := .str "A", Email := .str "a@x.com",
         PolicyNumber := .str "P1", Carrier := .str "Acme" },
       { FirstName := .str "B", Email := .str "a@x.com", Address := .str "1 Main St" }]
      Db.empty Db.uniqueKeys_empty).1⟩

theorem overwrites_findOneAndUpdate {α : Type} (key : α → String) (v : α) (c : Collection α) :
    Overwrites key c (c.findOneAndUpdate key (key v) v) v := by
  intro d hd
  refine ⟨length_findOneAndUpdate_present key (key v) v c d hd, ?_⟩
  rw [findOne_findOneAndUpdate_self key (key v) v rfl, hd]

/-! ## Claims on the steps of a row -/

theorem processRow_users (newDate : Val → Option JsDate) (row : Row) (w : World) :
    (processRow newDate row w).1.db.users =
      upsertAll UserFields.email (leafOps newDate row).users w.db.users := by
  rw [processRow_db]; rfl

theorem processRow_policies (newDate : Val → Option JsDate) (row : Row) (w : World) :
    (processRow newDate row w).1.db.policies =
      upsertAll PolicyFields.policyNumber
        (policyOps newDate row (applyLeaf (leafOps newDate row) w.db)) w.db.policies := by
  rw [processRow_db]; rfl

/-- C5 (as stated, refuted): on the empty store, where no User with email
`missing@x.com` exists, the single row with Policy Number `POL100`, First Name
`X` and Email `missing@x.com` does create a Policy: its own User step upserts
the User before the Policy step looks it up. -/
theorem policy_created_for_unknown_user :
    Db.empty.users.findOne UserFields.email "missing@x.com" = none ∧
    (processAndInsertData (fun _ => none)
      [{ PolicyNumber := .str "POL100", FirstName := .str "X", Email := .str "missing@x.com" }]
      Db.empty).1.summary.policies = 1 ∧
    (processAndInsertData (fun _ => none)
      [{ PolicyNumber := .str "POL100", FirstName := .str "X", Email := .str "missing@x.com" }]
      Db.empty).2.policies.docs.map (fun d => d.fields.policyNumber) = ["POL100"] := by
  decide

/-- C5 (amended): a row with Policy Number `POL100`, First Name `X` and Email
`missing@x.com`, whose Agent, Account Name, Category and Carrier cells are text
or falsy, upserts the User of that email in its own User step, so its Policy
step finds the User and writes Policy `POL100` referring to it: the policies
counter is incremented and no error is recorded, whatever the store held. -/
theorem policy_written_with_row_user (newDate : Val → Option JsDate) (row : Row) (w : World)
    (hP : row.PolicyNumber = .str "POL100") (hF : row.FirstName = .str "X")
    (hE : row.Email = .str "missing@x.com")
    (hAg : NotRaising row.Agent) (hAc : NotRaising row.AccountName)
    (hCat : NotRaising row.Category) (hCar : NotRaising row.Carrier) :
    (processRow newDate row w).2 = none ∧
    (processRow newDate row w).1.summary.users = w.summary.users + 1 ∧
    (processRow newDate row w).1.summary.policies = w.summary.policies + 1 ∧
    ∃ u p, (processRow newDate row w).1.db.users.findOne UserFields.email "missing@x.com" =
        some u ∧
      (processRow newDate row w).1.db.policies.findOne PolicyFields.policyNumber "POL100" =
        some p ∧
      p.fields.userId = u._id := by
  obtain ⟨a, h1⟩ := agentKey_ok_of_notRaising row hAg
  obtain ⟨ac, h3⟩ := leafKey_of_notRaising row.AccountName "Account Name" hAc
  obtain ⟨l, h4⟩ := leafKey_of_notRaising row.Category "Category" hCat
  obtain ⟨c, h5⟩ := leafKey_of_notRaising row.Carrier "Carrier" hCar
  have ht : jsTrim "missing@x.com" = "missing@x.com" := by decide
  have htp : jsTrim "POL100" = "POL100" := by decide
  have htx : jsTrim "X" = "X" := by decide
  obtain ⟨uf, h2, hufe⟩ : ∃ uf, userData newDate row = .ok (some uf) ∧
      uf.email = "missing@x.com" := by
    refine ⟨_, (userData_some_iff newDate row _).2
      ⟨"X", "missing@x.com", hF, hE, by decide, by decide, rfl⟩, ht⟩
  have hops := leafOps_reaches newDate row a (some uf) ac l c h1 h2 h3 h4 h5
  have husers : (applyLeaf (leafOps newDate row) w.db).users =
      w.db.users.findOneAndUpdate UserFields.email uf.email uf := by
    rw [hops]; rfl
  obtain ⟨i, hfind⟩ : ∃ i, (applyLeaf (leafOps newDate row) w.db).users.findOne
      UserFields.email uf.email = some ⟨i, uf⟩ := by
    rw [husers, findOne_findOneAndUpdate_self UserFields.email uf.email uf rfl]
    exact ⟨_, rfl⟩
  have hid : idOf UserFields.email (applyLeaf (leafOps newDate row) w.db).users uf.email =
      some i := by
    unfold idOf; rw [hfind]; rfl
  have hof := policyOps_of newDate row (applyLeaf (leafOps newDate row) w.db) a uf ac l c
    "POL100" i h1 h2 h3 h4 h5 hP (by decide) hid
  refine ⟨processRow_no_error newDate row w a (some uf) ac l c _ h1 h2 h3 h4 h5 hof.1, ?_, ?_, ?_⟩
  · rw [processRow_summary]
    simp [rowSummary, hops]
  · rw [processRow_summary]
    simp only [rowSummary, hof.2, List.length_singleton]
  · refine ⟨⟨i, uf⟩, ?_⟩
    rw [processRow_users, processRow_policies, hof.2, htp]
    have hu2 : upsertAll UserFields.email (leafOps newDate row).users w.db.users =
        (applyLeaf (leafOps newDate row) w.db).users := rfl
    rw [hu2, ← hufe, hfind]
    rw [upsertAll_cons, upsertAll_nil,
      findOne_findOneAndUpdate_self PolicyFields.policyNumber "POL100" _ rfl]
    exact ⟨_, rfl, rfl, rfl⟩

theorem notRaising_undefined : NotRaising .undefined := by
  intro h; simp [Val.truthy] at h

theorem notRaising_str (s : String) : NotRaising (.str s) := fun _ => ⟨s, rfl⟩

/-- An instance on the empty store, with a text Carrier. -/
theorem policy_written_with_row_user_witness :
    (processRow (fun _ => none)
      { PolicyNumber := .str "POL100", FirstName := .str "X", Email := .str "missing@x.com",
        Carrier := .str "Acme" } ⟨Db.empty, Summary.zero⟩).2 = none ∧
    (processRow (fun _ => none)
      { PolicyNumber := .str "POL100", FirstName := .str "X", Email := .str "missing@x.com",
        Carrier := .str "Acme" } ⟨Db.empty, Summary.zero⟩).1.summary.policies = 0 + 1 :=
  have h := policy_written_with_row_user (fun _ => none)
    { PolicyNumber := .str "POL100", FirstName := .str "X", Email := .str "missing@x.com",
      Carrier := .str "Acme" } ⟨Db.empty, Summary.zero⟩ rfl rfl rfl notRaising_undefined
    notRaising_undefined notRaising_undefined (notRaising_str "Acme")
  ⟨h.1, h.2.2.1⟩

theorem idOf_some_inv {α : Type} (key : α → String) (c : Collection α) (k : String) (i : Nat)
    (h : idOf key c k = some i) : ∃ d, c.findOne key k = some d ∧ d._id = i := by
  unfold idOf at h
  cases hf : c.findOne key k with
  | none => simp [hf] at h
  | some d => simp [hf] at h; exact ⟨d, rfl, h⟩

theorem refResolved_of_leafKey {α : Type} (cell : Val) (col : String) (key : α → String)
    (c : Collection α) (k : Option String) (h : leafKey cell col = .ok k) :
    RefResolved cell key c (k.bind (idOf key c)) := by
  cases k with
  | none => left; rfl
  | some k =>
    obtain ⟨s, hs, hk⟩ := leafKey_some_inv cell col k h
    cases hid : idOf key c k with
    | none => left; simp [hid]
    | some i =>
      obtain ⟨d, hd, hdi⟩ := idOf_some_inv key c k i hid
      right
      refine ⟨s, d, hs, ?_, ?_⟩
      · rw [← hk]; exact hd
      · simp [hid, hdi]

/-- C6: referential integrity of the Policy a row writes.  When a row writes a
Policy (its policies counter is incremented), the store the row leaves holds
that Policy under the trimmed Policy Number, its user reference is the `_id`
of the User stored under the row's trimmed Email, and each of its account,
category and carrier references is absent or the `_id` of the Account, LOB or
Carrier stored under the row's trimmed Account Name, Category or Carrier; a row
that does not increment the counter leaves the policies as they were. -/
theorem policy_references_resolve (newDate : Val → Option JsDate) (row : Row) (w : World) :
    ((processRow newDate row w).1.summary.policies = w.summary.policies + 1 →
      ∃ pn e p u, row.PolicyNumber = .str pn ∧ row.Email = .str e ∧
        (processRow newDate row w).1.db.policies.findOne PolicyFields.policyNumber (jsTrim pn) =
          some p ∧
        (processRow newDate row w).1.db.users.findOne UserFields.email (jsTrim e) = some u ∧
        p.fields.userId = u._id ∧
        RefResolved row.AccountName AccountFields.accountName
          (processRow newDate row w).1.db.accounts p.fields.accountId ∧
        RefResolved row.Category LOBFields.categoryName
          (processRow newDate row w).1.db.lobs p.fields.categoryId ∧
        RefResolved row.Carrier CarrierFields.companyName
          (processRow newDate row w).1.db.carriers p.fields.carrierId) ∧
    ((processRow newDate row w).1.summary.policies ≠ w.summary.policies + 1 →
      (processRow newDate row w).1.db.policies = w.db.policies) := by
  have hlen := policyOps_length_le newDate row (applyLeaf (leafOps newDate row) w.db)
  have hsum : (processRow newDate row w).1.summary.policies = w.summary.policies +
      (policyOps newDate row (applyLeaf (leafOps newDate row) w.db)).length := by
    rw [processRow_summary]; rfl
  have hleaf : (processRow newDate row w).1.db.users =
        (applyLeaf (leafOps newDate row) w.db).users ∧
      (processRow newDate row w).1.db.accounts =
        (applyLeaf (leafOps newDate row) w.db).accounts ∧
      (processRow newDate row w).1.db.lobs = (applyLeaf (leafOps newDate row) w.db).lobs ∧
      (processRow newDate row w).1.db.carriers =
        (applyLeaf (leafOps newDate row) w.db).carriers := by
    rw [processRow_db]; exact ⟨rfl, rfl, rfl, rfl⟩
  constructor
  · intro hw
    rw [hsum] at hw
    have h1 : (policyOps newDate row (applyLeaf (leafOps newDate row) w.db)).length = 1 := by
      omega
    obtain ⟨p, hp⟩ := List.length_eq_one.1 h1
    obtain ⟨uf, ac, l, c, pn, i, h2, h3, h4, h5, hpn, hid, _, hpe⟩ :=
      mem_policyOps newDate row _ p (by rw [hp]; exact List.mem_singleton_self p)
    obtain ⟨f, e, _, he, _, _, hu⟩ := (userData_some_iff newDate row uf).1 h2
    have hue : uf.email = jsTrim e := by rw [hu]
    obtain ⟨d, hd, hdi⟩ := idOf_some_inv _ _ _ _ hid
    rw [hleaf.1, hleaf.2.1, hleaf.2.2.1, hleaf.2.2.2, processRow_policies, hp]
    have hk : p.policyNumber = jsTrim pn := by rw [hpe]
    obtain ⟨pd, hpd, hpf⟩ : ∃ pd, (upsertAll PolicyFields.policyNumber [p]
        w.db.policies).findOne PolicyFields.policyNumber (jsTrim pn) = some pd ∧
        pd.fields = p := by
      rw [upsertAll_cons, upsertAll_nil, hk,
        findOne_findOneAndUpdate_self PolicyFields.policyNumber (jsTrim pn) p hk]
      exact ⟨_, rfl, rfl⟩
    refine ⟨pn, e, pd, d, hpn, he, hpd, ?_, ?_, ?_, ?_, ?_⟩
    · rw [← hue]; exact hd
    · rw [hpf, hpe, hdi]
    · rw [hpf, hpe]; exact refResolved_of_leafKey _ _ _ _ _ h3
    · rw [hpf, hpe]; exact refResolved_of_leafKey _ _ _ _ _ h4
    · rw [hpf, hpe]; exact refResolved_of_leafKey _ _ _ _ _ h5
  · intro hw
    rw [hsum] at hw
    have h0 : (policyOps newDate row (applyLeaf (leafOps newDate row) w.db)).length = 0 := by
      omega
    rw [processRow_policies, List.length_eq_zero.1 h0]
    rfl

/-- An instance on the empty store: a row with an account and a carrier and no category. -/
theorem policy_references_resolve_witness :
    (processRow (fun _ => none)
      { PolicyNumber := .str " P7 ", FirstName := .str "X", Email := .str "x@x.com",
        AccountName := .str "Main", Carrier := .str "Acme" }
      ⟨Db.empty, Summary.zero⟩).1.summary.policies = 0 + 1 ∧
    ∃ pn e p u, (Val.str " P7 ") = .str pn ∧ (Val.str "x@x.com") = .str e ∧
      (processRow (fun _ => none)
        { PolicyNumber := .str " P7 ", FirstName := .str "X", Email := .str "x@x.com",
          AccountName := .str "Main", Carrier := .str "Acme" }
        ⟨Db.empty, Summary.zero⟩).1.db.policies.findOne PolicyFields.policyNumber (jsTrim pn) =
        some p ∧
      (processRow (fun _ => none)
        { PolicyNumber := .str " P7 ", FirstName := .str "X", Email := .str "x@x.com",
          AccountName := .str "Main", Carrier := .str "Acme" }
        ⟨Db.empty, Summary.zero⟩).1.db.users.findOne UserFields.email (jsTrim e) = some u ∧
      p.fields.userId = u._id :=
  ⟨by decide,
    let ⟨pn, e, p, u, h1, h2, h3, h4, h5, _⟩ :=
      (policy_references_resolve (fun _ => none)
        { PolicyNumber := .str " P7 ", FirstName := .str "X", Email := .str "x@x.com",
          AccountName := .str "Main", Carrier := .str "Acme" }
        ⟨Db.empty, Summary.zero⟩).1 (by decide)
    ⟨pn, e, p, u, h1, h2, h3, h4, h5⟩⟩

/-- An instance on the empty store: a row whose First Name and Email are
whitespace-only upserts a User, counted in `summary.users` and keyed by the
empty email. -/
theorem user_upserted_for_whitespace_cells :
    (processAndInsertData (fun _ => none)
      [{ FirstName := .str "  ", Email := .str " " }] Db.empty).1.summary.users = 1 ∧
    (processAndInsertData (fun _ => none)
      [{ FirstName := .str "  ", Email := .str " " }] Db.empty).2.users.docs.map
        (fun d => (d.fields.firstName, d.fields.email)) = [("", "")] := by
  decide

theorem agentKey_of_blank (row : Row) (s : String) (hs : row.Agent = .str s)
    (hb : jsTrim s = "") : agentKey row = .ok none := by
  unfold agentKey
  rw [hs]
  by_cases hg : (Val.str s).truthy = true
  · rw [if_pos hg]
    simp [Val.trim, hb]
  · rw [if_neg hg]

theorem processRow_agents (newDate : Val → Option JsDate) (row : Row) (w : World) :
    (processRow newDate row w).1.db.agents =
      upsertAll AgentFields.agentName (leafOps newDate row).agents w.db.agents ∧
    (processRow newDate row w).1.summary.agents =
      w.summary.agents + (leafOps newDate row).agents.length := by
  rw [processRow_db, processRow_summary]
  exact ⟨rfl, rfl⟩

/-- The Agent guard `row.Agent && row.Agent.trim()` skips a whitespace-only
cell: no Agent is upserted and the counter is left as it was. -/
theorem agent_guard_skips_blank (newDate : Val → Option JsDate) (row : Row) (w : World)
    (s : String) (hs : row.Agent = .str s) (hb : jsTrim s = "") :
    (processRow newDate row w).1.summary.agents = w.summary.agents ∧
    (processRow newDate row w).1.db.agents = w.db.agents := by
  obtain ⟨hdb, hsum⟩ := processRow_agents newDate row w
  rw [hdb, hsum, leafOps_agents, agentKey_of_blank row s hs hb]
  exact ⟨rfl, rfl⟩

/-- C7: the User guard lets whitespace-only cells through.  The guard
`row['First Name'] && row['Email']` tests the raw cells: for a row whose Agent
cell is text or falsy, the User step upserts a User and increments
`summary.users` exactly when First Name and Email are both non-empty text, a
whitespace-only text included, so a row whose First Name or Email is
whitespace-only does upsert a User, keyed by the trimmed Email (the empty key
when the Email is whitespace-only).  The Agent guard of the same loop,
`row.Agent && row.Agent.trim()`, tests the trimmed cell and skips a
whitespace-only Agent. -/
theorem user_guard_admits_whitespace (newDate : Val → Option JsDate) (row : Row) (w : World)
    (hA : NotRaising row.Agent) :
    (∀ f e, row.FirstName = .str f → row.Email = .str e → f ≠ "" → e ≠ "" →
      (processRow newDate row w).1.summary.users = w.summary.users + 1 ∧
      (processRow newDate row w).1.db.users =
        w.db.users.findOneAndUpdate UserFields.email (jsTrim e)
          { firstName := jsTrim f
            dob := parseDate newDate row.DOB
            address := row.Address.orElse ""
            phone := row.Phone.orElse ""
            state := row.State.orElse ""
            zip := row.Zip.orElse ""
            email := jsTrim e
            gender := row.Gender.orElse ""
            userType := row.UserType.orElse "Customer" }) ∧
    ((¬ ∃ f e, row.FirstName = .str f ∧ row.Email = .str e ∧ f ≠ "" ∧ e ≠ "") →
      (processRow newDate row w).1.summary.users = w.summary.users ∧
      (processRow newDate row w).1.db.users = w.db.users) ∧
    (∀ s, row.Agent = .str s → jsTrim s = "" →
      (processRow newDate row w).1.summary.agents = w.summary.agents ∧
      (processRow newDate row w).1.db.agents = w.db.agents) := by
  obtain ⟨a, h1⟩ := agentKey_ok_of_notRaising row hA
  have hsum : (processRow newDate row w).1.summary.users =
      w.summary.users + (leafOps newDate row).users.length := by
    rw [processRow_summary]; rfl
  have hops : (leafOps newDate row).users =
      match userData newDate row with
      | .error _ => []
      | .ok u => u.toList := by
    rw [leafOps_users, h1]
  refine ⟨?_, ?_, fun s hs hb => agent_guard_skips_blank newDate row w s hs hb⟩
  · intro f e hf he hfn hen
    have hu := (userData_some_iff newDate row _).2 ⟨f, e, hf, he, hfn, hen, rfl⟩
    rw [hsum, processRow_users, hops, hu]
    exact ⟨rfl, rfl⟩
  · intro hn
    have hu := userData_not_some newDate row hn
    rw [hsum, processRow_users, hops]
    cases h2 : userData newDate row with
    | error e => exact ⟨rfl, rfl⟩
    | ok u =>
      cases u with
      | none => exact ⟨rfl, rfl⟩
      | some u => exact absurd h2 (hu u)

/-- An instance on the empty store: whitespace-only First Name, Email and
Agent; the User is counted and stored under the empty email, the Agent is
skipped. -/
theorem user_guard_admits_whitespace_witness :
    NotRaising (Val.str " ") ∧
    ((processRow (fun _ => none)
        { Agent := .str " ", FirstName := .str "  ", Email := .str " " }
        ⟨Db.empty, Summary.zero⟩).1.summary.users = 0 + 1 ∧
      (processRow (fun _ => none)
        { Agent := .str " ", FirstName := .str "  ", Email := .str " " }
        ⟨Db.empty, Summary.zero⟩).1.db.users =
        Collection.findOneAndUpdate UserFields.email (jsTrim " ")
          { firstName := jsTrim "  "
            dob := parseDate (fun _ => none) .undefined
            address := Val.orElse .undefined ""
            phone := Val.orElse .undefined ""
            state := Val.orElse .undefined ""
            zip := Val.orElse .undefined ""
            email := jsTrim " "
            gender := Val.orElse .undefined ""
            userType := Val.orElse .undefined "Customer" } Collection.empty) ∧
    ((processRow (fun _ => none)
        { Agent := .str " ", FirstName := .str "  ", Email := .str " " }
        ⟨Db.empty, Summary.zero⟩).1.summary.agents = 0 ∧
      (processRow (fun _ => none)
        { Agent := .str " ", FirstName := .str "  ", Email := .str " " }
        ⟨Db.empty, Summary.zero⟩).1.db.agents = Collection.empty) :=
  ⟨notRaising_str " ",
    (user_guard_admits_whitespace (fun _ => none)
      { Agent := .str " ", FirstName := .str "  ", Email := .str " " }
      ⟨Db.empty, Summary.zero⟩ (notRaising_str " ")).1 "  " " " rfl rfl (by decide)
      (by decide),
    (user_guard_admits_whitespace (fun _ => none)
      { Agent := .str " ", FirstName := .str "  ", Email := .str " " }
      ⟨Db.empty, Summary.zero⟩ (notRaising_str " ")).2.2 " " rfl (by decide)⟩

/-- C8 (as stated, refuted): the Address of a row is written to the store as
it stands in the row: `" 12 Main St "` is stored with its surrounding blanks. -/
theorem address_stored_untrimmed :
    (processAndInsertData (fun _ => none)
      [{ FirstName := .str "A", Email := .str "a@x.com", Address := .str " 12 Main St " }]
      Db.empty).2.users.docs.map (fun d => d.fields.address) = [.str " 12 Main St "] ∧
    jsTrim " 12 Main St " = "12 Main St" := by
  decide

/-- C8 (amended): every document a row writes has its natural key trimmed, and
a User has its first name trimmed: each document of the store the row leaves
was there before the row, or holds the trimmed Agent, the trimmed First Name
and Email, the trimmed Account Name, Category, Carrier or Policy Number of the
row.  Address, phone, state, zip and gender of a User are the row's cell as it
stands, or `""` when the cell is falsy; the user type is the cell as it
stands, or `"Customer"`. -/
theorem written_values (newDate : Val → Option JsDate) (row : Row) (w : World) :
    (∀ d ∈ (processRow newDate row w).1.db.agents.docs,
      d ∈ w.db.agents.docs ∨ ∃ s, row.Agent = .str s ∧ d.fields.agentName = jsTrim s) ∧
    (∀ d ∈ (processRow newDate row w).1.db.users.docs,
      d ∈ w.db.users.docs ∨ ∃ f e, row.FirstName = .str f ∧ row.Email = .str e ∧
        d.fields =
          { firstName := jsTrim f
            dob := parseDate newDate row.DOB
            address := row.Address.orElse ""
            phone := row.Phone.orElse ""
            state := row.State.orElse ""
            zip := row.Zip.orElse ""
            email := jsTrim e
            gender := row.Gender.orElse ""
            userType := row.UserType.orElse "Customer" }) ∧
    (∀ d ∈ (processRow newDate row w).1.db.accounts.docs,
      d ∈ w.db.accounts.docs ∨
        ∃ s, row.AccountName = .str s ∧ d.fields.accountName = jsTrim s) ∧
    (∀ d ∈ (processRow newDate row w).1.db.lobs.docs,
      d ∈ w.db.lobs.docs ∨ ∃ s, row.Category = .str s ∧ d.fields.categoryName = jsTrim s) ∧
    (∀ d ∈ (processRow newDate row w).1.db.carriers.docs,
      d ∈ w.db.carriers.docs ∨ ∃ s, row.Carrier = .str s ∧ d.fields.companyName = jsTrim s) ∧
    (∀ d ∈ (processRow newDate row w).1.db.policies.docs,
      d ∈ w.db.policies.docs ∨
        ∃ s, row.PolicyNumber = .str s ∧ d.fields.policyNumber = jsTrim s) := by
  have hdb := processRow_db newDate row w
  refine ⟨?_, ?_, ?_, ?_, ?_, ?_⟩
  · intro d hd
    have hd2 : d ∈ (upsertAll AgentFields.agentName (leafOps newDate row).agents
        w.db.agents).docs := by rw [hdb] at hd; exact hd
    rcases mem_upsertAll_docs _ _ _ d hd2 with h | h
    · left; exact h
    · right
      exact agentKey_some_inv row _ (mem_leafOps_agents newDate row _ h)
  · intro d hd
    have hd2 : d ∈ (upsertAll UserFields.email (leafOps newDate row).users
        w.db.users).docs := by rw [hdb] at hd; exact hd
    rcases mem_upsertAll_docs _ _ _ d hd2 with h | h
    · left; exact h
    · right
      obtain ⟨f, e, hf, he, _, _, hu⟩ :=
        (userData_some_iff newDate row _).1 (mem_leafOps_users newDate row _ h).2
      exact ⟨f, e, hf, he, hu⟩
  · intro d hd
    have hd2 : d ∈ (upsertAll AccountFields.accountName (leafOps newDate row).accounts
        w.db.accounts).docs := by rw [hdb] at hd; exact hd
    rcases mem_upsertAll_docs _ _ _ d hd2 with h | h
    · left; exact h
    · right
      exact leafKey_some_inv _ _ _ (mem_leafOps_accounts newDate row _ h)
  · intro d hd
    have hd2 : d ∈ (upsertAll LOBFields.categoryName (leafOps newDate row).lobs
        w.db.lobs).docs := by rw [hdb] at hd; exact hd
    rcases mem_upsertAll_docs _ _ _ d hd2 with h | h
    · left; exact h
    · right
      exact leafKey_some_inv _ _ _ (mem_leafOps_lobs newDate row _ h)
  · intro d hd
    have hd2 : d ∈ (upsertAll CarrierFields.companyName (leafOps newDate row).carriers
        w.db.carriers).docs := by rw [hdb] at hd; exact hd
    rcases mem_upsertAll_docs _ _ _ d hd2 with h | h
    · left; exact h
    · right
      exact leafKey_some_inv _ _ _ (mem_leafOps_carriers newDate row _ h)
  · intro d hd
    rw [processRow_policies] at hd
    rcases mem_upsertAll_docs _ _ _ d hd with h | h
    · left; exact h
    · right
      obtain ⟨uf, ac, l, c, pn, i, _, _, _, _, hpn, _, _, hpe⟩ := mem_policyOps newDate row _ _ h
      exact ⟨pn, hpn, by rw [hpe]⟩

/-- An instance: the agent `" Al "` is stored as `"Al"`. -/
theorem written_values_witness :
    (⟨0, ⟨"Al"⟩⟩ : Doc AgentFields) ∈
      (processRow (fun _ => none) { Agent := .str " Al " }
        ⟨Db.empty, Summary.zero⟩).1.db.agents.docs ∧
    ((⟨0, ⟨"Al"⟩⟩ : Doc AgentFields) ∈ Db.empty.agents.docs ∨
      ∃ s, Val.str " Al " = .str s ∧ "Al" = jsTrim s) :=
  ⟨by decide,
    (written_values (fun _ => none) { Agent := .str " Al " } ⟨Db.empty, Summary.zero⟩).1
      ⟨0, ⟨"Al"⟩⟩ (by decide)⟩


/-! ## Claims on `processData` -/

theorem processData_no_connection (env : WorkerEnv) (db : Db) (hc : env.connects = false) :
    processData env db =
      ([.connect, .postMessage (Message.fatal "Failed to connect to database")], db) := by
  simp [processData, processDataTry, connectDB, hc]

/-- The outcomes of `processData` when the store is reached: the read raised,
the file had no row, the rows were processed, or the read stream of the
delimited-text file failed. -/
theorem processData_cases (env : WorkerEnv) (db : Db) (hc : env.connects = true) :
    (∃ reads message, reads ⊆ [Event.readCSV env.filePath, Event.readExcel env.filePath] ∧
      processData env db =
        (.connect :: reads ++ [.postMessage (Message.fatal message)], db)) ∨
    (∃ reads data, reads ⊆ [Event.readCSV env.filePath, Event.readExcel env.filePath] ∧
      data ≠ [] ∧
      processData env db =
        (.connect :: reads ++ [.processRows data, .disconnect,
            .postMessage (Message.ofResult (processAndInsertData env.newDate data db).1)],
          (processAndInsertData env.newDate data db).2)) ∨
    (∃ message, env.fileType = ".csv" ∧ env.csv env.filePath = .streamError message ∧
      processData env db =
        ([.connect, .readCSV env.filePath, .uncaughtException message], db)) := by
  unfold processData processDataTry
  simp only [connectDB, hc, Bool.not_true, Bool.false_eq_true, if_false]
  by_cases h1 : env.fileType = ".csv"
  · simp only [h1, if_true]
    unfold readCSVFile
    cases hr : env.csv env.filePath with
    | streamError m => right; right; exact ⟨m, trivial, rfl, by simp⟩
    | parserError m => left; exact ⟨[.readCSV env.filePath], m, by simp, by simp⟩
    | rows data =>
      by_cases hd : data.length = 0
      · left; exact ⟨[.readCSV env.filePath], "No data found in file", by simp, by simp [hd]⟩
      · right; left
        refine ⟨[.readCSV env.filePath], data, by simp, ?_, by simp [hd]⟩
        intro h; apply hd; rw [h]; rfl
  · by_cases h2 : env.fileType = ".xlsx" ∨ env.fileType = ".xls"
    · simp only [h1, h2, if_true, if_false]
      unfold readExcelFile
      cases hr : env.xlsx env.filePath with
      | error m =>
        left
        exact ⟨[.readExcel env.filePath], "Failed to read Excel file: " ++ m, by simp, by simp⟩
      | ok data =>
        by_cases hd : data.length = 0
        · left
          exact ⟨[.readExcel env.filePath], "No data found in file", by simp, by simp [hd]⟩
        · right; left
          refine ⟨[.readExcel env.filePath], data, by simp, ?_, by simp [hd]⟩
          intro h; apply hd; rw [h]; rfl
    · simp only [h1, h2, if_false]
      left; exact ⟨[], "Unsupported file type", by simp, by simp⟩

theorem posted_reads {p q : String} (reads : List Event) (rest : List Event)
    (h : reads ⊆ [Event.readCSV p, Event.readExcel q]) : posted (reads ++ rest) = posted rest := by
  induction reads with
  | nil => rfl
  | cons e es ih =>
    have he : e = Event.readCSV p ∨ e = Event.readExcel q := by
      have := h (List.mem_cons_self e es)
      simpa using this
    have hes : es ⊆ [Event.readCSV p, Event.readExcel q] :=
      fun x hx => h (List.mem_cons_of_mem _ hx)
    rcases he with he | he <;> subst he <;> simpa [posted] using ih hes

theorem not_mem_reads {p q : String} (reads : List Event) (e : Event)
    (h : reads ⊆ [Event.readCSV p, Event.readExcel q])
    (h1 : e ≠ Event.readCSV p) (h2 : e ≠ Event.readExcel q) : e ∉ reads := by
  intro he
  have := h he
  simp at this
  rcases this with h3 | h3
  · exact h1 h3
  · exact h2 h3

theorem posted_run {p q : String} (reads rest : List Event)
    (h : reads ⊆ [Event.readCSV p, Event.readExcel q]) :
    posted (Event.connect :: reads ++ rest) = posted rest := by
  show posted (reads ++ rest) = posted rest
  exact posted_reads reads rest h

theorem mem_run (reads rest : List Event) (e : Event)
    (h : e ∈ Event.connect :: reads ++ rest) : e = Event.connect ∨ e ∈ reads ∨ e ∈ rest := by
  simpa using h

/-- C13: an unsupported declared type is fatal.  With the store reachable and a
declared type other than `.csv`, `.xlsx` and `.xls`, `processData` connects,
reads no file, processes no row, leaves the store as it was and posts the one
message `{ error: "Unsupported file type", recordsProcessed: 0, summary: {} }`. -/
theorem unsupported_type_is_fatal (env : WorkerEnv) (db : Db) (hc : env.connects = true)
    (h1 : env.fileType ≠ ".csv") (h2 : env.fileType ≠ ".xlsx") (h3 : env.fileType ≠ ".xls") :
    processData env db =
      ([.connect, .postMessage
          { error := some "Unsupported file type", recordsProcessed := 0, summary := none,
            errors := none }], db) := by
  simp [processData, processDataTry, connectDB, hc, h1, h2, h3, Message.fatal]

/-- An instance: the declared type `.txt`. -/
theorem unsupported_type_is_fatal_witness :
    processData
      { filePath := "upload.txt", fileType := ".txt", connects := true,
        csv := fun _ => .rows [{ Agent := .str "Al" }], xlsx := fun _ => .ok [],
        newDate := fun _ => none } Db.empty =
      ([.connect, .postMessage
          { error := some "Unsupported file type", recordsProcessed := 0, summary := none,
            errors := none }], Db.empty) :=
  unsupported_type_is_fatal _ Db.empty rfl (by decide) (by decide) (by decide)

/-- C14: an empty dataset is fatal.  With the store reachable, a supported
declared type and a reader that delivers no row, `processData` posts the one
message `{ error: "No data found in file", recordsProcessed: 0, summary: {} }`,
does not invoke `processAndInsertData` and leaves the store as it was; and no
run ever posts a result with `recordsProcessed: 0`. -/
theorem empty_dataset_is_fatal (env : WorkerEnv) (db : Db) (hc : env.connects = true)
    (hs : (env.fileType = ".csv" ∧ env.csv env.filePath = .rows []) ∨
      ((env.fileType = ".xlsx" ∨ env.fileType = ".xls") ∧ env.xlsx env.filePath = .ok [])) :
    posted (processData env db).1 =
      [{ error := some "No data found in file", recordsProcessed := 0, summary := none,
         errors := none }] ∧
    (processData env db).2 = db ∧
    (∀ data, Event.processRows data ∉ (processData env db).1) ∧
    (∀ (env1 : WorkerEnv) (db1 : Db) (r : JobResult),
      Message.ofResult r ∈ posted (processData env1 db1).1 → r.recordsProcessed ≠ 0) := by
  have hev : (processData env db).2 = db ∧
      ∃ reads, reads ⊆ [Event.readCSV env.filePath, Event.readExcel env.filePath] ∧
        (processData env db).1 =
          .connect :: reads ++ [.postMessage (Message.fatal "No data found in file")] := by
    rcases hs with ⟨h1, hr⟩ | ⟨h2, hr⟩
    · refine ⟨by simp [processData, processDataTry, connectDB, hc, h1, readCSVFile, hr],
        [.readCSV env.filePath], by simp, ?_⟩
      simp [processData, processDataTry, connectDB, hc, h1, readCSVFile, hr]
    · have h1 : env.fileType ≠ ".csv" := by
        rcases h2 with h2 | h2 <;> rw [h2] <;> decide
      refine ⟨by simp [processData, processDataTry, connectDB, hc, h1, h2, readExcelFile, hr],
        [.readExcel env.filePath], by simp, ?_⟩
      simp [processData, processDataTry, connectDB, hc, h1, h2, readExcelFile, hr]
  obtain ⟨hdb, reads, hsub, he⟩ := hev
  refine ⟨?_, hdb, ?_, ?_⟩
  · rw [he, posted_run reads _ hsub]
    rfl
  · intro data hmem
    rw [he] at hmem
    rcases mem_run reads _ _ hmem with h | h | h
    · cases h
    · exact not_mem_reads reads _ hsub (by simp) (by simp) h
    · simp at h
  · intro env1 db1 r hr
    by_cases hc1 : env1.connects = true
    · rcases processData_cases env1 db1 hc1 with
        ⟨reads1, m, hsub1, h⟩ | ⟨reads1, data, hsub1, hne, h⟩ | ⟨m, _, _, h⟩
      · rw [h, posted_run reads1 _ hsub1] at hr
        simp [posted, Message.ofResult, Message.fatal] at hr
      · rw [h, posted_run reads1 _ hsub1] at hr
        simp only [posted, List.mem_singleton] at hr
        have hrp : r.recordsProcessed = data.length := by
          have := congrArg Message.recordsProcessed hr
          simpa [Message.ofResult, processAndInsertData] using this
        rw [hrp]
        intro h0
        exact hne (List.length_eq_zero.1 h0)
      · rw [h] at hr
        simp [posted] at hr
    · have hc2 : env1.connects = false := by simpa using hc1
      rw [processData_no_connection env1 db1 hc2] at hr
      simp [posted, Message.ofResult, Message.fatal] at hr

/-- An instance: a delimited-text file with a header line only. -/
theorem empty_dataset_is_fatal_witness :
    posted (processData
      { filePath := "upload.csv", fileType := ".csv", connects := true,
        csv := fun _ => .rows [], xlsx := fun _ => .error "not a workbook",
        newDate := fun _ => none } Db.empty).1 =
      [{ error := some "No data found in file", recordsProcessed := 0, summary := none,
         errors := none }] :=
  (empty_dataset_is_fatal
    { filePath := "upload.csv", fileType := ".csv", connects := true,
      csv := fun _ => .rows [], xlsx := fun _ => .error "not a workbook",
      newDate := fun _ => none } Db.empty rfl (Or.inl ⟨rfl, rfl⟩)).1

/-- C15: fatal errors precede all row work.  Whenever `processData` posts a
message with an `error` field, `processAndInsertData` was not invoked and the
store is as it was; and whenever the rows were handed to
`processAndInsertData`, the one message posted is the result it returned, with
`recordsProcessed` the number of rows. -/
theorem fatal_errors_precede_row_work (env : WorkerEnv) (db : Db) :
    (∀ m ∈ posted (processData env db).1, m.error.isSome = true →
      (processData env db).2 = db ∧ ∀ data, Event.processRows data ∉ (processData env db).1) ∧
    (∀ data, Event.processRows data ∈ (processData env db).1 →
      posted (processData env db).1 =
        [Message.ofResult (processAndInsertData env.newDate data db).1] ∧
      (processData env db).2 = (processAndInsertData env.newDate data db).2 ∧
      (processAndInsertData env.newDate data db).1.recordsProcessed = data.length ∧
      data ≠ []) := by
  by_cases hc : env.connects = true
  · rcases processData_cases env db hc with
      ⟨reads, msg, hsub, h⟩ | ⟨reads, data, hsub, hne, h⟩ | ⟨msg, _, _, h⟩
    · constructor
      · intro m _ _
        refine ⟨by rw [h], ?_⟩
        intro data hmem
        rw [h] at hmem
        rcases mem_run reads _ _ hmem with h1 | h1 | h1
        · cases h1
        · exact not_mem_reads reads _ hsub (by simp) (by simp) h1
        · simp at h1
      · intro data hmem
        rw [h] at hmem
        rcases mem_run reads _ _ hmem with h1 | h1 | h1
        · cases h1
        · exact absurd h1 (not_mem_reads reads _ hsub (by simp) (by simp))
        · simp at h1
    · constructor
      · intro m hm he
        rw [h, posted_run reads _ hsub] at hm
        simp only [posted, List.mem_singleton] at hm
        rw [hm] at he
        simp [Message.ofResult] at he
      · intro data1 hmem
        rw [h] at hmem
        have hd : data1 = data := by
          rcases mem_run reads _ _ hmem with h1 | h1 | h1
          · cases h1
          · exact absurd h1 (not_mem_reads reads _ hsub (by simp) (by simp))
          · simpa using h1
        subst hd
        refine ⟨?_, by rw [h], rfl, hne⟩
        rw [h, posted_run reads _ hsub]
        rfl
    · rw [h]
      constructor
      · intro m hm _
        simp [posted] at hm
      · intro data hmem
        simp at hmem
  · have hc2 : env.connects = false := by simpa using hc
    rw [processData_no_connection env db hc2]
    constructor
    · intro m _ _
      exact ⟨rfl, by intro data hmem; simp at hmem⟩
    · intro data hmem
      simp at hmem

/-- An instance: a workbook that cannot be read. -/
theorem fatal_errors_precede_row_work_witness :
    (processData
      { filePath := "upload.xlsx", fileType := ".xlsx", connects := true,
        csv := fun _ => .rows [], xlsx := fun _ => .error "corrupt archive",
        newDate := fun _ => none } Db.empty).2 = Db.empty ∧
    ∀ data, Event.processRows data ∉ (processData
      { filePath := "upload.xlsx", fileType := ".xlsx", connects := true,
        csv := fun _ => .rows [], xlsx := fun _ => .error "corrupt archive",
        newDate := fun _ => none } Db.empty).1 :=
  (fatal_errors_precede_row_work
    { filePath := "upload.xlsx", fileType := ".xlsx", connects := true,
      csv := fun _ => .rows [], xlsx := fun _ => .error "corrupt archive",
      newDate := fun _ => none } Db.empty).1
    (Message.fatal "Failed to read Excel file: corrupt archive") (by decide) rfl

/-- C16: the connection is released on the successful path only.  When the
store was reached and `processData` posts a message with an `error` field
(unsupported type, read error, empty dataset), no `disconnect` was issued: the
`catch` block posts the message and leaves the connection open.  When it posts
a result, `disconnect` was issued exactly once, before the message. -/
theorem connection_left_open_on_fatal_error (env : WorkerEnv) (db : Db)
    (hc : env.connects = true) :
    (∀ m ∈ posted (processData env db).1, m.error.isSome = true →
      Event.disconnect ∉ (processData env db).1) ∧
    (∀ m ∈ posted (processData env db).1, m.error = none →
      (processData env db).1.count Event.disconnect = 1 ∧
      ∃ before, (processData env db).1 = before ++ [.disconnect, .postMessage m]) := by
  rcases processData_cases env db hc with
    ⟨reads, msg, hsub, h⟩ | ⟨reads, data, hsub, hne, h⟩ | ⟨msg, _, _, h⟩
  · constructor
    · intro m _ _ hmem
      rw [h] at hmem
      rcases mem_run reads _ _ hmem with h1 | h1 | h1
      · cases h1
      · exact not_mem_reads reads _ hsub (by simp) (by simp) h1
      · simp at h1
    · intro m hm he
      rw [h, posted_run reads _ hsub] at hm
      simp only [posted, List.mem_singleton] at hm
      rw [hm] at he
      simp [Message.fatal] at he
  · constructor
    · intro m hm he
      rw [h, posted_run reads _ hsub] at hm
      simp only [posted, List.mem_singleton] at hm
      rw [hm] at he
      simp [Message.ofResult] at he
    · intro m hm _
      rw [h, posted_run reads _ hsub] at hm
      simp only [posted, List.mem_singleton] at hm
      subst hm
      rw [h]
      constructor
      · have hr : reads.count Event.disconnect = 0 :=
          List.count_eq_zero.2 (not_mem_reads reads _ hsub (by simp) (by simp))
        show (Event.connect :: (reads ++ _)).count Event.disconnect = 1
        rw [List.count_cons, List.count_append, hr]
        simp [List.count_cons]
      · exact ⟨.connect :: reads ++ [.processRows data], by simp⟩
  · rw [h]
    constructor
    · intro m hm _
      simp [posted] at hm
    · intro m hm _
      simp [posted] at hm

/-- An instance: the declared type `.txt` with the store reached. -/
theorem connection_left_open_on_fatal_error_witness :
    (processData
      { filePath := "upload.txt", fileType := ".txt", connects := true,
        csv := fun _ => .rows [], xlsx := fun _ => .ok [],
        newDate := fun _ => none } Db.empty).1 =
      [.connect, .postMessage (Message.fatal "Unsupported file type")] ∧
    Event.disconnect ∉ (processData
      { filePath := "upload.txt", fileType := ".txt", connects := true,
        csv := fun _ => .rows [], xlsx := fun _ => .ok [],
        newDate := fun _ => none } Db.empty).1 :=
  ⟨by decide,
    (connection_left_open_on_fatal_error
      { filePath := "upload.txt", fileType := ".txt", connects := true,
        csv := fun _ => .rows [], xlsx := fun _ => .ok [],
        newDate := fun _ => none } Db.empty rfl).1
      (Message.fatal "Unsupported file type") (by decide) rfl⟩

/-- C17: a terminal message is not posted on every path.  `readCSVFile`
listens for `error` on the parser that `.pipe()` returns, not on the read
stream: when the store is reached, the declared type is `.csv` and the read
stream fails (the file cannot be opened or read), the promise is never settled,
the error is uncaught and `processData` posts no message at all.  On every
other path it posts exactly one message, as its last action, the fatal shape or
the result of `processAndInsertData`; so the runs without a message are exactly
those with a failed read stream. -/
theorem stream_error_posts_no_message (env : WorkerEnv) (db : Db) (message : String)
    (hc : env.connects = true) (ht : env.fileType = ".csv")
    (hs : env.csv env.filePath = .streamError message) :
    processData env db =
      ([.connect, .readCSV env.filePath, .uncaughtException message], db) ∧
    posted (processData env db).1 = [] ∧
    (∀ (env1 : WorkerEnv) (db1 : Db),
      (env1.connects = true ∧ env1.fileType = ".csv" ∧
        (∃ m, env1.csv env1.filePath = .streamError m) ∧
        posted (processData env1 db1).1 = []) ∨
      (¬ (env1.connects = true ∧ env1.fileType = ".csv" ∧
          ∃ m, env1.csv env1.filePath = .streamError m) ∧
        ∃ m, posted (processData env1 db1).1 = [m] ∧
          (processData env1 db1).1.getLast? = some (.postMessage m) ∧
          ((∃ text, m = Message.fatal text) ∨ ∃ r, m = Message.ofResult r))) := by
  have hrun : processData env db =
      ([.connect, .readCSV env.filePath, .uncaughtException message], db) := by
    simp [processData, processDataTry, connectDB, hc, ht, readCSVFile, hs]
  refine ⟨hrun, by rw [hrun]; rfl, ?_⟩
  intro env1 db1
  by_cases hc1 : env1.connects = true
  · by_cases hcrash : env1.fileType = ".csv" ∧ ∃ m, env1.csv env1.filePath = .streamError m
    · obtain ⟨ht1, m, hm⟩ := hcrash
      left
      refine ⟨hc1, ht1, ⟨m, hm⟩, ?_⟩
      have h : processData env1 db1 =
          ([.connect, .readCSV env1.filePath, .uncaughtException m], db1) := by
        simp [processData, processDataTry, connectDB, hc1, ht1, readCSVFile, hm]
      rw [h]; rfl
    · right
      refine ⟨fun h => hcrash ⟨h.2.1, h.2.2⟩, ?_⟩
      rcases processData_cases env1 db1 hc1 with
        ⟨reads, msg, hsub, h⟩ | ⟨reads, data, hsub, hne, h⟩ | ⟨msg, ht1, hm, _⟩
      · refine ⟨Message.fatal msg, ?_, ?_, Or.inl ⟨msg, rfl⟩⟩
        · rw [h, posted_run reads _ hsub]; rfl
        · rw [h]
          show (Event.connect :: (reads ++ [Event.postMessage (Message.fatal msg)])).getLast? = _
          rw [← List.cons_append, List.getLast?_append]
          simp
      · refine ⟨Message.ofResult (processAndInsertData env1.newDate data db1).1, ?_, ?_,
          Or.inr ⟨_, rfl⟩⟩
        · rw [h, posted_run reads _ hsub]; rfl
        · rw [h]
          show (Event.connect :: (reads ++ _)).getLast? = _
          rw [← List.cons_append, List.getLast?_append]
          simp
      · exact absurd ⟨ht1, msg, hm⟩ hcrash
  · right
    have hc2 : env1.connects = false := by simpa using hc1
    refine ⟨fun h => hc1 h.1, ?_⟩
    rw [processData_no_connection env1 db1 hc2]
    exact ⟨_, rfl, rfl, Or.inl ⟨_, rfl⟩⟩

/-- An instance: the uploaded file was removed before the worker opened it. -/
theorem stream_error_posts_no_message_witness :
    processData
      { filePath := "uploads/gone.csv", fileType := ".csv", connects := true,
        csv := fun _ => .streamError "ENOENT: no such file or directory, open 'uploads/gone.csv'",
        xlsx := fun _ => .ok [], newDate := fun _ => none } Db.empty =
      ([.connect, .readCSV "uploads/gone.csv",
        .uncaughtException "ENOENT: no such file or directory, open 'uploads/gone.csv'"],
        Db.empty) ∧
    posted (processData
      { filePath := "uploads/gone.csv", fileType := ".csv", connects := true,
        csv := fun _ => .streamError "ENOENT: no such file or directory, open 'uploads/gone.csv'",
        xlsx := fun _ => .ok [], newDate := fun _ => none } Db.empty).1 = [] :=
  ⟨(stream_error_posts_no_message _ Db.empty _ rfl rfl rfl).1,
    (stream_error_posts_no_message
      { filePath := "uploads/gone.csv", fileType := ".csv", connects := true,
        csv := fun _ => .streamError "ENOENT: no such file or directory, open 'uploads/gone.csv'",
        xlsx := fun _ => .ok [], newDate := fun _ => none } Db.empty _ rfl rfl rfl).2.1⟩

/-! ## Claims on the upload route -/

/-- C18: the exit handler of the upload route answers a fatal message with the
success body.  After a message of the fatal shape and an exit with code 0,
with no `error` event, the answer is status 200 with the message
`File uploaded and processed successfully`, `recordsProcessed: 0` and the
empty summary; this is what the route answers when the worker could not reach
the store. -/
theorem job_error_answered_as_success (env : WorkerEnv) (db : Db) (message : String)
    (hc : env.connects = false) :
    onExit 0 (onMessage (Message.fatal message) WorkerWatch.init) =
      .json 200 (.success "File uploaded and processed successfully" 0 none) ∧
    onExit 0 ((posted (processData env db).1).foldl (fun s m => onMessage m s)
      WorkerWatch.init) =
      .json 200 (.success "File uploaded and processed successfully" 0 none) := by
  constructor
  · rfl
  · rw [processData_no_connection env db hc]
    rfl

/-- An instance: the store cannot be reached from the worker. -/
theorem job_error_answered_as_success_witness :
    onExit 0 ((posted (processData
      { filePath := "upload.csv", fileType := ".csv", connects := false,
        csv := fun _ => .rows [{ Agent := .str "Al" }], xlsx := fun _ => .ok [],
        newDate := fun _ => none } Db.empty).1).foldl (fun s m => onMessage m s)
      WorkerWatch.init) =
      .json 200 (.success "File uploaded and processed successfully" 0 none) :=
  (job_error_answered_as_success
    { filePath := "upload.csv", fileType := ".csv", connects := false,
      csv := fun _ => .rows [{ Agent := .str "Al" }], xlsx := fun _ => .ok [],
      newDate := fun _ => none } Db.empty "Failed to connect to database" rfl).2

/-! ## Claims on the counters -/

theorem length_leafOps_le (newDate : Val → Option JsDate) (row : Row) :
    (leafOps newDate row).agents.length ≤ 1 ∧ (leafOps newDate row).users.length ≤ 1 ∧
    (leafOps newDate row).accounts.length ≤ 1 ∧ (leafOps newDate row).lobs.length ≤ 1 ∧
    (leafOps newDate row).carriers.length ≤ 1 := by
  have hopt : ∀ {α β : Type} (f : α → β) (o : Option α), (o.map f).toList.length ≤ 1 := by
    intro α β f o; cases o <;> simp
  have hopt2 : ∀ {α : Type} (o : Option α), o.toList.length ≤ 1 := by
    intro α o; cases o <;> simp
  rw [leafOps_agents, leafOps_users, leafOps_accounts, leafOps_lobs, leafOps_carriers]
  cases agentKey row <;> cases userData newDate row <;>
    cases leafKey row.AccountName "Account Name" <;> cases leafKey row.Category "Category" <;>
    cases leafKey row.Carrier "Carrier" <;>
    simp only [List.length_nil, Nat.zero_le, hopt, hopt2, and_self]

/-- A row writes a Policy only if it upserted a User. -/
theorem length_policyOps_le_users (newDate : Val → Option JsDate) (row : Row) (db : Db) :
    (policyOps newDate row db).length ≤ (leafOps newDate row).users.length := by
  cases hp : policyOps newDate row db with
  | nil => simp
  | cons p rest =>
    obtain ⟨uf, ac, l, c, pn, i, h2, _, _, _, _, _, hone, _⟩ :=
      mem_policyOps newDate row db p (by rw [hp]; exact List.mem_cons_self _ _)
    rcases leafOps_cases newDate row with hr | ⟨a, u, ac2, l2, c2, _, h2b, _, _, _, hops⟩
    · simp [policyOps, hr] at hp
    · rw [h2] at h2b
      have hu : u = some uf := by
        simp only [Except.ok.injEq] at h2b; exact h2b.symm
      rw [← hp, hone, hops, hu]
      simp

theorem afterRow_summary (newDate : Val → Option JsDate) (row : Row) (w : World) :
    (afterRow newDate row w).summary =
      { rowSummary newDate row w.db w.summary with
        errors := w.summary.errors + (if (processRow newDate row w).2.isSome then 1 else 0) } := by
  have hs := processRow_summary newDate row w
  unfold afterRow
  cases hp : processRow newDate row w with
  | mk w1 o =>
    rw [hp] at hs
    simp only [] at hs
    cases o with
    | none => simp [hs, rowSummary]
    | some m => simp [hs, rowSummary]

theorem afterRow_db (newDate : Val → Option JsDate) (row : Row) (w : World) :
    (afterRow newDate row w).db = (processRow newDate row w).1.db := by
  unfold afterRow
  cases hp : processRow newDate row w with
  | mk w1 o => cases o <;> rfl

/-- The counters after the rows of `data`: each grew by at most one per row,
and the policies grew by no more than the users. -/
theorem runWorld_bounds (newDate : Val → Option JsDate) (data : List Row) (w : World) :
    (runWorld newDate data w).summary.agents ≤ w.summary.agents + data.length ∧
    (runWorld newDate data w).summary.users ≤ w.summary.users + data.length ∧
    (runWorld newDate data w).summary.accounts ≤ w.summary.accounts + data.length ∧
    (runWorld newDate data w).summary.lobs ≤ w.summary.lobs + data.length ∧
    (runWorld newDate data w).summary.carriers ≤ w.summary.carriers + data.length ∧
    (runWorld newDate data w).summary.policies ≤ w.summary.policies + data.length ∧
    (runWorld newDate data w).summary.errors ≤ w.summary.errors + data.length ∧
    (runWorld newDate data w).summary.policies + w.summary.users ≤
      (runWorld newDate data w).summary.users + w.summary.policies := by
  induction data generalizing w with
  | nil => simp only [runWorld, List.length_nil]; omega
  | cons row rest ih =>
    have hrow := afterRow_summary newDate row w
    have hl := length_leafOps_le newDate row
    have hp := length_policyOps_le_users newDate row (applyLeaf (leafOps newDate row) w.db)
    have ih2 := ih (afterRow newDate row w)
    rw [hrow] at ih2
    simp only [rowSummary] at ih2
    simp only [runWorld, List.length_cons]
    have herr : (if (processRow newDate row w).2.isSome then 1 else 0) ≤ 1 := by
      split <;> omega
    refine ⟨?_, ?_, ?_, ?_, ?_, ?_, ?_, ?_⟩ <;> omega

/-- C19: counter bounds.  In the result of `processAndInsertData`,
`recordsProcessed` is the number of rows, each of the seven counters is at most
`recordsProcessed` (and at least 0, being a natural number), `policies` is at
most `users`, and a row that increments `policies` increments `users`. -/
theorem counter_bounds (newDate : Val → Option JsDate) (data : List Row) (db : Db) :
    (processAndInsertData newDate data db).1.recordsProcessed = data.length ∧
    0 ≤ (processAndInsertData newDate data db).1.summary.agents ∧
    (processAndInsertData newDate data db).1.summary.agents ≤ data.length ∧
    (processAndInsertData newDate data db).1.summary.users ≤ data.length ∧
    (processAndInsertData newDate data db).1.summary.accounts ≤ data.length ∧
    (processAndInsertData newDate data db).1.summary.lobs ≤ data.length ∧
    (processAndInsertData newDate data db).1.summary.carriers ≤ data.length ∧
    (processAndInsertData newDate data db).1.summary.policies ≤ data.length ∧
    (processAndInsertData newDate data db).1.summary.errors ≤ data.length ∧
    (processAndInsertData newDate data db).1.summary.policies ≤
      (processAndInsertData newDate data db).1.summary.users ∧
    (∀ (row : Row) (w : World),
      (processRow newDate row w).1.summary.policies = w.summary.policies + 1 →
      (processRow newDate row w).1.summary.users = w.summary.users + 1) := by
  have hb := runWorld_bounds newDate data ⟨db, Summary.zero⟩
  have hs : (processAndInsertData newDate data db).1.summary =
      (runWorld newDate data ⟨db, Summary.zero⟩).summary := by
    simp [processAndInsertData, loop_eq]
  rw [hs]
  simp only [Summary.zero, Nat.zero_add, Nat.add_zero] at hb
  refine ⟨rfl, Nat.zero_le _, hb.1, hb.2.1, hb.2.2.1, hb.2.2.2.1, hb.2.2.2.2.1, hb.2.2.2.2.2.1,
    hb.2.2.2.2.2.2.1, hb.2.2.2.2.2.2.2, ?_⟩
  intro row w hw
  rw [processRow_summary] at hw ⊢
  simp only [rowSummary] at hw ⊢
  have hl := (length_leafOps_le newDate row).2.1
  have hp := length_policyOps_le_users newDate row (applyLeaf (leafOps newDate row) w.db)
  omega

/-- An instance: a row with a policy on the empty store. -/
theorem counter_bounds_witness :
    (processRow (fun _ => none)
      { PolicyNumber := .str "P1", FirstName := .str "X", Email := .str "x@x.com" }
      ⟨Db.empty, Summary.zero⟩).1.summary.policies = 0 + 1 ∧
    (processRow (fun _ => none)
      { PolicyNumber := .str "P1", FirstName := .str "X", Email := .str "x@x.com" }
      ⟨Db.empty, Summary.zero⟩).1.summary.users = 0 + 1 :=
  ⟨by decide,
    (counter_bounds (fun _ => none) [] Db.empty).2.2.2.2.2.2.2.2.2.2
      { PolicyNumber := .str "P1", FirstName := .str "X", Email := .str "x@x.com" }
      ⟨Db.empty, Summary.zero⟩ (by decide)⟩

/-! ## Claims on the outcome of a row -/

theorem countedUpsert_upsertAll {α : Type} (key : α → String) (ops : List α)
    (c : Collection α) (n : Nat) (h : ops.length ≤ 1) :
    CountedUpsert key c (upsertAll key ops c) n (n + ops.length) := by
  match ops, h with
  | [], _ => right; exact ⟨rfl, rfl⟩
  | [v], _ => left; exact ⟨rfl, v, rfl⟩
  | _ :: _ :: _, h => simp at h

theorem loop_single (newDate : Val → Option JsDate) (row : Row) (i : Nat) (w : World)
    (errors : List String) :
    loop newDate [row] i w errors =
      (afterRow newDate row w, errors ++ errorEntries i [(processRow newDate row w).2]) := by
  rw [loop_eq]; rfl

/-- C11 (as stated, refuted): a row that fails in its User step, on a numeric
Email, has already upserted and counted its Agent: `errors` and `agents` are
both incremented for the same row. -/
theorem failed_row_counts_its_agent :
    (processAndInsertData (fun _ => none)
      [{ Agent := .str "Al", FirstName := .str "B", Email := .num 42 }] Db.empty).1 =
      { recordsProcessed := 1
        summary := { agents := 1, users := 0, accounts := 0, lobs := 0, carriers := 0,
                     policies := 0, errors := 1 }
        errors := some ["Row 1: row.Email.trim is not a function"] } ∧
    (processAndInsertData (fun _ => none)
      [{ Agent := .str "Al", FirstName := .str "B", Email := .num 42 }] Db.empty).2.agents.docs =
      [⟨0, ⟨"Al"⟩⟩] := by
  decide

/-- C11 (amended): across the loop body for one row, each per-kind counter is
incremented by one together with an upsert into its collection, or both are
left as they were; this holds whether the row succeeds or fails, so a failed
row keeps the counters of the steps it completed.  A row that succeeds leaves
`summary.errors` and the row errors as they were; a row that fails increments
`summary.errors` by one and appends the one string `"Row <i+1>: <message>"`. -/
theorem row_applied_or_failed (newDate : Val → Option JsDate) (row : Row) (i : Nat) (w : World)
    (errors : List String) :
    CountedUpsert AgentFields.agentName w.db.agents (loop newDate [row] i w errors).1.db.agents
      w.summary.agents (loop newDate [row] i w errors).1.summary.agents ∧
    CountedUpsert UserFields.email w.db.users (loop newDate [row] i w errors).1.db.users
      w.summary.users (loop newDate [row] i w errors).1.summary.users ∧
    CountedUpsert AccountFields.accountName w.db.accounts
      (loop newDate [row] i w errors).1.db.accounts
      w.summary.accounts (loop newDate [row] i w errors).1.summary.accounts ∧
    CountedUpsert LOBFields.categoryName w.db.lobs (loop newDate [row] i w errors).1.db.lobs
      w.summary.lobs (loop newDate [row] i w errors).1.summary.lobs ∧
    CountedUpsert CarrierFields.companyName w.db.carriers
      (loop newDate [row] i w errors).1.db.carriers
      w.summary.carriers (loop newDate [row] i w errors).1.summary.carriers ∧
    CountedUpsert PolicyFields.policyNumber w.db.policies
      (loop newDate [row] i w errors).1.db.policies
      w.summary.policies (loop newDate [row] i w errors).1.summary.policies ∧
    ((processRow newDate row w).2 = none →
      (loop newDate [row] i w errors).1.summary.errors = w.summary.errors ∧
      (loop newDate [row] i w errors).2 = errors) ∧
    (∀ message, (processRow newDate row w).2 = some message →
      (loop newDate [row] i w errors).1.summary.errors = w.summary.errors + 1 ∧
      (loop newDate [row] i w errors).2 =
        errors ++ ["Row " ++ ToString.toString (i + 1) ++ ": " ++ message]) := by
  rw [loop_single]
  simp only []
  rw [afterRow_db, processRow_db, afterRow_summary]
  have hl := length_leafOps_le newDate row
  have hp := policyOps_length_le newDate row (applyLeaf (leafOps newDate row) w.db)
  refine ⟨countedUpsert_upsertAll _ _ _ _ hl.1, countedUpsert_upsertAll _ _ _ _ hl.2.1,
    countedUpsert_upsertAll _ _ _ _ hl.2.2.1, countedUpsert_upsertAll _ _ _ _ hl.2.2.2.1,
    countedUpsert_upsertAll _ _ _ _ hl.2.2.2.2, countedUpsert_upsertAll _ _ _ _ hp, ?_, ?_⟩
  · intro h
    simp [h, errorEntries]
  · intro message h
    simp [h, errorEntries, rowErrorEntry]

/-- An instance: the failing row with an agent, on the empty store. -/
theorem row_applied_or_failed_witness :
    (processRow (fun _ => none) { Agent := .str "Al", FirstName := .str "B", Email := .num 42 }
      ⟨Db.empty, Summary.zero⟩).2 = some "row.Email.trim is not a function" ∧
    (loop (fun _ => none) [{ Agent := .str "Al", FirstName := .str "B", Email := .num 42 }] 0
      ⟨Db.empty, Summary.zero⟩ []).1.summary.errors = 0 + 1 ∧
    (loop (fun _ => none) [{ Agent := .str "Al", FirstName := .str "B", Email := .num 42 }] 0
      ⟨Db.empty, Summary.zero⟩ []).2 =
      [] ++ ["Row " ++ ToString.toString (0 + 1) ++ ": " ++ "row.Email.trim is not a function"] :=
  ⟨by decide,
    (row_applied_or_failed (fun _ => none)
      { Agent := .str "Al", FirstName := .str "B", Email := .num 42 } 0
      ⟨Db.empty, Summary.zero⟩ []).2.2.2.2.2.2.2 "row.Email.trim is not a function" (by decide)⟩

theorem leafKey_of_falsy (cell : Val) (col : String) (h : cell.truthy = false) :
    leafKey cell col = .ok none := by
  simp [leafKey, h]

/-- A row with non-empty text Policy Number, First Name and Email whose other
key cells do not raise: the decisions of its steps, the Policy it writes and
where the store holds it. -/
theorem policy_row (newDate : Val → Option JsDate) (row : Row) (w : World)
    (pn f e : String) (a ac l c : Option String)
    (hP : row.PolicyNumber = .str pn) (hpn : pn ≠ "")
    (hF : row.FirstName = .str f) (hf : f ≠ "") (hE : row.Email = .str e) (he : e ≠ "")
    (h1 : agentKey row = .ok a)
    (h3 : leafKey row.AccountName "Account Name" = .ok ac)
    (h4 : leafKey row.Category "Category" = .ok l)
    (h5 : leafKey row.Carrier "Carrier" = .ok c) :
    (processRow newDate row w).2 = none ∧
    (leafOps newDate row).accounts = (ac.map AccountFields.mk).toList ∧
    (leafOps newDate row).lobs = (l.map LOBFields.mk).toList ∧
    (leafOps newDate row).carriers = (c.map CarrierFields.mk).toList ∧
    ∃ p, (processRow newDate row w).1.db.policies.findOne PolicyFields.policyNumber
        (jsTrim pn) = some p ∧
      p.fields.accountId =
        ac.bind (idOf AccountFields.accountName (applyLeaf (leafOps newDate row) w.db).accounts) ∧
      p.fields.categoryId =
        l.bind (idOf LOBFields.categoryName (applyLeaf (leafOps newDate row) w.db).lobs) ∧
      p.fields.carrierId =
        c.bind (idOf CarrierFields.companyName (applyLeaf (leafOps newDate row) w.db).carriers) := by
  obtain ⟨uf, h2⟩ : ∃ uf, userData newDate row = .ok (some uf) :=
    ⟨_, (userData_some_iff newDate row _).2 ⟨f, e, hF, hE, hf, he, rfl⟩⟩
  have hops := leafOps_reaches newDate row a (some uf) ac l c h1 h2 h3 h4 h5
  have husers : (applyLeaf (leafOps newDate row) w.db).users =
      w.db.users.findOneAndUpdate UserFields.email uf.email uf := by
    rw [hops]; rfl
  obtain ⟨i, hfind⟩ : ∃ i, (applyLeaf (leafOps newDate row) w.db).users.findOne
      UserFields.email uf.email = some ⟨i, uf⟩ := by
    rw [husers, findOne_findOneAndUpdate_self UserFields.email uf.email uf rfl]
    exact ⟨_, rfl⟩
  have hid : idOf UserFields.email (applyLeaf (leafOps newDate row) w.db).users uf.email =
      some i := by
    unfold idOf; rw [hfind]; rfl
  have hof := policyOps_of newDate row (applyLeaf (leafOps newDate row) w.db) a uf ac l c
    pn i h1 h2 h3 h4 h5 hP hpn hid
  refine ⟨processRow_no_error newDate row w a (some uf) ac l c _ h1 h2 h3 h4 h5 hof.1,
    by rw [hops], by rw [hops], by rw [hops], ?_⟩
  rw [processRow_policies, hof.2, upsertAll_cons, upsertAll_nil,
    findOne_findOneAndUpdate_self PolicyFields.policyNumber (jsTrim pn) _ rfl]
  exact ⟨_, rfl, rfl, rfl, rfl⟩

/-- An instance on the empty store: a whitespace-only Carrier is truthy, so
the Carrier step upserts a Carrier with the empty name and counts it, and the
Policy of the row refers to it. -/
theorem whitespace_carrier_is_upserted :
    (processAndInsertData (fun _ => none)
      [{ PolicyNumber := .str "P1", FirstName := .str "X", Email := .str "x@x.com",
         Carrier := .str " " }] Db.empty).1.summary.carriers = 1 ∧
    (processAndInsertData (fun _ => none)
      [{ PolicyNumber := .str "P1", FirstName := .str "X", Email := .str "x@x.com",
         Carrier := .str " " }] Db.empty).2.carriers.docs = [⟨0, ⟨""⟩⟩] ∧
    (processAndInsertData (fun _ => none)
      [{ PolicyNumber := .str "P1", FirstName := .str "X", Email := .str "x@x.com",
         Carrier := .str " " }] Db.empty).2.policies.docs.map (fun d => d.fields.carrierId) =
      [some 0] := by
  decide

theorem leafKey_of_text (cell : Val) (col s : String) (hs : cell = .str s) (hne : s ≠ "") :
    leafKey cell col = .ok (some (jsTrim s)) := by
  simp [leafKey, hs, Val.truthy, hne, Val.trim]

/-- An optional key cell across a row, read off the decision of its step: a
falsy cell writes nothing, is not counted and gives an absent reference; a
non-empty text cell, whitespace-only included, upserts the record of its
trimmed text, is counted, and gives the `_id` of that record. -/
theorem optional_cell {α : Type} (key : α → String) (mk : String → α)
    (hmk : ∀ k, key (mk k) = k) (cell : Val) (col : String) (o : Option String)
    (before : Collection α) (h : leafKey cell col = .ok o) :
    (cell.truthy = false →
      o.bind (idOf key (upsertAll key (o.map mk).toList before)) = none ∧
      upsertAll key (o.map mk).toList before = before ∧ (o.map mk).toList.length = 0) ∧
    (∀ s, cell = .str s → s ≠ "" →
      (o.map mk).toList.length = 1 ∧
      upsertAll key (o.map mk).toList before =
        before.findOneAndUpdate key (jsTrim s) (mk (jsTrim s)) ∧
      ∃ d, (upsertAll key (o.map mk).toList before).findOne key (jsTrim s) = some d ∧
        o.bind (idOf key (upsertAll key (o.map mk).toList before)) = some d._id) := by
  constructor
  · intro hfalsy
    have ho : o = none := by
      have := leafKey_of_falsy cell col hfalsy
      rw [h] at this
      simpa using this
    subst ho
    exact ⟨rfl, rfl, rfl⟩
  · intro s hs hne
    have ho : o = some (jsTrim s) := by
      have := leafKey_of_text cell col s hs hne
      rw [h] at this
      simpa using this
    subst ho
    have hup : upsertAll key ((some (jsTrim s)).map mk).toList before =
        before.findOneAndUpdate key (jsTrim s) (mk (jsTrim s)) := by
      show before.findOneAndUpdate key (key (mk (jsTrim s))) (mk (jsTrim s)) = _
      rw [hmk]
    refine ⟨rfl, hup, ?_⟩
    rw [hup]
    have hfind := findOne_findOneAndUpdate_self key (jsTrim s) (mk (jsTrim s)) (hmk _) before
    refine ⟨_, hfind, ?_⟩
    show idOf key (before.findOneAndUpdate key (jsTrim s) (mk (jsTrim s))) (jsTrim s) = _
    unfold idOf
    rw [hfind]
    rfl

/-- C12: the guards of the optional references let whitespace-only cells
through.  For a row with non-empty text Policy Number, First Name and Email
whose Agent, Account Name, Category and Carrier cells are text or falsy, no
error is recorded and the Policy is stored under the trimmed Policy Number.
When the Carrier cell is empty or absent the Policy has no carrier reference,
no Carrier is upserted and the carriers counter is unchanged.  When the Carrier
cell is non-empty text, a whitespace-only text included, the guards
`if (row['Carrier'])` and `row['Carrier'] ? ... : null` pass: the Carrier of
the trimmed text (the empty name for a whitespace-only cell) is upserted and
counted, and the Policy refers to it.  The same holds for Account Name and
Category.  The Agent guard of the same loop, `row.Agent && row.Agent.trim()`,
tests the trimmed cell and skips a whitespace-only Agent. -/
theorem reference_guards_admit_whitespace (newDate : Val → Option JsDate) (row : Row)
    (w : World) (pn f e : String)
    (hP : row.PolicyNumber = .str pn) (hpn : pn ≠ "")
    (hF : row.FirstName = .str f) (hf : f ≠ "") (hE : row.Email = .str e) (he : e ≠ "")
    (hAg : NotRaising row.Agent) (hAc : NotRaising row.AccountName)
    (hCat : NotRaising row.Category) (hCar : NotRaising row.Carrier) :
    (processRow newDate row w).2 = none ∧
    (∃ p, (processRow newDate row w).1.db.policies.findOne PolicyFields.policyNumber
        (jsTrim pn) = some p ∧
      (row.Carrier.truthy = false →
        p.fields.carrierId = none ∧
        (processRow newDate row w).1.db.carriers = w.db.carriers ∧
        (processRow newDate row w).1.summary.carriers = w.summary.carriers) ∧
      (row.AccountName.truthy = false →
        p.fields.accountId = none ∧
        (processRow newDate row w).1.db.accounts = w.db.accounts ∧
        (processRow newDate row w).1.summary.accounts = w.summary.accounts) ∧
      (row.Category.truthy = false →
        p.fields.categoryId = none ∧
        (processRow newDate row w).1.db.lobs = w.db.lobs ∧
        (processRow newDate row w).1.summary.lobs = w.summary.lobs) ∧
      (∀ s, row.Carrier = .str s → s ≠ "" →
        (processRow newDate row w).1.summary.carriers = w.summary.carriers + 1 ∧
        (processRow newDate row w).1.db.carriers =
          w.db.carriers.findOneAndUpdate CarrierFields.companyName (jsTrim s) ⟨jsTrim s⟩ ∧
        ∃ d, (processRow newDate row w).1.db.carriers.findOne CarrierFields.companyName
            (jsTrim s) = some d ∧ p.fields.carrierId = some d._id) ∧
      (∀ s, row.AccountName = .str s → s ≠ "" →
        (processRow newDate row w).1.summary.accounts = w.summary.accounts + 1 ∧
        (processRow newDate row w).1.db.accounts =
          w.db.accounts.findOneAndUpdate AccountFields.accountName (jsTrim s) ⟨jsTrim s⟩ ∧
        ∃ d, (processRow newDate row w).1.db.accounts.findOne AccountFields.accountName
            (jsTrim s) = some d ∧ p.fields.accountId = some d._id) ∧
      (∀ s, row.Category = .str s → s ≠ "" →
        (processRow newDate row w).1.summary.lobs = w.summary.lobs + 1 ∧
        (processRow newDate row w).1.db.lobs =
          w.db.lobs.findOneAndUpdate LOBFields.categoryName (jsTrim s) ⟨jsTrim s⟩ ∧
        ∃ d, (processRow newDate row w).1.db.lobs.findOne LOBFields.categoryName
            (jsTrim s) = some d ∧ p.fields.categoryId = some d._id)) ∧
    (∀ s, row.Agent = .str s → jsTrim s = "" →
      (processRow newDate row w).1.summary.agents = w.summary.agents ∧
      (processRow newDate row w).1.db.agents = w.db.agents) := by
  obtain ⟨a, h1⟩ := agentKey_ok_of_notRaising row hAg
  obtain ⟨ac, h3⟩ := leafKey_of_notRaising row.AccountName "Account Name" hAc
  obtain ⟨l, h4⟩ := leafKey_of_notRaising row.Category "Category" hCat
  obtain ⟨c, h5⟩ := leafKey_of_notRaising row.Carrier "Carrier" hCar
  obtain ⟨hno, hoa, hol, hoc, p, hp, hpa, hpl, hpc⟩ :=
    policy_row newDate row w pn f e a ac l c hP hpn hF hf hE he h1 h3 h4 h5
  have hdb := processRow_db newDate row w
  have hsum := processRow_summary newDate row w
  have hcar : (processRow newDate row w).1.db.carriers =
      upsertAll CarrierFields.companyName (c.map CarrierFields.mk).toList w.db.carriers := by
    rw [hdb, ← hoc]; rfl
  have hcarL : (applyLeaf (leafOps newDate row) w.db).carriers =
      upsertAll CarrierFields.companyName (c.map CarrierFields.mk).toList w.db.carriers := by
    rw [← hoc]; rfl
  have hcarS : (processRow newDate row w).1.summary.carriers =
      w.summary.carriers + (c.map CarrierFields.mk).toList.length := by
    rw [hsum, ← hoc]; rfl
  have hacc : (processRow newDate row w).1.db.accounts =
      upsertAll AccountFields.accountName (ac.map AccountFields.mk).toList w.db.accounts := by
    rw [hdb, ← hoa]; rfl
  have haccL : (applyLeaf (leafOps newDate row) w.db).accounts =
      upsertAll AccountFields.accountName (ac.map AccountFields.mk).toList w.db.accounts := by
    rw [← hoa]; rfl
  have haccS : (processRow newDate row w).1.summary.accounts =
      w.summary.accounts + (ac.map AccountFields.mk).toList.length := by
    rw [hsum, ← hoa]; rfl
  have hlob : (processRow newDate row w).1.db.lobs =
      upsertAll LOBFields.categoryName (l.map LOBFields.mk).toList w.db.lobs := by
    rw [hdb, ← hol]; rfl
  have hlobL : (applyLeaf (leafOps newDate row) w.db).lobs =
      upsertAll LOBFields.categoryName (l.map LOBFields.mk).toList w.db.lobs := by
    rw [← hol]; rfl
  have hlobS : (processRow newDate row w).1.summary.lobs =
      w.summary.lobs + (l.map LOBFields.mk).toList.length := by
    rw [hsum, ← hol]; rfl
  rw [hcarL] at hpc
  rw [haccL] at hpa
  rw [hlobL] at hpl
  obtain ⟨hcF, hcT⟩ := optional_cell CarrierFields.companyName CarrierFields.mk (fun _ => rfl)
    row.Carrier "Carrier" c w.db.carriers h5
  obtain ⟨haF, haT⟩ := optional_cell AccountFields.accountName AccountFields.mk (fun _ => rfl)
    row.AccountName "Account Name" ac w.db.accounts h3
  obtain ⟨hlF, hlT⟩ := optional_cell LOBFields.categoryName LOBFields.mk (fun _ => rfl)
    row.Category "Category" l w.db.lobs h4
  refine ⟨hno, ⟨p, hp, ?_, ?_, ?_, ?_, ?_, ?_⟩,
    fun s hs hb => agent_guard_skips_blank newDate row w s hs hb⟩
  · intro hfalsy
    obtain ⟨h6, h7, h8⟩ := hcF hfalsy
    exact ⟨by rw [hpc, h6], by rw [hcar, h7], by rw [hcarS, h8]; rfl⟩
  · intro hfalsy
    obtain ⟨h6, h7, h8⟩ := haF hfalsy
    exact ⟨by rw [hpa, h6], by rw [hacc, h7], by rw [haccS, h8]; rfl⟩
  · intro hfalsy
    obtain ⟨h6, h7, h8⟩ := hlF hfalsy
    exact ⟨by rw [hpl, h6], by rw [hlob, h7], by rw [hlobS, h8]; rfl⟩
  · intro s hs hne
    obtain ⟨h6, h7, d, h8, h9⟩ := hcT s hs hne
    exact ⟨by rw [hcarS, h6], by rw [hcar, h7], d, by rw [hcar]; exact h8, by rw [hpc, h9]⟩
  · intro s hs hne
    obtain ⟨h6, h7, d, h8, h9⟩ := haT s hs hne
    exact ⟨by rw [haccS, h6], by rw [hacc, h7], d, by rw [hacc]; exact h8, by rw [hpa, h9]⟩
  · intro s hs hne
    obtain ⟨h6, h7, d, h8, h9⟩ := hlT s hs hne
    exact ⟨by rw [hlobS, h6], by rw [hlob, h7], d, by rw [hlob]; exact h8, by rw [hpl, h9]⟩

/-- An instance on the empty store: a row with a whitespace-only Carrier; the
Carrier with the empty name is counted and stored, and the Policy refers to it. -/
theorem reference_guards_admit_whitespace_witness :
    (processRow (fun _ => none)
      { PolicyNumber := .str "P1", FirstName := .str "X", Email := .str "x@x.com",
        Carrier := .str " " } ⟨Db.empty, Summary.zero⟩).2 = none ∧
    ∃ p, (processRow (fun _ => none)
        { PolicyNumber := .str "P1", FirstName := .str "X", Email := .str "x@x.com",
          Carrier := .str " " }
        ⟨Db.empty, Summary.zero⟩).1.db.policies.findOne PolicyFields.policyNumber
        (jsTrim "P1") = some p ∧
      (processRow (fun _ => none)
        { PolicyNumber := .str "P1", FirstName := .str "X", Email := .str "x@x.com",
          Carrier := .str " " } ⟨Db.empty, Summary.zero⟩).1.summary.carriers = 0 + 1 ∧
      ∃ d, (processRow (fun _ => none)
          { PolicyNumber := .str "P1", FirstName := .str "X", Email := .str "x@x.com",
            Carrier := .str " " }
          ⟨Db.empty, Summary.zero⟩).1.db.carriers.findOne CarrierFields.companyName
          (jsTrim " ") = some d ∧ p.fields.carrierId = some d._id :=
  have h := reference_guards_admit_whitespace (fun _ => none)
    { PolicyNumber := .str "P1", FirstName := .str "X", Email := .str "x@x.com",
      Carrier := .str " " } ⟨Db.empty, Summary.zero⟩
    "P1" "X" "x@x.com" rfl (by decide) rfl (by decide) rfl (by decide) notRaising_undefined
    notRaising_undefined notRaising_undefined (notRaising_str " ")
  ⟨h.1, let ⟨p, hp, _, _, _, hc, _⟩ := h.2.1
    ⟨p, hp, (hc " " rfl (by decide)).1, (hc " " rfl (by decide)).2.2⟩⟩

/-! ## The store across the rows of a run -/

theorem runDb_append (newDate : Val → Option JsDate) (pre post : List Row) (db : Db) :
    runDb newDate (pre ++ post) db = runDb newDate post (runDb newDate pre db) := by
  induction pre generalizing db with
  | nil => rfl
  | cons row rest ih => exact ih (rowDb newDate row db)

theorem mem_collect {α : Type} (f : Row → List α) (data : List Row) (v : α)
    (h : v ∈ collect f data) : ∃ r ∈ data, v ∈ f r := by
  induction data with
  | nil => cases h
  | cons row rest ih =>
    simp only [collect, List.mem_append] at h
    rcases h with h | h
    · exact ⟨row, List.mem_cons_self _ _, h⟩
    · obtain ⟨r, hr, hv⟩ := ih h
      exact ⟨r, List.mem_cons_of_mem _ hr, hv⟩

theorem mem_collect_of_mem {α : Type} (f : Row → List α) (data : List Row) (r : Row)
    (hr : r ∈ data) (v : α) (hv : v ∈ f r) : v ∈ collect f data := by
  induction data with
  | nil => cases hr
  | cons row rest ih =>
    simp only [collect, List.mem_append]
    rcases List.mem_cons.1 hr with h | h
    · subst h; exact Or.inl hv
    · exact Or.inr (ih h)

theorem mem_policyTrace (newDate : Val → Option JsDate) (data : List Row) (db : Db)
    (p : PolicyFields) (h : p ∈ policyTrace newDate data db) :
    ∃ r ∈ data, ∃ db2, p ∈ policyOps newDate r db2 := by
  induction data generalizing db with
  | nil => cases h
  | cons row rest ih =>
    simp only [policyTrace, List.mem_append] at h
    rcases h with h | h
    · exact ⟨row, List.mem_cons_self _ _, _, h⟩
    · obtain ⟨r, hr, db2, hp⟩ := ih _ h
      exact ⟨r, List.mem_cons_of_mem _ hr, db2, hp⟩

/-- Upserts of other keys leave the lookup of a key as it was. -/
theorem findOne_upsertAll_of_ne {α : Type} (key : α → String) (ops : List α)
    (c : Collection α) (k : String) (h : ∀ v ∈ ops, key v ≠ k) :
    (upsertAll key ops c).findOne key k = c.findOne key k := by
  induction ops generalizing c with
  | nil => rfl
  | cons v ops ih =>
    rw [upsertAll_cons, ih _ (fun v2 hv2 => h v2 (List.mem_cons_of_mem _ hv2))]
    exact findOne_findOneAndUpdate_ne key (key v) k v rfl
      (fun hk => h v (List.mem_cons_self _ _) hk.symm) c

/-- A sequence of upserts keeps every stored key under its `_id`. -/
theorem keepsIds_upsertAll {α : Type} (key : α → String) (ops : List α) (c : Collection α) :
    Collection.KeepsIds key c (upsertAll key ops c) := by
  intro k d hd
  have hs : (c.findOne key k).isSome := by rw [hd]; rfl
  have hid := idOf_upsertAll_of_isSome key ops c k hs
  have h0 : idOf key c k = some d._id := by unfold idOf; rw [hd]; rfl
  rw [h0] at hid
  exact idOf_some_inv key _ k _ hid

theorem storedAs_findOneAndUpdate {α : Type} (key : α → String) (v : α) (c : Collection α) :
    StoredAs key (c.findOneAndUpdate key (key v) v) v := by
  unfold StoredAs
  rw [findOne_findOneAndUpdate_self key (key v) v rfl]
  exact ⟨_, rfl, rfl⟩

/-- What is stored under a key stays stored through upserts of other keys. -/
theorem storedAs_upsertAll_of_ne {α : Type} (key : α → String) (ops : List α)
    (c : Collection α) (v : α) (hc : StoredAs key c v) (h : ∀ v2 ∈ ops, key v2 ≠ key v) :
    StoredAs key (upsertAll key ops c) v := by
  unfold StoredAs
  rw [findOne_upsertAll_of_ne key ops c (key v) h]
  exact hc

/-- What is stored under a key stays stored through upserts that write that
key with the same fields. -/
theorem storedAs_upsertAll_of_stored {α : Type} (key : α → String) (ops : List α)
    (c : Collection α) (v : α) (hc : StoredAs key c v)
    (h : ∀ v2 ∈ ops, key v2 = key v → v2 = v) : StoredAs key (upsertAll key ops c) v := by
  induction ops generalizing c with
  | nil => exact hc
  | cons x xs ih =>
    rw [upsertAll_cons]
    apply ih _ _ (fun v2 hv2 => h v2 (List.mem_cons_of_mem _ hv2))
    by_cases hk : key x = key v
    · have hx : x = v := h x (List.mem_cons_self _ _) hk
      subst hx
      exact storedAs_findOneAndUpdate key x c
    · unfold StoredAs
      rw [findOne_findOneAndUpdate_ne key (key x) (key v) x rfl (fun h2 => hk h2.symm)]
      exact hc

/-- A value written by a sequence of upserts in which its key is always
written with the same fields is stored after it. -/
theorem storedAs_upsertAll_of_mem {α : Type} (key : α → String) (ops : List α)
    (c : Collection α) (v : α) (hv : v ∈ ops)
    (h : ∀ v2 ∈ ops, key v2 = key v → v2 = v) : StoredAs key (upsertAll key ops c) v := by
  induction ops generalizing c with
  | nil => cases hv
  | cons x xs ih =>
    rw [upsertAll_cons]
    by_cases hk : key x = key v
    · have hx : x = v := h x (List.mem_cons_self _ _) hk
      subst hx
      exact storedAs_upsertAll_of_stored key xs _ x (storedAs_findOneAndUpdate key x c)
        (fun v2 hv2 => h v2 (List.mem_cons_of_mem _ hv2))
    · rcases List.mem_cons.1 hv with h1 | h1
      · subst h1; exact absurd rfl hk
      · exact ih _ h1 (fun v2 hv2 => h v2 (List.mem_cons_of_mem _ hv2))

/-- Every key stored at some point of a run keeps its `_id` to the end of it. -/
theorem keepsIds_runDb (newDate : Val → Option JsDate) (post : List Row) (db : Db) :
    Db.KeepsIds db (runDb newDate post db) := by
  refine ⟨?_, ?_, ?_, ?_, ?_, ?_⟩
  · rw [runDb_agents]; exact keepsIds_upsertAll _ _ _
  · rw [runDb_users]; exact keepsIds_upsertAll _ _ _
  · rw [runDb_accounts]; exact keepsIds_upsertAll _ _ _
  · rw [runDb_lobs]; exact keepsIds_upsertAll _ _ _
  · rw [runDb_carriers]; exact keepsIds_upsertAll _ _ _
  · rw [runDb_policies]; exact keepsIds_upsertAll _ _ _

/-- The User a row writes is stored at the end of the run when no later row
writes a User under the same email. -/
theorem last_user_write (newDate : Val → Option JsDate) (row : Row) (post : List Row)
    (mid : Db) (u : UserFields) (hw : WritesUser newDate row u)
    (hpost : ∀ r ∈ post, ∀ u2, WritesUser newDate r u2 → u2.email ≠ u.email) :
    StoredAs UserFields.email (runDb newDate (row :: post) mid).users u := by
  obtain ⟨⟨a, h1⟩, h2⟩ := hw
  have hrow : (leafOps newDate row).users = [u] := by
    rw [leafOps_users, h1, h2]; rfl
  rw [runDb_users]
  show StoredAs UserFields.email
    (upsertAll UserFields.email
      ((leafOps newDate row).users ++ collect (fun r => (leafOps newDate r).users) post)
      mid.users) u
  rw [upsertAll_append, hrow]
  apply storedAs_upsertAll_of_ne
  · exact storedAs_findOneAndUpdate UserFields.email u mid.users
  · intro v2 hv2
    obtain ⟨r, hr, hv⟩ := mem_collect _ post v2 hv2
    exact hpost r hr v2 (mem_leafOps_users newDate r v2 hv)

theorem rowDb_leaf (newDate : Val → Option JsDate) (row : Row) (db : Db) :
    (rowDb newDate row db).users = (applyLeaf (leafOps newDate row) db).users ∧
    (rowDb newDate row db).accounts = (applyLeaf (leafOps newDate row) db).accounts ∧
    (rowDb newDate row db).lobs = (applyLeaf (leafOps newDate row) db).lobs ∧
    (rowDb newDate row db).carriers = (applyLeaf (leafOps newDate row) db).carriers ∧
    (rowDb newDate row db).policies =
      upsertAll PolicyFields.policyNumber
        (policyOps newDate row (applyLeaf (leafOps newDate row) db)) db.policies :=
  ⟨rfl, rfl, rfl, rfl, rfl⟩

/-- The `_id` found under an optional key that a step has just upserted is
the `_id` found under it after any further upserts. -/
theorem bind_idOf_upsertAll {α : Type} (key : α → String) (mk : String → α)
    (hmk : ∀ k, key (mk k) = k) (o : Option String) (ops : List α) (c : Collection α) :
    o.bind (idOf key (upsertAll key ops (upsertAll key (o.map mk).toList c))) =
      o.bind (idOf key (upsertAll key (o.map mk).toList c)) := by
  cases o with
  | none => rfl
  | some k =>
    show idOf key (upsertAll key ops (upsertAll key [mk k] c)) k =
      idOf key (upsertAll key [mk k] c) k
    apply idOf_upsertAll_of_isSome
    have := isSome_findOne_upsertAll_of_mem key [mk k] c (mk k) (List.mem_singleton.2 rfl)
    rw [hmk] at this
    exact this

/-- The Policy a row writes is stored at the end of the run, with the `_id`s
the end of the run finds under the row's keys, when no later row has a text
Policy Number with the same trimmed value. -/
theorem last_policy_write (newDate : Val → Option JsDate) (row : Row) (post : List Row)
    (mid : Db) (pn f e : String) (a ac l c : Option String)
    (hP : row.PolicyNumber = .str pn) (hpn : pn ≠ "")
    (hF : row.FirstName = .str f) (hf : f ≠ "") (hE : row.Email = .str e) (he : e ≠ "")
    (h1 : agentKey row = .ok a)
    (h3 : leafKey row.AccountName "Account Name" = .ok ac)
    (h4 : leafKey row.Category "Category" = .ok l)
    (h5 : leafKey row.Carrier "Carrier" = .ok c)
    (hpost : ∀ r ∈ post, ∀ s, r.PolicyNumber = .str s → jsTrim s ≠ jsTrim pn) :
    ∃ i, idOf UserFields.email (runDb newDate (row :: post) mid).users (jsTrim e) = some i ∧
      StoredAs PolicyFields.policyNumber (runDb newDate (row :: post) mid).policies
        { policyNumber := jsTrim pn
          startDate := parseDate newDate row.StartDate
          endDate := parseDate newDate row.EndDate
          categoryId := l.bind (idOf LOBFields.categoryName
            (runDb newDate (row :: post) mid).lobs)
          carrierId := c.bind (idOf CarrierFields.companyName
            (runDb newDate (row :: post) mid).carriers)
          userId := i
          accountId := ac.bind (idOf AccountFields.accountName
            (runDb newDate (row :: post) mid).accounts) } := by
  obtain ⟨uf, h2, hue⟩ : ∃ uf, userData newDate row = .ok (some uf) ∧ uf.email = jsTrim e :=
    ⟨_, (userData_some_iff newDate row _).2 ⟨f, e, hF, hE, hf, he, rfl⟩, rfl⟩
  have hops := leafOps_reaches newDate row a (some uf) ac l c h1 h2 h3 h4 h5
  have hrun : runDb newDate (row :: post) mid = runDb newDate post (rowDb newDate row mid) := rfl
  obtain ⟨hru, hra, hrl, hrc, hrp⟩ := rowDb_leaf newDate row mid
  have hlu : (applyLeaf (leafOps newDate row) mid).users =
      upsertAll UserFields.email [uf] mid.users := by rw [hops]; rfl
  have hla : (applyLeaf (leafOps newDate row) mid).accounts =
      upsertAll AccountFields.accountName (ac.map AccountFields.mk).toList mid.accounts := by
    rw [hops]; rfl
  have hll : (applyLeaf (leafOps newDate row) mid).lobs =
      upsertAll LOBFields.categoryName (l.map LOBFields.mk).toList mid.lobs := by
    rw [hops]; rfl
  have hlc : (applyLeaf (leafOps newDate row) mid).carriers =
      upsertAll CarrierFields.companyName (c.map CarrierFields.mk).toList mid.carriers := by
    rw [hops]; rfl
  have hsome : ((applyLeaf (leafOps newDate row) mid).users.findOne UserFields.email
      uf.email).isSome := by
    rw [hlu]
    exact isSome_findOne_upsertAll_of_mem UserFields.email [uf] mid.users uf
      (List.mem_singleton.2 rfl)
  obtain ⟨i, hid⟩ : ∃ i, idOf UserFields.email (applyLeaf (leafOps newDate row) mid).users
      uf.email = some i := by
    unfold idOf
    cases hfd : (applyLeaf (leafOps newDate row) mid).users.findOne UserFields.email uf.email with
    | none => rw [hfd] at hsome; cases hsome
    | some d => exact ⟨d._id, rfl⟩
  have hof := policyOps_of newDate row (applyLeaf (leafOps newDate row) mid) a uf ac l c
    pn i h1 h2 h3 h4 h5 hP hpn hid
  have hfu : idOf UserFields.email (runDb newDate (row :: post) mid).users (jsTrim e) =
      some i := by
    rw [hrun, runDb_users, hru, ← hue, idOf_upsertAll_of_isSome _ _ _ _ hsome]
    exact hid
  have hfa : ac.bind (idOf AccountFields.accountName (runDb newDate (row :: post) mid).accounts) =
      ac.bind (idOf AccountFields.accountName (applyLeaf (leafOps newDate row) mid).accounts) := by
    rw [hrun, runDb_accounts, hra, hla]
    exact bind_idOf_upsertAll AccountFields.accountName AccountFields.mk (fun _ => rfl) ac _ _
  have hfl : l.bind (idOf LOBFields.categoryName (runDb newDate (row :: post) mid).lobs) =
      l.bind (idOf LOBFields.categoryName (applyLeaf (leafOps newDate row) mid).lobs) := by
    rw [hrun, runDb_lobs, hrl, hll]
    exact bind_idOf_upsertAll LOBFields.categoryName LOBFields.mk (fun _ => rfl) l _ _
  have hfc : c.bind (idOf CarrierFields.companyName (runDb newDate (row :: post) mid).carriers) =
      c.bind (idOf CarrierFields.companyName (applyLeaf (leafOps newDate row) mid).carriers) := by
    rw [hrun, runDb_carriers, hrc, hlc]
    exact bind_idOf_upsertAll CarrierFields.companyName CarrierFields.mk (fun _ => rfl) c _ _
  refine ⟨i, hfu, ?_⟩
  rw [hfa, hfl, hfc, hrun, runDb_policies, hrp, hof.2]
  apply storedAs_upsertAll_of_ne
  · exact storedAs_findOneAndUpdate PolicyFields.policyNumber _ mid.policies
  · intro p2 hp2
    obtain ⟨r, hr, db2, hmem⟩ := mem_policyTrace newDate post _ p2 hp2
    obtain ⟨_, _, _, _, s, _, _, _, _, _, hs, _, _, hp⟩ := mem_policyOps newDate r db2 p2 hmem
    rw [hp]
    exact hpost r hr s hs

theorem agentFields_eq_of_key (v w : AgentFields) (h : v.agentName = w.agentName) : v = w := by
  cases v; cases w; simp_all

theorem accountFields_eq_of_key (v w : AccountFields) (h : v.accountName = w.accountName) :
    v = w := by
  cases v; cases w; simp_all

theorem lobFields_eq_of_key (v w : LOBFields) (h : v.categoryName = w.categoryName) : v = w := by
  cases v; cases w; simp_all

theorem carrierFields_eq_of_key (v w : CarrierFields) (h : v.companyName = w.companyName) :
    v = w := by
  cases v; cases w; simp_all

/-- The Agent, Account, LOB and Carrier a row of the run writes are stored at
the end of the run under their keys. -/
theorem leaf_writes_stored (newDate : Val → Option JsDate) (data : List Row) (db : Db)
    (row : Row) (hrow : row ∈ data) (a : Option String) (h1 : agentKey row = .ok a) :
    (∀ k, a = some k → StoredAs AgentFields.agentName (runDb newDate data db).agents ⟨k⟩) ∧
    ∀ u, userData newDate row = .ok u →
      ∀ ac, leafKey row.AccountName "Account Name" = .ok ac →
        (∀ k, ac = some k →
          StoredAs AccountFields.accountName (runDb newDate data db).accounts ⟨k⟩) ∧
        ∀ l, leafKey row.Category "Category" = .ok l →
          (∀ k, l = some k → StoredAs LOBFields.categoryName (runDb newDate data db).lobs ⟨k⟩) ∧
          ∀ c, leafKey row.Carrier "Carrier" = .ok c →
            ∀ k, c = some k →
              StoredAs CarrierFields.companyName (runDb newDate data db).carriers ⟨k⟩ := by
  refine ⟨?_, ?_⟩
  · intro k hk
    subst hk
    rw [runDb_agents]
    apply storedAs_upsertAll_of_mem
    · apply mem_collect_of_mem _ data row hrow
      rw [leafOps_agents, h1]; simp
    · intro v2 _ hv2; exact agentFields_eq_of_key _ _ hv2
  · intro u h2 ac h3
    refine ⟨?_, ?_⟩
    · intro k hk
      subst hk
      rw [runDb_accounts]
      apply storedAs_upsertAll_of_mem
      · apply mem_collect_of_mem _ data row hrow
        rw [leafOps_accounts, h1, h2, h3]; simp
      · intro v2 _ hv2; exact accountFields_eq_of_key _ _ hv2
    · intro l h4
      refine ⟨?_, ?_⟩
      · intro k hk
        subst hk
        rw [runDb_lobs]
        apply storedAs_upsertAll_of_mem
        · apply mem_collect_of_mem _ data row hrow
          rw [leafOps_lobs, h1, h2, h3, h4]; simp
        · intro v2 _ hv2; exact lobFields_eq_of_key _ _ hv2
      · intro c h5 k hk
        subst hk
        rw [runDb_carriers]
        apply storedAs_upsertAll_of_mem
        · apply mem_collect_of_mem _ data row hrow
          rw [leafOps_carriers, h1, h2, h3, h4, h5]; simp
        · intro v2 _ hv2; exact carrierFields_eq_of_key _ _ hv2

/-! ## Claims on the run -/

/-- C2: natural-key uniqueness is preserved and the last write wins.  A run
from a store with at most one record per natural key in each of the six kinds
leaves such a store.  Each of the six steps, whenever it upserts in a store
that already holds its key, adds no record and leaves the record of that key
with exactly the values of the current row, under the `_id` it had.  Over the
run: every key stored after a prefix of the rows is stored at the end under
the same `_id`, in each kind; the User a row writes is what the end of the run
holds under its email, unless a later row writes that email; the Policy a row
writes is what the end of the run holds under its number, with the `_id`s the
end of the run finds under the row's keys, unless a later row has that number;
and the Agent, Account, LOB and Carrier a row writes are held at the end. -/
theorem natural_keys_unique_last_write_wins (newDate : Val → Option JsDate) (data : List Row)
    (db : Db) (h : db.UniqueKeys) :
    (processAndInsertData newDate data db).2.UniqueKeys ∧
    (∀ (row : Row) (w : World),
      (∀ k, agentKey row = .ok (some k) →
        ∃ w1, stepAgent row w = .ok w1 ∧
          Overwrites AgentFields.agentName w.db.agents w1.db.agents ⟨k⟩) ∧
      (∀ u, userData newDate row = .ok (some u) →
        ∃ w1, stepUser newDate row w = .ok w1 ∧
          Overwrites UserFields.email w.db.users w1.db.users u) ∧
      (∀ k, leafKey row.AccountName "Account Name" = .ok (some k) →
        ∃ w1, stepAccount row w = .ok w1 ∧
          Overwrites AccountFields.accountName w.db.accounts w1.db.accounts ⟨k⟩) ∧
      (∀ k, leafKey row.Category "Category" = .ok (some k) →
        ∃ w1, stepLOB row w = .ok w1 ∧
          Overwrites LOBFields.categoryName w.db.lobs w1.db.lobs ⟨k⟩) ∧
      (∀ k, leafKey row.Carrier "Carrier" = .ok (some k) →
        ∃ w1, stepCarrier row w = .ok w1 ∧
          Overwrites CarrierFields.companyName w.db.carriers w1.db.carriers ⟨k⟩) ∧
      (∀ p, policyData newDate row w.db = .ok (some p) →
        ∃ w1, stepPolicy newDate row w = .ok w1 ∧
          Overwrites PolicyFields.policyNumber w.db.policies w1.db.policies p)) ∧
    (∀ pre post, data = pre ++ post →
      Db.KeepsIds (processAndInsertData newDate pre db).2
        (processAndInsertData newDate data db).2) ∧
    (∀ pre row post u, data = pre ++ row :: post → WritesUser newDate row u →
      (∀ r ∈ post, ∀ u2, WritesUser newDate r u2 → u2.email ≠ u.email) →
      StoredAs UserFields.email (processAndInsertData newDate data db).2.users u) ∧
    (∀ pre row post pn f e a ac l c, data = pre ++ row :: post →
      row.PolicyNumber = .str pn → pn ≠ "" → row.FirstName = .str f → f ≠ "" →
      row.Email = .str e → e ≠ "" → agentKey row = .ok a →
      leafKey row.AccountName "Account Name" = .ok ac →
      leafKey row.Category "Category" = .ok l →
      leafKey row.Carrier "Carrier" = .ok c →
      (∀ r ∈ post, ∀ s, r.PolicyNumber = .str s → jsTrim s ≠ jsTrim pn) →
      ∃ i, idOf UserFields.email (processAndInsertData newDate data db).2.users (jsTrim e) =
          some i ∧
        StoredAs PolicyFields.policyNumber (processAndInsertData newDate data db).2.policies
          { policyNumber := jsTrim pn
            startDate := parseDate newDate row.StartDate
            endDate := parseDate newDate row.EndDate
            categoryId := l.bind (idOf LOBFields.categoryName
              (processAndInsertData newDate data db).2.lobs)
            carrierId := c.bind (idOf CarrierFields.companyName
              (processAndInsertData newDate data db).2.carriers)
            userId := i
            accountId := ac.bind (idOf AccountFields.accountName
              (processAndInsertData newDate data db).2.accounts) }) ∧
    (∀ row ∈ data, ∀ a, agentKey row = .ok a →
      (∀ k, a = some k →
        StoredAs AgentFields.agentName (processAndInsertData newDate data db).2.agents ⟨k⟩) ∧
      ∀ u, userData newDate row = .ok u →
        ∀ ac, leafKey row.AccountName "Account Name" = .ok ac →
          (∀ k, ac = some k →
            StoredAs AccountFields.accountName
              (processAndInsertData newDate data db).2.accounts ⟨k⟩) ∧
          ∀ l, leafKey row.Category "Category" = .ok l →
            (∀ k, l = some k →
              StoredAs LOBFields.categoryName (processAndInsertData newDate data db).2.lobs ⟨k⟩) ∧
            ∀ c, leafKey row.Carrier "Carrier" = .ok c →
              ∀ k, c = some k →
                StoredAs CarrierFields.companyName
                  (processAndInsertData newDate data db).2.carriers ⟨k⟩) := by
  refine ⟨?_, ?_, ?_, ?_, ?_, ?_⟩
  · rw [processAndInsertData_db]
    exact uniqueKeys_runDb newDate data db h
  · intro row w
    refine ⟨?_, ?_, ?_, ?_, ?_, ?_⟩
    · intro k hk
      exact ⟨putAgent (some k) w, by simp only [stepAgent, hk, putAgent],
        overwrites_findOneAndUpdate AgentFields.agentName ⟨k⟩ w.db.agents⟩
    · intro u hu
      exact ⟨putUser (some u) w, by simp only [stepUser, hu, putUser],
        overwrites_findOneAndUpdate UserFields.email u w.db.users⟩
    · intro k hk
      exact ⟨putAccount (some k) w, by simp only [stepAccount, hk, putAccount],
        overwrites_findOneAndUpdate AccountFields.accountName ⟨k⟩ w.db.accounts⟩
    · intro k hk
      exact ⟨putLOB (some k) w, by simp only [stepLOB, hk, putLOB],
        overwrites_findOneAndUpdate LOBFields.categoryName ⟨k⟩ w.db.lobs⟩
    · intro k hk
      exact ⟨putCarrier (some k) w, by simp only [stepCarrier, hk, putCarrier],
        overwrites_findOneAndUpdate CarrierFields.companyName ⟨k⟩ w.db.carriers⟩
    · intro p hp
      exact ⟨putPolicy (some p) w, by simp only [stepPolicy, hp, putPolicy],
        overwrites_findOneAndUpdate PolicyFields.policyNumber p w.db.policies⟩
  · intro pre post hd
    subst hd
    simp only [processAndInsertData_db]
    rw [runDb_append]
    exact keepsIds_runDb newDate post _
  · intro pre row post u hd hw hpost
    subst hd
    rw [processAndInsertData_db, runDb_append]
    exact last_user_write newDate row post _ u hw hpost
  · intro pre row post pn f e a ac l c hd hP hpn hF hf hE he h1 h3 h4 h5 hpost
    subst hd
    simp only [processAndInsertData_db]
    rw [runDb_append]
    exact last_policy_write newDate row post _ pn f e a ac l c hP hpn hF hf hE he h1 h3 h4 h5
      hpost
  · intro row hrow a h1
    simp only [processAndInsertData_db]
    exact leaf_writes_stored newDate data db row hrow a h1

/-- An instance from the empty store: two rows whose emails are equal once
trimmed; the run ends with the values of the second row under that email. -/
theorem natural_keys_unique_last_write_wins_witness :
    Db.empty.UniqueKeys ∧
    StoredAs UserFields.email
      (processAndInsertData (fun _ => none)
        [{ FirstName := .str "A", Email := .str "a@x.com" },
         { FirstName := .str "B", Email := .str " a@x.com ", Address := .str "1 Main St" }]
        Db.empty).2.users
      { firstName := "B", dob := none, address := .str "1 Main St", phone := .str "",
        state := .str "", zip := .str "", email := "a@x.com", gender := .str "",
        userType := .str "Customer" } :=
  ⟨Db.uniqueKeys_empty,
    (natural_keys_unique_last_write_wins (fun _ => none)
      [{ FirstName := .str "A", Email := .str "a@x.com" },
       { FirstName := .str "B", Email := .str " a@x.com ", Address := .str "1 Main St" }]
      Db.empty Db.uniqueKeys_empty).2.2.2.1
      [{ FirstName := .str "A", Email := .str "a@x.com" }]
      { FirstName := .str "B", Email := .str " a@x.com ", Address := .str "1 Main St" } []
      { firstName := "B", dob := none, address := .str "1 Main St", phone := .str "",
        state := .str "", zip := .str "", email := "a@x.com", gender := .str "",
        userType := .str "Customer" }
      rfl ⟨⟨none, rfl⟩, rfl⟩ (fun r hr => absurd hr (List.not_mem_nil r))⟩

end DataProcessor
